import Mathlib

/-!
# Rules engine of the Go game in `game/game.go` and trainer of `population/population.go`

Shallow embedding of the board state, the liberty flood fill (`hasRoom`),
capture resolution with the ko lock (`caputreOpponent`), stone placement
(`placePiece`), territory scoring (`asignTeritory`, `FullScore`), the turn
driver (`Update`, live and replay), and of the group partition and next
generation of the trainer (`CreateGroups`, `newPopulation`), followed by theorems
about them.

Conventions of the embedding:
* Go `int` values are `Int`; no arithmetic here comes near the 64 bit range.
* a `*bool` cell is `Option Bool` (`none` is `nil`, `some true` is a white stone);
* a `map[Cordinate]bool` that only ever stores `true` is the list of its keys;
* the recursive flood fills carry a depth budget (`fuel`); the entry points
  supply one more than the number of board cells, and the adequacy lemmas show
  that any larger budget gives the same answer;
* `float64` values are rationals: the sums of `FullScore` (small integers plus `1/2`)
  are exact, and the quotients of `Entety.match` are rounded to the nearest float64
  (`roundF64`);
* `rand.Intn(n)` is a raw natural number supplied by the caller, reduced below `n`;
  `Agent.Crossover` is a function supplied by the caller.
-/

namespace Gogo

/-- Coordinate of a board point (`type Cordinate struct`). -/
structure Cordinate where
  X : Int
  Y : Int
deriving DecidableEq, Repr

/-- The grid `Board [][]*bool`, indexed `Board[y][x]`. -/
abbrev Board := List (List (Option Bool))

/-- Modelled from the spec: the declaration of `gogo.GameState` is not part of the
sources at hand; its fields are the ones `game.go` reads and writes. -/
structure GameState where
  Board : Board
  Moves : List (Option Int × Option Int)
  WhiteStones : Int
  BlackStones : Int
  WhiteStonesCaptured : Int
  BlackStonesCaptured : Int
  MovesCount : Int
  WhiteMoves : Int
  BlackMoves : Int
  OpponentSkipped : Bool
deriving DecidableEq, Repr

/-- The fields of `type Game struct` that the rules engine and the driver use. -/
structure Game where
  Dymension : Int
  active : Bool
  whiteToMove : Bool
  delay_lock : Bool
  locked : Cordinate
  replayMoves : Option (List (Option Int × Option Int))
  replayMoveIdx : Int
  isReplay : Bool
  gameState : GameState
deriving DecidableEq, Repr

/-- The row `Board[y]` (empty when `y` is not a row index). -/
def rowAt (b : Board) (y : Int) : List (Option Bool) :=
  if y < 0 then [] else b.getD y.toNat []

/-- The guard `y >= len(Board) || y < 0 || x >= len(Board[y]) || x < 0`. -/
def outOfBounds (b : Board) (x y : Int) : Bool :=
  decide ((b.length : Int) ≤ y) || decide (y < 0) ||
    decide (((rowAt b y).length : Int) ≤ x) || decide (x < 0)

/-- The cell `Board[y][x]`, read only under the bounds guard. -/
def cellAt (b : Board) (x y : Int) : Option Bool :=
  if x < 0 then none else (rowAt b y).getD x.toNat none

/-- The assignment `Board[y][x] = v`. The program only writes at points that passed
the bounds guard (Go would stop with an index error elsewhere); outside the
board the model leaves the grid alone. -/
def setCell (b : Board) (x y : Int) (v : Option Bool) : Board :=
  if outOfBounds b x y then b else b.set y.toNat ((rowAt b y).set x.toNat v)

/-- Number of cells of the board. -/
def cellCount (b : Board) : Nat := (b.map List.length).sum

/-- `pieceAt`: the cell, or `nil` outside the board. -/
def pieceAt (b : Board) (x y : Int) : Option Bool :=
  if outOfBounds b x y then none else cellAt b x y

/-- `hasRoom` with a depth budget. Returns the answer, the updated `checked` map
and the updated `group` slice (`none` when the caller passed `nil`). -/
def hasRoomAux : Nat → Board → Int → Int → Bool → List Cordinate →
    Option (List Cordinate) → Bool × List Cordinate × Option (List Cordinate)
  | 0, _, _, _, _, checked, group => (false, checked, group)
  | fuel + 1, b, x, y, white, checked, group =>
    let c : Cordinate := ⟨x, y⟩
    if c ∈ checked then (false, checked, group)
    else
      let checked := c :: checked
      if outOfBounds b x y then (false, checked, group)
      else
        match cellAt b x y with
        | none => (true, checked, group)
        | some col =>
          if col != white then (false, checked, group)
          else
            let group := group.map (fun l => l ++ [c])
            let r1 := hasRoomAux fuel b (x - 1) y white checked group
            let r2 := hasRoomAux fuel b (x + 1) y white r1.2.1 r1.2.2
            let r3 := hasRoomAux fuel b x (y - 1) white r2.2.1 r2.2.2
            let r4 := hasRoomAux fuel b x (y + 1) white r3.2.1 r3.2.2
            (r1.1 || r2.1 || r3.1 || r4.1, r4.2.1, r4.2.2)

/-- `hasRoom`: does the group of colour `white` through `(x, y)` touch an empty
point; every stone of the group is appended to `group`. -/
def hasRoom (b : Board) (x y : Int) (white : Bool) (checked : List Cordinate)
    (group : Option (List Cordinate)) : Bool × List Cordinate × Option (List Cordinate) :=
  hasRoomAux (cellCount b + 1) b x y white checked group

/-- `findGroup`: the group of colour `white` through `(x, y)` when it has no
liberty, `nil` otherwise. -/
def findGroup (b : Board) (x y : Int) (white : Bool) : Option (List Cordinate) :=
  match pieceAt b x y with
  | none => none
  | some col =>
    if col != white then none
    else
      let r := hasRoom b x y white [] (some [])
      if r.1 then none else r.2.2

/-- `updateCtr` on the pair of counters `(*whitePtr, *blackPtr)`: the local
`blackPtr` is redirected to the white counter when `iswhite`, then `cnt` is
added through it. -/
def updateCtr (ctrs : Int × Int) (iswhite : Bool) (cnt : Int) : Int × Int :=
  if iswhite then (ctrs.1 + cnt, ctrs.2) else (ctrs.1, ctrs.2 + cnt)

/-- The `toRemove` slice built by `caputreOpponent`: the capturable groups found
at the four neighbours, appended one after the other. -/
def toRemove (b : Board) (x y : Int) (white : Bool) : List Cordinate :=
  (findGroup b (x - 1) y (!white)).getD [] ++ (findGroup b (x + 1) y (!white)).getD [] ++
    (findGroup b x (y - 1) (!white)).getD [] ++ (findGroup b x (y + 1) (!white)).getD []

/-- The loop `for _, c := range toRemove { Board[c.Y][c.X] = nil }`. -/
def removeAll (b : Board) (cs : List Cordinate) : Board :=
  cs.foldl (fun acc c => setCell acc c.X c.Y none) b

/-- The two counter updates that end `caputreOpponent`. -/
def applyCapture (s : GameState) (white : Bool) (rm : List Cordinate) : GameState :=
  let st := updateCtr (s.WhiteStones, s.BlackStones) (!white) (-(rm.length : Int))
  let cp := updateCtr (s.WhiteStonesCaptured, s.BlackStonesCaptured) (!white) (rm.length : Int)
  { s with Board := removeAll s.Board rm, WhiteStones := st.1, BlackStones := st.2,
           WhiteStonesCaptured := cp.1, BlackStonesCaptured := cp.2 }

/-- `caputreOpponent`. -/
def caputreOpponent (g : Game) (x y : Int) (white : Bool) : Bool × Game :=
  let rm := toRemove g.gameState.Board x y white
  if rm.length = 1 ∧ rm.head? = some g.locked then (false, g)
  else
    let g1 : Game := if rm.length = 1 then { g with delay_lock := true, locked := ⟨x, y⟩ } else g
    (decide (rm.length ≠ 0), { g1 with gameState := applyCapture g1.gameState white rm })

/-- The state after `Board[y][x] = &white` and the increment of the stone counter. -/
def putStone (g : Game) (x y : Int) (white : Bool) : Game :=
  let st := updateCtr (g.gameState.WhiteStones, g.gameState.BlackStones) white 1
  { g with gameState := { g.gameState with Board := setCell g.gameState.Board x y (some white),
                                           WhiteStones := st.1, BlackStones := st.2 } }

/-- The undo branch of `placePiece`. -/
def takeStone (g : Game) (x y : Int) (white : Bool) : Game :=
  let st := updateCtr (g.gameState.WhiteStones, g.gameState.BlackStones) white (-1)
  { g with gameState := { g.gameState with Board := setCell g.gameState.Board x y none,
                                           WhiteStones := st.1, BlackStones := st.2 } }

/-- `placePiece`. -/
def placePiece (g : Game) (x y : Int) (white : Bool) : Bool × Game :=
  if outOfBounds g.gameState.Board x y || (cellAt g.gameState.Board x y).isSome then (false, g)
  else
    let g1 := putStone g x y white
    let r := caputreOpponent g1 x y white
    if r.1 then (true, r.2)
    else
      let g2 := r.2
      if (hasRoom g2.gameState.Board x y white [] none).1 then (true, g2)
      else (false, takeStone g2 x y white)

/-- Result of `asignTeritory`: `(uniform, owner, count)`. -/
abbrev Verdict := Bool × Option Bool × Int

/-- One pass of the loop body of `asignTeritory`: `none` is the early
`return false, nil, 0`, otherwise the updated `(prev_uniform, prev_owner, prev_cnt)`. -/
def mergeVerdict (prev curr : Verdict) : Option Verdict :=
  if !prev.1 then none
  else
    match prev.2.1, curr.2.1 with
    | some p, some c =>
      if p != c then none else some (curr.1, some c, prev.2.2 + curr.2.2)
    | some p, none => some (curr.1, some p, prev.2.2 + curr.2.2)
    | none, o => some (curr.1, o, prev.2.2 + curr.2.2)

/-- `asignTeritory` with a depth budget; returns the verdict and the updated
`checked` map. -/
def asignTeritoryAux : Nat → Board → Int → Int → List Cordinate → Verdict × List Cordinate
  | 0, _, _, _, checked => ((true, none, 0), checked)
  | fuel + 1, b, x, y, checked =>
    let c : Cordinate := ⟨x, y⟩
    if c ∈ checked then ((true, none, 0), checked)
    else
      let checked := c :: checked
      if outOfBounds b x y then ((true, none, 0), checked)
      else
        match cellAt b x y with
        | some col => ((true, some col, 0), checked)
        | none =>
          let r0 := asignTeritoryAux fuel b x (y - 1) checked
          let r1 := asignTeritoryAux fuel b x (y + 1) r0.2
          match mergeVerdict r0.1 r1.1 with
          | none => ((false, none, 0), r1.2)
          | some p1 =>
            let r2 := asignTeritoryAux fuel b (x - 1) y r1.2
            match mergeVerdict p1 r2.1 with
            | none => ((false, none, 0), r2.2)
            | some p2 =>
              let r3 := asignTeritoryAux fuel b (x + 1) y r2.2
              match mergeVerdict p2 r3.1 with
              | none => ((false, none, 0), r3.2)
              | some p3 => ((p3.1, p3.2.1, 1 + p3.2.2), r3.2)

/-- `asignTeritory`. -/
def asignTeritory (b : Board) (x y : Int) (checked : List Cordinate) : Verdict × List Cordinate :=
  asignTeritoryAux (cellCount b + 1) b x y checked

/-- The running values of the scoring sweep: `score`, `white`, `black` and the
shared `checked` map. -/
structure Sweep where
  score : ℚ
  white : ℚ
  black : ℚ
  checked : List Cordinate

/-- Body of the inner loop of `FullScore` at the point `(x, y)`. -/
def scoreCell (b : Board) (acc : Sweep) (x y : Int) : Sweep :=
  if (cellAt b x y).isSome || decide ((⟨x, y⟩ : Cordinate) ∈ acc.checked) then acc
  else
    let r := asignTeritory b x y acc.checked
    match r.1.1, r.1.2.1 with
    | true, some true =>
      { score := acc.score + ((1 * r.1.2.2 : Int) : ℚ), white := acc.white + (r.1.2.2 : ℚ),
        black := acc.black, checked := r.2 }
    | true, some false =>
      { score := acc.score + ((-1 * r.1.2.2 : Int) : ℚ), white := acc.white,
        black := acc.black + (r.1.2.2 : ℚ), checked := r.2 }
    | _, _ => { acc with checked := r.2 }

/-- The inner loop `for x := range Board[y]`. -/
def scoreRow (b : Board) (acc : Sweep) (y : Nat) : Sweep :=
  (List.range (rowAt b y).length).foldl (fun a x => scoreCell b a (x : Int) (y : Int)) acc

/-- The outer loop `for y := range Board`. -/
def scoreBoard (b : Board) (acc : Sweep) : Sweep :=
  (List.range b.length).foldl (fun a y => scoreRow b a y) acc

/-- `FullScore`: `(score, white, black)`. -/
def FullScore (g : Game) : ℚ × ℚ × ℚ :=
  let s := g.gameState
  let init : Sweep :=
    { score := 1 / 2 + (s.WhiteStones : ℚ) - (s.WhiteStonesCaptured : ℚ) - (s.BlackStones : ℚ)
        + (s.BlackStonesCaptured : ℚ),
      white := (s.BlackStonesCaptured : ℚ),
      black := (s.WhiteStonesCaptured : ℚ),
      checked := [] }
  let r := scoreBoard s.Board init
  (r.score, r.white, r.black)

/-- `NewGame`: a fresh empty square board, no ko lock, game in progress. -/
def NewGame (g : Game) : Game :=
  { g with
    gameState :=
      { Board := List.replicate g.Dymension.toNat (List.replicate g.Dymension.toNat none),
        Moves := [], WhiteStones := 0, BlackStones := 0, WhiteStonesCaptured := 0,
        BlackStonesCaptured := 0, MovesCount := 0, WhiteMoves := 0, BlackMoves := 0,
        OpponentSkipped := false },
    locked := ⟨-1, -1⟩,
    active := true }

/-- What `player.Place` hands back to `Update`: `(skip, x, y)`. -/
structure Decision where
  skip : Bool
  x : Option Int
  y : Option Int
deriving DecidableEq, Repr

/-- The bookkeeping `Update` does once a turn is accepted (the body of its last `if`). -/
def commitMove (g : Game) (skip : Bool) (x y : Option Int) : Game :=
  let s := g.gameState
  let s1 : GameState := { s with MovesCount := s.MovesCount + 1, Moves := s.Moves ++ [(x, y)] }
  let act := if skip && s1.OpponentSkipped then false else g.active
  let s2 : GameState :=
    if skip then
      if g.whiteToMove then { s1 with OpponentSkipped := true, WhiteMoves := s1.WhiteMoves + 1 }
      else { s1 with OpponentSkipped := true, BlackMoves := s1.BlackMoves + 1 }
    else { s1 with OpponentSkipped := false }
  let lk := if !g.delay_lock then (⟨-1, -1⟩ : Cordinate) else g.locked
  { g with gameState := s2, active := act, locked := lk, delay_lock := false,
           whiteToMove := !g.whiteToMove }

/-- The last `if` of `Update`, given the turn `(skip, x, y)` to play. -/
def playTurn (g : Game) (skip : Bool) (x y : Option Int) : Game :=
  if skip then commitMove g skip x y
  else
    match x, y with
    | some xv, some yv =>
      let r := placePiece g xv yv g.whiteToMove
      if r.1 then commitMove r.2 skip x y else r.2
    | _, _ => g

/-- `Game.Update`: `d` is the answer of the agent to move, consulted only when the
game is not a replay. Returns the error (if any) and the next state. -/
def Update (g : Game) (d : Decision) : Option String × Game :=
  if !g.active then (some "game finished", g)
  else if !g.isReplay then (none, playTurn g d.skip d.x d.y)
  else
    match g.replayMoves with
    | none => (none, { g with active := false })
    | some ms =>
      if (ms.length : Int) ≤ g.replayMoveIdx then (none, { g with active := false })
      else
        let cord := ms.getD g.replayMoveIdx.toNat (none, none)
        let g1 := { g with replayMoveIdx := g.replayMoveIdx + 1 }
        (none, playTurn g1 (cord.1.isNone && cord.2.isNone) cord.1 cord.2)

/-! ### Vocabulary of the statements -/

/-- The four orthogonal neighbours of a point, in the order `hasRoom` probes them. -/
def neighbours (p : Cordinate) : List Cordinate :=
  [⟨p.X - 1, p.Y⟩, ⟨p.X + 1, p.Y⟩, ⟨p.X, p.Y - 1⟩, ⟨p.X, p.Y + 1⟩]

/-- The point `p` is on the board and carries a stone of colour `w`. -/
def stoneAt (b : Board) (w : Bool) (p : Cordinate) : Prop :=
  outOfBounds b p.X p.Y = false ∧ cellAt b p.X p.Y = some w

/-- The point `p` is on the board and empty. -/
def emptyAt (b : Board) (p : Cordinate) : Prop :=
  outOfBounds b p.X p.Y = false ∧ cellAt b p.X p.Y = none

/-- The point `q` is reached from `p` by orthogonal steps that each land on a stone of
colour `w`: for a stone `p` of colour `w`, `q` ranges over the group of `p`. -/
def Linked (b : Board) (w : Bool) (p q : Cordinate) : Prop :=
  Relation.ReflTransGen (fun a c => c ∈ neighbours a ∧ stoneAt b w c) p q

/-- The group of colour `w` through `p` has a liberty: an empty point next to one of
its stones. -/
def hasLiberty (b : Board) (w : Bool) (p : Cordinate) : Prop :=
  ∃ q n, Linked b w p q ∧ n ∈ neighbours q ∧ emptyAt b n

/-- The points of the board, row by row, starting at row number `y0`. -/
def cellsFrom : Nat → Board → List Cordinate
  | _, [] => []
  | y0, row :: rest =>
    (List.range row.length).map (fun (x : Nat) => (⟨(x : Int), (y0 : Int)⟩ : Cordinate)) ++
      cellsFrom (y0 + 1) rest

/-- Number of board points not yet in the `checked` map: the quantity that bounds the
depth of the flood fills. -/
def unchecked (b : Board) (checked : List Cordinate) : Nat :=
  ((cellsFrom 0 b).filter (fun q => decide (q ∉ checked))).length

/-- What one or several consecutive `hasRoom` calls started at the points `seeds` with
the map `V` achieve, when they answer `r`, leave the map `V'` and append `new`
to the group. -/
structure RoomInv (b : Board) (w : Bool) (seeds V : List Cordinate) (r : Bool)
    (V' new : List Cordinate) : Prop where
  mono : ∀ q, q ∈ V → q ∈ V'
  seen : ∀ s, s ∈ seeds → s ∈ V'
  nodup : new.Nodup
  mem_new : ∀ q, q ∈ new ↔ (q ∈ V' ∧ q ∉ V ∧ stoneAt b w q)
  closed : ∀ q, q ∈ V' → q ∉ V → stoneAt b w q → ∀ n, n ∈ neighbours q → n ∈ V'
  room : r = true ↔ ∃ q, q ∈ V' ∧ q ∉ V ∧ emptyAt b q
  touch : ∀ q, q ∈ V' → q ∉ V →
    q ∈ seeds ∨ ∃ s, s ∈ seeds ∧ stoneAt b w s ∧ ∃ p, Linked b w s p ∧ q ∈ neighbours p

/-- The stone of colour `w` at `p` belongs to a group without any liberty. -/
def capturable (b : Board) (w : Bool) (p : Cordinate) : Prop :=
  stoneAt b w p ∧ ¬ hasLiberty b w p

/-- A game in progress on the board `b` with the given stone counters
(`ws`, `bs`), captured counters (`wc`, `bc`), ko lock and side to move; used to
write down concrete positions. -/
def gameOn (b : Board) (ws bs wc bc : Int) (lk : Cordinate) (wtm : Bool) : Game :=
  { Dymension := (b.length : Int), active := true, whiteToMove := wtm, delay_lock := false,
    locked := lk, replayMoves := none, replayMoveIdx := 0, isReplay := false,
    gameState :=
      { Board := b, Moves := [], WhiteStones := ws, BlackStones := bs, WhiteStonesCaptured := wc,
        BlackStonesCaptured := bc, MovesCount := 0, WhiteMoves := 0, BlackMoves := 0,
        OpponentSkipped := false } }

/-- The ko test of `caputreOpponent` on the board `b` (new stone already placed at
`(x, y)`): exactly one stone would be taken and it stands on the locked point. -/
def koApplies (b : Board) (locked : Cordinate) (x y : Int) (white : Bool) : Prop :=
  (toRemove b x y white).length = 1 ∧ (toRemove b x y white).head? = some locked

/-- The ko test is decidable: it compares two finite lists. -/
instance (b : Board) (locked : Cordinate) (x y : Int) (white : Bool) :
    Decidable (koApplies b locked x y white) := by
  unfold koApplies; infer_instance

/-- The territory part of the scoring sweep: the sizes credited so far to White and to
Black, and the shared `checked` map. -/
structure Credit where
  white : Int
  black : Int
  checked : List Cordinate
deriving DecidableEq, Repr

/-- What the inner loop body of `FullScore` credits at `(x, y)`: the size returned by
`asignTeritory` goes to the owner when the verdict is uniform with an owner. -/
def creditCell (b : Board) (acc : Credit) (x y : Int) : Credit :=
  if (cellAt b x y).isSome || decide ((⟨x, y⟩ : Cordinate) ∈ acc.checked) then acc
  else
    let r := asignTeritory b x y acc.checked
    match r.1.1, r.1.2.1 with
    | true, some true => { white := acc.white + r.1.2.2, black := acc.black, checked := r.2 }
    | true, some false => { white := acc.white, black := acc.black + r.1.2.2, checked := r.2 }
    | _, _ => { acc with checked := r.2 }

/-- The credits of one row of the sweep. -/
def creditRow (b : Board) (acc : Credit) (y : Nat) : Credit :=
  (List.range (rowAt b y).length).foldl (fun a x => creditCell b a (x : Int) (y : Int)) acc

/-- The credits of the whole sweep. -/
def creditBoard (b : Board) (acc : Credit) : Credit :=
  (List.range b.length).foldl (fun a y => creditRow b a y) acc

/-- The territory `(white, black)` that the scoring sweep of `FullScore` credits on the
board `b`. -/
def territory (b : Board) : Int × Int :=
  ((creditBoard b ⟨0, 0, []⟩).white, (creditBoard b ⟨0, 0, []⟩).black)

/-- The running values of `FullScore` are the initial ones plus the credits. -/
def SweepRel (init sw : Sweep) (cr : Credit) : Prop :=
  sw.checked = cr.checked ∧ sw.white = init.white + (cr.white : ℚ) ∧
    sw.black = init.black + (cr.black : ℚ) ∧
    sw.score = init.score + (cr.white : ℚ) - (cr.black : ℚ)

/-- A position after White has captured a black stone in the corner `(0, 0)`: two white
stones on the board, one black stone captured. -/
def cornerCaptured : Game :=
  gameOn [[none, some true, none], [some true, none, none], [none, none, none]]
    2 0 0 1 ⟨-1, -1⟩ false

/-- The `Game` value callers hand to `NewGame`: only the dimension is set, every other
field has its zero value. -/
def blankGame (n : Int) : Game :=
  { Dymension := n, active := false, whiteToMove := false, delay_lock := false,
    locked := ⟨0, 0⟩, replayMoves := none, replayMoveIdx := 0, isReplay := false,
    gameState :=
      { Board := [], Moves := [], WhiteStones := 0, BlackStones := 0, WhiteStonesCaptured := 0,
        BlackStonesCaptured := 0, MovesCount := 0, WhiteMoves := 0, BlackMoves := 0,
        OpponentSkipped := false } }

/-- The condition of the last `if` of `Update` for the answer `d`: the turn is accepted
when it is a pass, or a placement with both coordinates that `placePiece` accepts. -/
def accepts (g : Game) (d : Decision) : Bool :=
  d.skip ||
    (match d.x, d.y with
     | some x, some y => (placePiece g x y g.whiteToMove).1
     | _, _ => false)

/-- The state after one `Update` call per answer of the list (errors are ignored, as a
finished game no longer changes). -/
def run (g : Game) (ds : List Decision) : Game :=
  ds.foldl (fun s d => (Update s d).2) g

/-- Whether the most recent accepted turn of the run `ds` from `g` was a pass; `p` is
the answer for the turns before the run. -/
def lastWasPass : Game → Bool → List Decision → Bool
  | _, p, [] => p
  | g, p, d :: ds =>
    lastWasPass (Update g d).2 (if g.active && accepts g d then d.skip else p) ds

/-- The agent answer "place a stone at `p`". -/
def place (p : Cordinate) : Decision := ⟨false, some p.X, some p.Y⟩

/-- The state after one `Update` with the agent answer `d`. -/
def next (g : Game) (d : Decision) : Game := (Update g d).2

/-- A ko shape on a 4x4 board, Black to move: the white stone at `(1,1)` has its last
liberty at `(2,1)`, and a black stone placed at `(2,1)` has `(1,1)` as only liberty. -/
def koPosition : Game :=
  gameOn [[none, some false, some true, none], [some false, some true, none, some true],
      [none, some false, some true, none], [none, none, none, none]]
    4 3 0 0 ⟨-1, -1⟩ false

set_option maxRecDepth 100000

/-- `updateCtr` on a store of integer cells, the two counters being given by their
addresses `whitePtr` and `blackPtr`: the local `blackPtr` is set to `whitePtr` when
`iswhite`, then `cnt` is added to the cell it points to. -/
def updateCtrAt (mem : Nat → Int) (whitePtr blackPtr : Nat) (iswhite : Bool) (cnt : Int) :
    Nat → Int :=
  let target := if iswhite then whitePtr else blackPtr
  fun a => if a = target then mem a + cnt else mem a

/-! ### Evolutionary trainer (`population/population.go`) -/

/-- The fields of `type Population struct` that the trainer computes with. The entities
are `*Entety` pointers; the model keeps them abstract (type `α`). -/
structure Population (α : Type) where
  GameDymension : Int
  Enteties : List α
  Age : Int
  Size : Int
deriving DecidableEq, Repr

/-- The tuple assignment `s[i], s[j] = s[j], s[i]` (both indices in range). -/
def swapAt {α : Type} (l : List α) (i j : Nat) : List α :=
  match l[i]?, l[j]? with
  | some a, some b => (l.set i b).set j a
  | _, _ => l

/-- The shuffle loop of `CreateGroups`: at index `i` the value `j = rand.Intn(i + 1)` is
drawn and the entries `i` and `j` are exchanged. `rnd i` is the raw value behind
the `i`-th draw; `rand.Intn(n)` delivers it reduced below `n`. -/
def shuffle {α : Type} (rnd : Nat → Nat) (l : List α) : List α :=
  (List.range l.length).foldl (fun acc i => swapAt acc i (rnd i % (i + 1))) l

/-- The slice expression `s[lo:hi]`, which stops the program unless
`0 <= lo <= hi <= len(s)` (the capacity is taken to be the length). -/
def sliceOf {α : Type} (l : List α) (lo hi : Int) : Option (List α) :=
  if 0 ≤ lo ∧ lo ≤ hi ∧ hi ≤ (l.length : Int) then
    some ((l.drop lo.toNat).take (hi - lo).toNat)
  else none

/-- The loop `for i := 0; i < groups; i++` of `CreateGroups`, with `n` rounds left and
the counter at `i`. -/
def groupsLoop {α : Type} (ents : List α) (groupSize : Int) : Nat → Nat → Option (List (List α))
  | 0, _ => some []
  | n + 1, i =>
    match sliceOf ents ((i : Int) * groupSize) (((i : Int) + 1) * groupSize) with
    | none => none
    | some s =>
      match groupsLoop ents groupSize n (i + 1) with
      | none => none
      | some rest => some (s :: rest)

/-- `CreateGroups`: the population after the shuffle and the groups returned; `none`
when the Go code stops on a division by zero or a slice out of range. -/
def CreateGroups {α : Type} (rnd : Nat → Nat) (p : Population α) (groups : Int) :
    Option (Population α × List (List α)) :=
  let ents := shuffle rnd p.Enteties
  if groups = 0 then none
  else
    match groupsLoop ents (p.Size.tdiv groups) groups.toNat 0 with
    | none => none
    | some result => some ({ p with Enteties := ents }, result)

/-- The index expression `s[i]` with a Go `int` index: `none` when the index is out of
range (the program stops there). -/
def indexAt {α : Type} (l : List α) (i : Int) : Option α :=
  if i < 0 then none else l[i.toNat]?

/-- `AddEntety`: append the entity and count it. -/
def AddEntety {α : Type} (p : Population α) (e : α) : Population α :=
  { p with Enteties := p.Enteties ++ [e], Size := p.Size + 1 }

/-- The inner loop `for gi := range groups` of the carry-over part of `newPopulation`,
for rank `i`: the entity `groups[gi][i]` is appended to `Enteties` (by `append`, not
by `AddEntety`) while `p.Size < prevSize`. -/
def keepRow {α : Type} (prevSize i : Int) : Population α → List (List α) →
    Option (Population α)
  | p, [] => some p
  | p, grp :: rest =>
    if p.Size < prevSize then
      match indexAt grp i with
      | none => none
      | some e => keepRow prevSize i { p with Enteties := p.Enteties ++ [e] } rest
    else keepRow prevSize i p rest

/-- The outer loop `for i := 0; i < keepTopInGroup; i++`, with `n` rounds left. -/
def keepLoop {α : Type} (groups : List (List α)) (prevSize : Int) :
    Nat → Int → Population α → Option (Population α)
  | 0, _, p => some p
  | n + 1, i, p =>
    match keepRow prevSize i p groups with
    | none => none
    | some p1 => keepLoop groups prevSize n (i + 1) p1

/-- The loop `for p.Size < prevSize` of `newPopulation`. `cross a b` stands for the new
entity built from `a.Agent.Crossover(b.Agent)`; `rnd d` is the raw value behind the
`d`-th draw of `rand.Intn`; `fuel` bounds the number of rounds (each round raises
`Size` by one, so `prevSize - Size` rounds are all there can be). -/
def breedLoop {α : Type} (cross : α → α → α) (rnd : Nat → Nat) (groups : List (List α))
    (groupsSize prevSize : Int) : Nat → Nat → Int → Int → Population α →
    Option (Population α)
  | 0, _, _, _, p => some p
  | fuel + 1, d, groupIdx, inGroupIdx, p =>
    if p.Size < prevSize then
      match (indexAt groups groupIdx).bind (fun grp => indexAt grp inGroupIdx) with
      | none => none
      | some entetyOne =>
        if groups.length = 0 ∨ groupsSize ≤ 0 then none
        else
          match (groups[rnd d % groups.length]?).bind
              (fun grp => indexAt grp ((rnd (d + 1) % groupsSize.toNat : Nat) : Int)) with
          | none => none
          | some entetyTwo =>
            let p1 := AddEntety p (cross entetyOne entetyTwo)
            if (groups.length : Int) ≤ groupIdx + 1 then
              breedLoop cross rnd groups groupsSize prevSize fuel (d + 2) 0
                ((inGroupIdx + 1).tmod groupsSize) p1
            else
              breedLoop cross rnd groups groupsSize prevSize fuel (d + 2) (groupIdx + 1)
                inGroupIdx p1
    else some p

/-- `newPopulation`; `none` when the Go code stops on an index out of range or on
`rand.Intn` of a non-positive bound. -/
def newPopulation {α : Type} (cross : α → α → α) (rnd : Nat → Nat) (p : Population α)
    (groups : List (List α)) (groupsSize keepTopInGroup : Int) : Option (Population α) :=
  let prevSize := p.Size
  let p0 : Population α := { p with Enteties := [], Size := 0 }
  match keepLoop groups prevSize keepTopInGroup.toNat 0 p0 with
  | none => none
  | some p1 =>
    match breedLoop cross rnd groups groupsSize prevSize (prevSize - p1.Size).toNat 0 0 0 p1 with
    | none => none
    | some p2 => some { p2 with Age := p2.Age + 1 }

/-- `ReplayFromFile`, the file already read: `moves` is the move list of the save. -/
def ReplayFromFile (g : Game) (moves : List (Option Int × Option Int)) : Game :=
  { g with replayMoves := some moves, replayMoveIdx := 0, isReplay := true }

/-- The state after `n` calls of `Update` on a replay (the agents are not consulted in
replay mode, so the answer handed to `Update` is immaterial). -/
def replayRun : Game → Nat → Game
  | g, 0 => g
  | g, n + 1 => replayRun (Update g ⟨false, none, none⟩).2 n

/-- The game `g` with other replay fields. -/
def withReplay (g : Game) (moves : Option (List (Option Int × Option Int))) (idx : Int)
    (rep : Bool) : Game :=
  { g with replayMoves := moves, replayMoveIdx := idx, isReplay := rep }

/-- Two games agree on everything but the replay fields: same board state and counters,
same move log, same progress flag, side to move and ko lock. -/
def sameGame (g h : Game) : Prop :=
  g.gameState = h.gameState ∧ g.active = h.active ∧ g.whiteToMove = h.whiteToMove ∧
    g.delay_lock = h.delay_lock ∧ g.locked = h.locked ∧ g.Dymension = h.Dymension

/-- `FullMoves`: `(MovesCount, WhiteMoves, BlackMoves)`. -/
def FullMoves (g : Game) : Int × Int × Int :=
  (g.gameState.MovesCount, g.gameState.WhiteMoves, g.gameState.BlackMoves)

/-- The integer nearest to `q`, the even one of the two when `q` lies halfway. -/
def roundHalfEven (q : ℚ) : Int :=
  if q - ⌊q⌋ < 1 / 2 then ⌊q⌋
  else if 1 / 2 < q - ⌊q⌋ then ⌊q⌋ + 1
  else if ⌊q⌋ % 2 = 0 then ⌊q⌋ else ⌊q⌋ + 1

/-- The float64 nearest to the real number `q` (IEEE 754 binary64, round to nearest, ties
to even), which is what a float64 operation returns for the exact result `q`: the
significand has 53 bits, so the spacing at `q` is `2 ^ (e - 52)` with
`2 ^ e ≤ |q| < 2 ^ (e + 1)`, and `2 ^ (-1074)` below `2 ^ (-1022)`. Results of
`2 ^ 1024` and more, which float64 turns into an infinity, do not arise where the
function is used: `Entety.match` divides a float64 by a number that is at least 1. -/
def roundF64 (q : ℚ) : ℚ :=
  if q = 0 then 0
  else
    (roundHalfEven (q / 2 ^ (max (Int.log 2 |q|) (-1022) - 52)) : ℚ) *
      2 ^ (max (Int.log 2 |q|) (-1022) - 52)

/-- The loop `for g.Update() == nil { }` of `Entety.match`, the agents' answers being
taken from the list in the order they are asked. `Update` on a finished game returns
the error without asking anybody, which ends the loop; a game still in progress when
the answers run out has no result (the loop of the Go code goes on as long as the
agents keep it going). -/
def matchLoop : Game → List Decision → Option Game
  | g, [] => if g.active then none else some g
  | g, d :: ds =>
    match Update g d with
    | (none, g1) => matchLoop g1 ds
    | (some _, g1) => some g1

/-- `Entety.match` on a board of dimension `dim`: the game played by the two agents and
the triple `(gameScore, whiteScorePerMoves, blackScorePerMoves)`, the last two being
the float64 quotients `ws / math.Max(1, float64(wm))` and
`bs / math.Max(1, float64(bm))`. -/
def playMatch (dim : Int) (answers : List Decision) : Option ((ℚ × ℚ × ℚ) × Game) :=
  match matchLoop (NewGame (blankGame dim)) answers with
  | none => none
  | some g =>
    let s := FullScore g
    let m := FullMoves g
    some ((s.1, roundF64 (s.2.1 / max 1 (m.2.1 : ℚ)), roundF64 (s.2.2 / max 1 (m.2.2 : ℚ))), g)

/-- Every stone of the board belongs to a group with a liberty. -/
def alive (b : Board) : Prop :=
  ∀ (p : Cordinate) (w : Bool), stoneAt b w p → hasLiberty b w p

/-- The ko lock is either released or in a ko shape: next to the locked point there is an
empty point all of whose neighbours are off the board or stones of the side that
has just moved. -/
def lockOK (g : Game) : Prop :=
  g.locked = ⟨-1, -1⟩ ∨
    ∃ Q, Q ∈ neighbours g.locked ∧ emptyAt g.gameState.Board Q ∧
      ∀ n, n ∈ neighbours Q →
        outOfBounds g.gameState.Board n.X n.Y = true ∨
          stoneAt g.gameState.Board (!g.whiteToMove) n

/-- The invariant of the states between two turns: no dead stone, the lock released or in
a ko shape, and a raised delay flag only with a released lock. -/
def GameInv (g : Game) : Prop :=
  alive g.gameState.Board ∧ lockOK g ∧ (g.delay_lock = true → g.locked = ⟨-1, -1⟩)

/-- A ko shape reached by play on a 5x5 board, Black to move, after
`B(1,0) W(2,0) B(0,1) W(1,1) B(1,2) W(3,1) B(0,4) W(2,2) B pass W(1,4)`: the white
stone at `(1,1)` has its last liberty at `(2,1)`, and the black stone in the corner
`(0,4)` has its last liberty at `(0,3)`. -/
def koByPlay : Game :=
  run (NewGame (blankGame 5)) [place ⟨1, 0⟩, place ⟨2, 0⟩, place ⟨0, 1⟩, place ⟨1, 1⟩,
    place ⟨1, 2⟩, place ⟨3, 1⟩, place ⟨0, 4⟩, place ⟨2, 2⟩, ⟨true, none, none⟩, place ⟨1, 4⟩]

/-! ## Board access lemmas -/

theorem rowAt_of_nonneg (b : Board) (y : Int) (h : 0 ≤ y) : rowAt b y = b.getD y.toNat [] := by
  simp [rowAt, not_lt.mpr h]

theorem outOfBounds_eq_false_iff (b : Board) (x y : Int) :
    outOfBounds b x y = false ↔
      0 ≤ y ∧ y < (b.length : Int) ∧ 0 ≤ x ∧ x < ((rowAt b y).length : Int) := by
  simp [outOfBounds]
  constructor
  · rintro ⟨⟨⟨h1, h2⟩, h3⟩, h4⟩; exact ⟨h2, h1, h4, h3⟩
  · rintro ⟨h1, h2, h3, h4⟩; exact ⟨⟨⟨h2, h1⟩, h4⟩, h3⟩

theorem rowAt_setCell (b : Board) (x y : Int) (v : Option Bool) (y' : Int) :
    rowAt (setCell b x y v) y' =
      if y' = y ∧ outOfBounds b x y = false then (rowAt b y).set x.toNat v else rowAt b y' := by
  unfold setCell
  by_cases ho : outOfBounds b x y = true
  · simp [ho]
  · have ho' : outOfBounds b x y = false := by simpa using ho
    obtain ⟨hy0, hyl, hx0, hxl⟩ := (outOfBounds_eq_false_iff b x y).1 ho'
    simp only [ho', Bool.false_eq_true, if_false, and_true]
    by_cases hy' : y' < 0
    · have : y' ≠ y := by omega
      simp [rowAt, hy', this]
    · have hy'0 : 0 ≤ y' := not_lt.mp hy'
      rw [rowAt_of_nonneg _ _ hy'0]
      by_cases he : y' = y
      · subst he
        have : y'.toNat < b.length := by omega
        simp [List.getD_eq_getElem?_getD, List.getElem?_set, this]
      · have hne : y.toNat ≠ y'.toNat := by omega
        simp [he, List.getD_eq_getElem?_getD, List.getElem?_set, hne, rowAt_of_nonneg _ _ hy'0]

theorem length_setCell (b : Board) (x y : Int) (v : Option Bool) :
    (setCell b x y v).length = b.length := by
  unfold setCell; split <;> simp

theorem outOfBounds_setCell (b : Board) (x y : Int) (v : Option Bool) (x' y' : Int) :
    outOfBounds (setCell b x y v) x' y' = outOfBounds b x' y' := by
  unfold outOfBounds
  rw [rowAt_setCell, length_setCell]
  split
  · rename_i h; rw [h.1]; simp
  · rfl

theorem cellAt_setCell (b : Board) (x y : Int) (v : Option Bool) (x' y' : Int) :
    cellAt (setCell b x y v) x' y' =
      if x' = x ∧ y' = y ∧ outOfBounds b x y = false then v else cellAt b x' y' := by
  unfold cellAt
  rw [rowAt_setCell]
  by_cases hx' : x' < 0
  · simp only [hx', if_true]
    split
    · rename_i h
      have := (outOfBounds_eq_false_iff b x y).1 h.2.2
      omega
    · rfl
  · simp only [hx', if_false]
    by_cases hy : y' = y ∧ outOfBounds b x y = false
    · obtain ⟨hy1, ho⟩ := hy
      subst hy1
      obtain ⟨hy0, hyl, hx0, hxl⟩ := (outOfBounds_eq_false_iff b x y').1 ho
      simp only [ho, and_self, if_true, and_true]
      by_cases hxe : x' = x
      · subst hxe
        have : x'.toNat < (rowAt b y').length := by omega
        simp [List.getD_eq_getElem?_getD, List.getElem?_set, this]
      · have hne : x.toNat ≠ x'.toNat := by omega
        simp [hxe, List.getD_eq_getElem?_getD, List.getElem?_set, hne]
    · rw [if_neg hy]
      have : ¬ (x' = x ∧ y' = y ∧ outOfBounds b x y = false) := fun h => hy h.2
      rw [if_neg this]

theorem length_cellsFrom (y0 : Nat) (b : Board) : (cellsFrom y0 b).length = cellCount b := by
  induction b generalizing y0 with
  | nil => rfl
  | cons row rest ih =>
    have h := ih (y0 + 1)
    simp only [cellCount] at h
    simp only [cellsFrom, List.length_append, List.length_map, List.length_range, cellCount,
      List.map_cons, List.sum_cons, h]

theorem mem_cellsFrom (b : Board) : ∀ (y0 i : Nat) (x : Nat), i < b.length →
    x < (b.getD i []).length → (⟨(x : Int), ((y0 + i : Nat) : Int)⟩ : Cordinate) ∈ cellsFrom y0 b := by
  induction b with
  | nil => intro y0 i x hi; simp at hi
  | cons row rest ih =>
    intro y0 i x hi hx
    cases i with
    | zero =>
      simp only [cellsFrom, List.mem_append, List.mem_map, List.mem_range]
      left
      exact ⟨x, by simpa using hx, by simp⟩
    | succ j =>
      simp only [cellsFrom, List.mem_append]
      right
      have := ih (y0 + 1) j x (by simpa using hi) (by simpa using hx)
      have e : y0 + 1 + j = y0 + (j + 1) := by omega
      rw [e] at this
      exact this

theorem mem_cells_of_inBounds (b : Board) (c : Cordinate) (h : outOfBounds b c.X c.Y = false) :
    c ∈ cellsFrom 0 b := by
  obtain ⟨hy0, hyl, hx0, hxl⟩ := (outOfBounds_eq_false_iff b c.X c.Y).1 h
  rw [rowAt_of_nonneg _ _ hy0] at hxl
  have := mem_cellsFrom b 0 c.Y.toNat c.X.toNat (by omega) (by omega)
  have e : (⟨(c.X.toNat : Int), ((0 + c.Y.toNat : Nat) : Int)⟩ : Cordinate) = c := by
    cases c with
    | mk X Y =>
      simp only [Cordinate.mk.injEq]
      constructor
      · simpa using hx0
      · simp only [Nat.zero_add]; simpa using hy0
  rw [e] at this
  exact this

theorem unchecked_le (b : Board) (V : List Cordinate) : unchecked b V ≤ cellCount b := by
  unfold unchecked
  rw [← length_cellsFrom 0 b]
  exact List.length_filter_le _ _

theorem unchecked_mono (b : Board) (V V' : List Cordinate) (h : ∀ q, q ∈ V → q ∈ V') :
    unchecked b V' ≤ unchecked b V := by
  unfold unchecked
  apply List.Sublist.length_le
  apply List.monotone_filter_right
  intro q hq
  simp only [decide_eq_true_eq] at hq ⊢
  exact fun hV => hq (h q hV)

theorem filter_cons_checked (l V : List Cordinate) (c : Cordinate) (hV : c ∉ V) :
    (l.filter (fun q => decide (q ∉ c :: V))).length ≤ (l.filter (fun q => decide (q ∉ V))).length ∧
      (c ∈ l → (l.filter (fun q => decide (q ∉ c :: V))).length <
        (l.filter (fun q => decide (q ∉ V))).length) := by
  induction l with
  | nil => simp
  | cons a t ih =>
    obtain ⟨ih1, ih2⟩ := ih
    rw [List.filter_cons, List.filter_cons]
    by_cases h1 : a ∈ V
    · have h2 : a ∈ c :: V := List.mem_cons_of_mem _ h1
      have hac : c ≠ a := fun h => hV (h ▸ h1)
      rw [if_neg (by rw [decide_eq_true_eq]; exact not_not.mpr h2),
        if_neg (by rw [decide_eq_true_eq]; exact not_not.mpr h1)]
      refine ⟨ih1, fun hm => ih2 ?_⟩
      rcases List.mem_cons.1 hm with h | h
      · exact absurd h hac
      · exact h
    · rw [if_pos (show decide (a ∉ V) = true from decide_eq_true h1)]
      by_cases h3 : a = c
      · have h2 : a ∈ c :: V := by rw [h3]; exact List.mem_cons_self _ _
        rw [if_neg (by rw [decide_eq_true_eq]; exact not_not.mpr h2)]
        simp only [List.length_cons]
        exact ⟨by omega, fun _ => by omega⟩
      · have h2 : a ∉ c :: V := by
          intro h
          rcases List.mem_cons.1 h with h | h
          · exact h3 h
          · exact h1 h
        rw [if_pos (show decide (a ∉ c :: V) = true from decide_eq_true h2)]
        simp only [List.length_cons]
        refine ⟨by omega, fun hm => ?_⟩
        rcases List.mem_cons.1 hm with h | h
        · exact absurd h.symm h3
        · have := ih2 h; omega

theorem unchecked_cons_lt (b : Board) (V : List Cordinate) (c : Cordinate)
    (hc : outOfBounds b c.X c.Y = false) (hV : c ∉ V) :
    unchecked b (c :: V) < unchecked b V :=
  (filter_cons_checked (cellsFrom 0 b) V c hV).2 (mem_cells_of_inBounds b c hc)

theorem RoomInv.skip (b : Board) (w : Bool) (c : Cordinate) (V : List Cordinate) (h : c ∈ V) :
    RoomInv b w [c] V false V [] where
  mono := fun _ hq => hq
  seen := fun s hs => by rw [List.mem_singleton.1 hs]; exact h
  nodup := List.nodup_nil
  mem_new := fun q => ⟨fun hq => absurd hq (List.not_mem_nil q), fun hq => absurd hq.1 hq.2.1⟩
  closed := fun q hq hn => absurd hq hn
  room := ⟨fun hf => absurd hf Bool.false_ne_true, fun ⟨_, hq, hn, _⟩ => absurd hq hn⟩
  touch := fun q hq hn => absurd hq hn

theorem RoomInv.leaf (b : Board) (w : Bool) (c : Cordinate) (V : List Cordinate) (r : Bool)
    (hs : ¬ stoneAt b w c) (hr : r = true ↔ emptyAt b c) (hV : c ∉ V) :
    RoomInv b w [c] V r (c :: V) [] where
  mono := fun _ hq => List.mem_cons_of_mem _ hq
  seen := fun s hs => by rw [List.mem_singleton.1 hs]; exact List.mem_cons_self _ _
  nodup := List.nodup_nil
  mem_new := fun q => by
    constructor
    · intro hq; exact absurd hq (List.not_mem_nil q)
    · rintro ⟨hq, hn, hst⟩
      rcases List.mem_cons.1 hq with h | h
      · exact absurd (h ▸ hst) hs
      · exact absurd h hn
  closed := fun q hq hn hst => by
    rcases List.mem_cons.1 hq with h | h
    · exact absurd (h ▸ hst) hs
    · exact absurd h hn
  room := by
    rw [hr]
    constructor
    · intro he; exact ⟨c, List.mem_cons_self _ _, hV, he⟩
    · rintro ⟨q, hq, hn, he⟩
      rcases List.mem_cons.1 hq with h | h
      · exact h ▸ he
      · exact absurd h hn
  touch := fun q hq hn => by
    rcases List.mem_cons.1 hq with h | h
    · left; rw [h]; exact List.mem_singleton_self _
    · exact absurd h hn

theorem RoomInv.append {b : Board} {w : Bool} {S1 S2 V0 V1 V2 n1 n2 : List Cordinate}
    {r1 r2 : Bool} (h1 : RoomInv b w S1 V0 r1 V1 n1) (h2 : RoomInv b w S2 V1 r2 V2 n2) :
    RoomInv b w (S1 ++ S2) V0 (r1 || r2) V2 (n1 ++ n2) where
  mono := fun q hq => h2.mono q (h1.mono q hq)
  seen := fun s hs => by
    rcases List.mem_append.1 hs with h | h
    · exact h2.mono s (h1.seen s h)
    · exact h2.seen s h
  nodup := by
    rw [List.nodup_append]
    refine ⟨h1.nodup, h2.nodup, ?_⟩
    intro q hq1 hq2
    exact ((h2.mem_new q).1 hq2).2.1 ((h1.mem_new q).1 hq1).1
  mem_new := fun q => by
    rw [List.mem_append, h1.mem_new, h2.mem_new]
    constructor
    · rintro (⟨ha, hb, hc⟩ | ⟨ha, hb, hc⟩)
      · exact ⟨h2.mono q ha, hb, hc⟩
      · exact ⟨ha, fun h => hb (h1.mono q h), hc⟩
    · rintro ⟨ha, hb, hc⟩
      by_cases hq : q ∈ V1
      · exact Or.inl ⟨hq, hb, hc⟩
      · exact Or.inr ⟨ha, hq, hc⟩
  closed := fun q hq hn hst n hnb => by
    by_cases hq1 : q ∈ V1
    · exact h2.mono n (h1.closed q hq1 hn hst n hnb)
    · exact h2.closed q hq hq1 hst n hnb
  room := by
    rw [Bool.or_eq_true, h1.room, h2.room]
    constructor
    · rintro (⟨q, ha, hb, hc⟩ | ⟨q, ha, hb, hc⟩)
      · exact ⟨q, h2.mono q ha, hb, hc⟩
      · exact ⟨q, ha, fun h => hb (h1.mono q h), hc⟩
    · rintro ⟨q, ha, hb, hc⟩
      by_cases hq : q ∈ V1
      · exact Or.inl ⟨q, hq, hb, hc⟩
      · exact Or.inr ⟨q, ha, hq, hc⟩
  touch := fun q hq hn => by
    by_cases hq1 : q ∈ V1
    · rcases h1.touch q hq1 hn with h | ⟨s, hs, hst, p, hl, hp⟩
      · exact Or.inl (List.mem_append_left _ h)
      · exact Or.inr ⟨s, List.mem_append_left _ hs, hst, p, hl, hp⟩
    · rcases h2.touch q hq hq1 with h | ⟨s, hs, hst, p, hl, hp⟩
      · exact Or.inl (List.mem_append_right _ h)
      · exact Or.inr ⟨s, List.mem_append_right _ hs, hst, p, hl, hp⟩

theorem RoomInv.wrap {b : Board} {w : Bool} {c : Cordinate} {V V' new : List Cordinate} {r : Bool}
    (hV : c ∉ V) (hc : stoneAt b w c) (h : RoomInv b w (neighbours c) (c :: V) r V' new) :
    RoomInv b w [c] V r V' (c :: new) where
  mono := fun q hq => h.mono q (List.mem_cons_of_mem _ hq)
  seen := fun s hs => by
    rw [List.mem_singleton.1 hs]; exact h.mono c (List.mem_cons_self _ _)
  nodup := by
    rw [List.nodup_cons]
    exact ⟨fun hm => ((h.mem_new c).1 hm).2.1 (List.mem_cons_self _ _), h.nodup⟩
  mem_new := fun q => by
    rw [List.mem_cons, h.mem_new]
    constructor
    · rintro (rfl | ⟨ha, hb, hc'⟩)
      · exact ⟨h.mono _ (List.mem_cons_self _ _), hV, hc⟩
      · exact ⟨ha, fun hq => hb (List.mem_cons_of_mem _ hq), hc'⟩
    · rintro ⟨ha, hb, hc'⟩
      by_cases hq : q = c
      · exact Or.inl hq
      · refine Or.inr ⟨ha, ?_, hc'⟩
        intro hm
        rcases List.mem_cons.1 hm with h' | h'
        · exact hq h'
        · exact hb h'
  closed := fun q hq hn hst n hnb => by
    by_cases hqc : q = c
    · subst hqc; exact h.seen n hnb
    · refine h.closed q hq ?_ hst n hnb
      intro hm
      rcases List.mem_cons.1 hm with h' | h'
      · exact hqc h'
      · exact hn h'
  room := by
    rw [h.room]
    constructor
    · rintro ⟨q, ha, hb, hc'⟩
      exact ⟨q, ha, fun hq => hb (List.mem_cons_of_mem _ hq), hc'⟩
    · rintro ⟨q, ha, hb, hc'⟩
      refine ⟨q, ha, ?_, hc'⟩
      intro hm
      rcases List.mem_cons.1 hm with h' | h'
      · subst h'
        have h1 := hc.2
        rw [hc'.2] at h1
        exact Option.noConfusion h1
      · exact hb h'
  touch := fun q hq hn => by
    by_cases hqc : q = c
    · left; rw [hqc]; exact List.mem_singleton_self _
    · right
      have hq' : q ∉ c :: V := by
        intro hm
        rcases List.mem_cons.1 hm with h' | h'
        · exact hqc h'
        · exact hn h'
      refine ⟨c, List.mem_singleton_self _, hc, ?_⟩
      rcases h.touch q hq hq' with h' | ⟨s, hs, hst, p, hl, hp⟩
      · exact ⟨c, Relation.ReflTransGen.refl, h'⟩
      · exact ⟨p, Relation.ReflTransGen.head ⟨hs, hst⟩ hl, hp⟩

theorem hasRoomAux_inv (b : Board) (w : Bool) : ∀ (fuel : Nat) (x y : Int) (V : List Cordinate)
    (grp : Option (List Cordinate)), unchecked b V < fuel →
    ∃ new, (hasRoomAux fuel b x y w V grp).2.2 = grp.map (fun l => l ++ new) ∧
      RoomInv b w [⟨x, y⟩] V (hasRoomAux fuel b x y w V grp).1
        (hasRoomAux fuel b x y w V grp).2.1 new := by
  intro fuel
  induction fuel with
  | zero => intro x y V grp h; exact absurd h (Nat.not_lt_zero _)
  | succ fuel ih =>
    intro x y V grp hfuel
    unfold hasRoomAux
    by_cases hV : (⟨x, y⟩ : Cordinate) ∈ V
    · simp only [hV, if_true]
      exact ⟨[], by cases grp <;> simp, RoomInv.skip b w _ V hV⟩
    · simp only [hV, if_false]
      by_cases ho : outOfBounds b x y = true
      · simp only [ho, if_true]
        refine ⟨[], by cases grp <;> simp, RoomInv.leaf b w _ V false ?_ ?_ hV⟩
        · intro hst; have := hst.1; simp [ho] at this
        · constructor
          · intro h; exact absurd h Bool.false_ne_true
          · intro he; have := he.1; simp [ho] at this
      · have ho' : outOfBounds b x y = false := by simpa using ho
        simp only [ho', Bool.false_eq_true, if_false]
        cases hcell : cellAt b x y with
        | none =>
          simp only []
          refine ⟨[], by cases grp <;> simp, RoomInv.leaf b w _ V true ?_ ?_ hV⟩
          · intro hst; have := hst.2; simp [hcell] at this
          · exact ⟨fun _ => ⟨ho', hcell⟩, fun _ => rfl⟩
        | some col =>
          simp only []
          by_cases hcol : col = w
          · subst hcol
            simp only [bne_self_eq_false, Bool.false_eq_true, if_false]
            have hst : stoneAt b col ⟨x, y⟩ := ⟨ho', hcell⟩
            have hlt : unchecked b (⟨x, y⟩ :: V) < fuel := by
              have := unchecked_cons_lt b V ⟨x, y⟩ ho' hV
              omega
            obtain ⟨n1, e1, i1⟩ := ih (x - 1) y (⟨x, y⟩ :: V)
              (grp.map (fun l => l ++ [⟨x, y⟩])) hlt
            have hlt1 := lt_of_le_of_lt (unchecked_mono b _ _ i1.mono) hlt
            obtain ⟨n2, e2, i2⟩ := ih (x + 1) y _
              (hasRoomAux fuel b (x - 1) y col (⟨x, y⟩ :: V)
                (grp.map (fun l => l ++ [⟨x, y⟩]))).2.2 hlt1
            have hlt2 := lt_of_le_of_lt (unchecked_mono b _ _ i2.mono) hlt1
            obtain ⟨n3, e3, i3⟩ := ih x (y - 1) _
              (hasRoomAux fuel b (x + 1) y col _
                (hasRoomAux fuel b (x - 1) y col (⟨x, y⟩ :: V)
                  (grp.map (fun l => l ++ [⟨x, y⟩]))).2.2).2.2 hlt2
            have hlt3 := lt_of_le_of_lt (unchecked_mono b _ _ i3.mono) hlt2
            obtain ⟨n4, e4, i4⟩ := ih x (y + 1) _
              (hasRoomAux fuel b x (y - 1) col _
                (hasRoomAux fuel b (x + 1) y col _
                  (hasRoomAux fuel b (x - 1) y col (⟨x, y⟩ :: V)
                    (grp.map (fun l => l ++ [⟨x, y⟩]))).2.2).2.2).2.2 hlt3
            refine ⟨⟨x, y⟩ :: (n1 ++ n2 ++ n3 ++ n4), ?_, ?_⟩
            · rw [e4, e3, e2, e1]
              cases grp <;> simp
            · exact RoomInv.wrap hV hst (((i1.append i2).append i3).append i4)
          · have hne : (col != w) = true := by simpa using hcol
            simp only [hne, if_true]
            refine ⟨[], by cases grp <;> simp, RoomInv.leaf b w _ V false ?_ ?_ hV⟩
            · intro hst; have := hst.2; rw [hcell] at this
              exact hcol (Option.some.inj this)
            · constructor
              · intro h; exact absurd h Bool.false_ne_true
              · intro he; have := he.2; simp [hcell] at this

/-- Any depth budget above the number of unchecked board points gives the same result:
the budget of `hasRoom` never runs out. -/
theorem hasRoomAux_fuel (b : Board) (w : Bool) : ∀ (fuel fuel' : Nat) (x y : Int)
    (V : List Cordinate) (grp : Option (List Cordinate)), unchecked b V < fuel → fuel ≤ fuel' →
    hasRoomAux fuel' b x y w V grp = hasRoomAux fuel b x y w V grp := by
  intro fuel
  induction fuel with
  | zero => intro fuel' x y V grp h; exact absurd h (Nat.not_lt_zero _)
  | succ fuel ih =>
    intro fuel' x y V grp hfuel hle
    obtain ⟨k, rfl⟩ : ∃ k, fuel' = k + 1 := ⟨fuel' - 1, by omega⟩
    have hk : fuel ≤ k := by omega
    unfold hasRoomAux
    by_cases hV : (⟨x, y⟩ : Cordinate) ∈ V
    · simp only [hV, if_true]
    · simp only [hV, if_false]
      by_cases ho : outOfBounds b x y = true
      · simp only [ho, if_true]
      · have ho' : outOfBounds b x y = false := by simpa using ho
        simp only [ho', Bool.false_eq_true, if_false]
        cases hcell : cellAt b x y with
        | none => rfl
        | some col =>
          simp only []
          by_cases hcol : (col != w) = true
          · simp only [hcol, if_true]
          · simp only [hcol, if_false]
            have hlt : unchecked b (⟨x, y⟩ :: V) < fuel := by
              have := unchecked_cons_lt b V ⟨x, y⟩ ho' hV
              omega
            have step : ∀ (x' y' : Int) (V' : List Cordinate) (g : Option (List Cordinate)),
                unchecked b V' < fuel →
                hasRoomAux k b x' y' w V' g = hasRoomAux fuel b x' y' w V' g ∧
                  unchecked b (hasRoomAux fuel b x' y' w V' g).2.1 < fuel := by
              intro x' y' V' g h
              refine ⟨ih k x' y' V' g h hk, ?_⟩
              obtain ⟨n, -, i⟩ := hasRoomAux_inv b w fuel x' y' V' g h
              exact lt_of_le_of_lt (unchecked_mono b _ _ i.mono) h
            obtain ⟨e1, h1⟩ := step (x - 1) y (⟨x, y⟩ :: V) (grp.map (fun l => l ++ [⟨x, y⟩])) hlt
            rw [e1]
            generalize hasRoomAux fuel b (x - 1) y w (⟨x, y⟩ :: V)
              (grp.map (fun l => l ++ [⟨x, y⟩])) = r1 at h1 ⊢
            obtain ⟨e2, h2⟩ := step (x + 1) y r1.2.1 r1.2.2 h1
            rw [e2]
            generalize hasRoomAux fuel b (x + 1) y w r1.2.1 r1.2.2 = r2 at h2 ⊢
            obtain ⟨e3, h3⟩ := step x (y - 1) r2.2.1 r2.2.2 h2
            rw [e3]
            generalize hasRoomAux fuel b x (y - 1) w r2.2.1 r2.2.2 = r3 at h3 ⊢
            obtain ⟨e4, -⟩ := step x (y + 1) r3.2.1 r3.2.2 h3
            rw [e4]

/-- The answer and the `checked` map of `hasRoom` do not depend on whether a group
slice is being recorded. -/
theorem hasRoomAux_group_irrel (b : Board) (w : Bool) : ∀ (fuel : Nat) (x y : Int)
    (V : List Cordinate) (grp grp' : Option (List Cordinate)),
    (hasRoomAux fuel b x y w V grp).1 = (hasRoomAux fuel b x y w V grp').1 ∧
      (hasRoomAux fuel b x y w V grp).2.1 = (hasRoomAux fuel b x y w V grp').2.1 := by
  intro fuel
  induction fuel with
  | zero => intro x y V grp grp'; exact ⟨rfl, rfl⟩
  | succ fuel ih =>
    intro x y V grp grp'
    unfold hasRoomAux
    by_cases hV : (⟨x, y⟩ : Cordinate) ∈ V
    · simp only [hV, if_true, and_self]
    · simp only [hV, if_false]
      by_cases ho : outOfBounds b x y = true
      · simp only [ho, if_true, and_self]
      · have ho' : outOfBounds b x y = false := by simpa using ho
        simp only [ho', Bool.false_eq_true, if_false]
        cases hcell : cellAt b x y with
        | none => exact ⟨rfl, rfl⟩
        | some col =>
          simp only []
          by_cases hcol : (col != w) = true
          · simp only [hcol, if_true, and_self]
          · simp only [hcol, if_false]
            generalize grp.map (fun l => l ++ [(⟨x, y⟩ : Cordinate)]) = g0
            generalize grp'.map (fun l => l ++ [(⟨x, y⟩ : Cordinate)]) = g0'
            obtain ⟨a1, c1⟩ := ih (x - 1) y (⟨x, y⟩ :: V) g0 g0'
            generalize hasRoomAux fuel b (x - 1) y w (⟨x, y⟩ :: V) g0 = r1 at a1 c1 ⊢
            generalize hasRoomAux fuel b (x - 1) y w (⟨x, y⟩ :: V) g0' = r1' at a1 c1 ⊢
            obtain ⟨a2, c2⟩ := ih (x + 1) y r1.2.1 r1.2.2 r1'.2.2
            rw [c1] at a2 c2
            rw [c1]
            generalize hasRoomAux fuel b (x + 1) y w r1'.2.1 r1.2.2 = r2 at a2 c2 ⊢
            generalize hasRoomAux fuel b (x + 1) y w r1'.2.1 r1'.2.2 = r2' at a2 c2 ⊢
            obtain ⟨a3, c3⟩ := ih x (y - 1) r2.2.1 r2.2.2 r2'.2.2
            rw [c2] at a3 c3
            rw [c2]
            generalize hasRoomAux fuel b x (y - 1) w r2'.2.1 r2.2.2 = r3 at a3 c3 ⊢
            generalize hasRoomAux fuel b x (y - 1) w r2'.2.1 r2'.2.2 = r3' at a3 c3 ⊢
            obtain ⟨a4, c4⟩ := ih x (y + 1) r3.2.1 r3.2.2 r3'.2.2
            rw [c3] at a4 c4
            rw [c3]
            generalize hasRoomAux fuel b x (y + 1) w r3'.2.1 r3.2.2 = r4 at a4 c4 ⊢
            generalize hasRoomAux fuel b x (y + 1) w r3'.2.1 r3'.2.2 = r4' at a4 c4 ⊢
            simp only [a1, a2, a3, a4, c4, Bool.false_eq_true, if_false, and_self]

theorem hasRoom_spec (b : Board) (w : Bool) (x y : Int) (grp : Option (List Cordinate))
    (hs : stoneAt b w ⟨x, y⟩) :
    ∃ new, (hasRoom b x y w [] grp).2.2 = grp.map (fun l => l ++ new) ∧ new.Nodup ∧
      (∀ q, q ∈ new ↔ Linked b w ⟨x, y⟩ q) ∧
      ((hasRoom b x y w [] grp).1 = true ↔ hasLiberty b w ⟨x, y⟩) := by
  have hfuel : unchecked b [] < cellCount b + 1 := Nat.lt_succ_of_le (unchecked_le b [])
  obtain ⟨new, e, inv⟩ := hasRoomAux_inv b w (cellCount b + 1) x y [] grp hfuel
  have hin : ∀ q, Linked b w ⟨x, y⟩ q →
      q ∈ (hasRoom b x y w [] grp).2.1 ∧ stoneAt b w q := by
    intro q hq
    induction hq with
    | refl => exact ⟨inv.seen _ (List.mem_singleton_self _), hs⟩
    | tail _ hstep ih => exact ⟨inv.closed _ ih.1 (List.not_mem_nil _) ih.2 _ hstep.1, hstep.2⟩
  refine ⟨new, e, inv.nodup, ?_, ?_⟩
  · intro q
    constructor
    · intro hq
      obtain ⟨hqV, -, hqs⟩ := (inv.mem_new q).1 hq
      rcases inv.touch q hqV (List.not_mem_nil _) with h | ⟨s, hsm, -, p, hl, hp⟩
      · rw [List.mem_singleton.1 h]; exact Relation.ReflTransGen.refl
      · rw [List.mem_singleton.1 hsm] at hl
        exact Relation.ReflTransGen.tail hl ⟨hp, hqs⟩
    · intro hq
      exact (inv.mem_new q).2 ⟨(hin q hq).1, List.not_mem_nil _, (hin q hq).2⟩
  · show (hasRoomAux (cellCount b + 1) b x y w [] grp).1 = true ↔ _
    rw [inv.room]
    constructor
    · rintro ⟨q, hqV, -, hqe⟩
      rcases inv.touch q hqV (List.not_mem_nil _) with h | ⟨s, hsm, -, p, hl, hp⟩
      · rw [List.mem_singleton.1 h] at hqe
        have h1 := hs.2
        rw [hqe.2] at h1
        exact Option.noConfusion h1
      · rw [List.mem_singleton.1 hsm] at hl
        exact ⟨p, q, hl, hp, hqe⟩
    · rintro ⟨p, n, hl, hn, he⟩
      exact ⟨n, inv.closed p (hin p hl).1 (List.not_mem_nil _) (hin p hl).2 n hn,
        List.not_mem_nil _, he⟩

theorem hasLiberty_iff_hasRoom (b : Board) (w : Bool) (x y : Int) (hs : stoneAt b w ⟨x, y⟩) :
    hasLiberty b w ⟨x, y⟩ ↔ (hasRoom b x y w [] none).1 = true := by
  obtain ⟨_, _, _, _, h⟩ := hasRoom_spec b w x y none hs
  exact h.symm

theorem pieceAt_eq_some_iff (b : Board) (w : Bool) (x y : Int) :
    pieceAt b x y = some w ↔ stoneAt b w ⟨x, y⟩ := by
  unfold pieceAt stoneAt
  by_cases ho : outOfBounds b x y = true
  · simp [ho]
  · have ho' : outOfBounds b x y = false := by simpa using ho
    simp [ho']

theorem findGroup_eq_some (b : Board) (w : Bool) (x y : Int) (l : List Cordinate)
    (h : findGroup b x y w = some l) :
    capturable b w ⟨x, y⟩ ∧ l.Nodup ∧ ∀ q, q ∈ l ↔ Linked b w ⟨x, y⟩ q := by
  unfold findGroup at h
  cases hp : pieceAt b x y with
  | none => rw [hp] at h; exact Option.noConfusion h
  | some col =>
    rw [hp] at h
    simp only [] at h
    by_cases hcol : col = w
    · subst hcol
      have hs : stoneAt b col ⟨x, y⟩ := (pieceAt_eq_some_iff b col x y).1 hp
      obtain ⟨new, e, hnd, hmem, hroom⟩ := hasRoom_spec b col x y (some []) hs
      simp only [bne_self_eq_false, Bool.false_eq_true, if_false] at h
      by_cases hr : (hasRoom b x y col [] (some [])).1 = true
      · rw [if_pos hr] at h; exact Option.noConfusion h
      · rw [if_neg hr, e] at h
        simp only [Option.map_some', List.nil_append, Option.some.injEq] at h
        subst h
        exact ⟨⟨hs, fun hl => hr (hroom.2 hl)⟩, hnd, hmem⟩
    · have hne : (col != w) = true := by simpa using hcol
      rw [if_pos hne] at h
      exact Option.noConfusion h

theorem findGroup_isSome_iff (b : Board) (w : Bool) (x y : Int) :
    (findGroup b x y w).isSome = true ↔ capturable b w ⟨x, y⟩ := by
  constructor
  · intro h
    obtain ⟨l, hl⟩ := Option.isSome_iff_exists.1 h
    exact (findGroup_eq_some b w x y l hl).1
  · rintro ⟨hs, hl⟩
    obtain ⟨new, e, -, -, hroom⟩ := hasRoom_spec b w x y (some []) hs
    have hr : ¬ (hasRoom b x y w [] (some [])).1 = true := fun h => hl (hroom.1 h)
    unfold findGroup
    rw [(pieceAt_eq_some_iff b w x y).2 hs]
    simp only [bne_self_eq_false, Bool.false_eq_true, if_false, if_neg hr, e]
    rfl

theorem mem_findGroup_getD (b : Board) (w : Bool) (x y : Int) (q : Cordinate) :
    q ∈ (findGroup b x y w).getD [] ↔ capturable b w ⟨x, y⟩ ∧ Linked b w ⟨x, y⟩ q := by
  cases h : findGroup b x y w with
  | none =>
    simp only [Option.getD_none, List.not_mem_nil, false_iff, not_and]
    intro hc
    have := (findGroup_isSome_iff b w x y).2 hc
    rw [h] at this
    exact absurd this (by simp)
  | some l =>
    obtain ⟨hc, -, hmem⟩ := findGroup_eq_some b w x y l h
    simp only [Option.getD_some, hmem, hc, true_and]

theorem mem_toRemove (b : Board) (x y : Int) (c : Bool) (q : Cordinate) :
    q ∈ toRemove b x y c ↔
      ∃ n, n ∈ neighbours ⟨x, y⟩ ∧ capturable b (!c) n ∧ Linked b (!c) n q := by
  unfold toRemove neighbours
  simp only [List.mem_append, mem_findGroup_getD, List.mem_cons, List.mem_singleton,
    List.not_mem_nil, or_false]
  constructor
  · rintro (((h | h) | h) | h)
    · exact ⟨_, Or.inl rfl, h⟩
    · exact ⟨_, Or.inr (Or.inl rfl), h⟩
    · exact ⟨_, Or.inr (Or.inr (Or.inl rfl)), h⟩
    · exact ⟨_, Or.inr (Or.inr (Or.inr rfl)), h⟩
  · rintro ⟨n, (rfl | rfl | rfl | rfl), h⟩
    · exact Or.inl (Or.inl (Or.inl h))
    · exact Or.inl (Or.inl (Or.inr h))
    · exact Or.inl (Or.inr h)
    · exact Or.inr h

theorem Linked.stoneAt {b : Board} {w : Bool} {p q : Cordinate} (h : Linked b w p q)
    (hp : stoneAt b w p) : stoneAt b w q := by
  induction h with
  | refl => exact hp
  | tail _ hstep _ => exact hstep.2

theorem outOfBounds_removeAll (b : Board) (cs : List Cordinate) (x y : Int) :
    outOfBounds (removeAll b cs) x y = outOfBounds b x y := by
  unfold removeAll
  induction cs generalizing b with
  | nil => rfl
  | cons c t ih => rw [List.foldl_cons, ih, outOfBounds_setCell]

theorem cellAt_removeAll (b : Board) (cs : List Cordinate) (x y : Int) :
    cellAt (removeAll b cs) x y =
      if (⟨x, y⟩ : Cordinate) ∈ cs ∧ outOfBounds b x y = false then none else cellAt b x y := by
  unfold removeAll
  induction cs generalizing b with
  | nil => simp
  | cons c t ih =>
    rw [List.foldl_cons, ih, outOfBounds_setCell, cellAt_setCell]
    by_cases ht : (⟨x, y⟩ : Cordinate) ∈ t ∧ outOfBounds b x y = false
    · rw [if_pos ht, if_pos ⟨List.mem_cons_of_mem _ ht.1, ht.2⟩]
    · rw [if_neg ht]
      by_cases hc : x = c.X ∧ y = c.Y ∧ outOfBounds b c.X c.Y = false
      · obtain ⟨hx, hy, ho⟩ := hc
        subst hx hy
        rw [if_pos ⟨rfl, rfl, ho⟩, if_pos ⟨List.mem_cons_self _ _, ho⟩]
      · rw [if_neg hc]
        split
        · rename_i h
          rcases List.mem_cons.1 h.1 with h' | h'
          · exfalso
            apply hc
            rw [← h']
            exact ⟨rfl, rfl, h.2⟩
          · exact absurd ⟨h', h.2⟩ ht
        · rfl

theorem set_getD_self {α : Type} (l : List α) (i : Nat) (d : α) (h : i < l.length) :
    l.set i (l.getD i d) = l := by
  apply List.ext_getElem
  · simp
  · intro n h1 h2
    by_cases hn : i = n
    · subst hn; simp [List.getD_eq_getElem?_getD, List.getElem?_eq_getElem h]
    · simp [List.getElem_set, hn]

theorem setCell_of_inBounds (b : Board) (x y : Int) (v : Option Bool)
    (h : outOfBounds b x y = false) :
    setCell b x y v = b.set y.toNat ((rowAt b y).set x.toNat v) := by
  unfold setCell
  simp only [h, Bool.false_eq_true, if_false]

theorem setCell_setCell (b : Board) (x y : Int) (v1 v2 : Option Bool) :
    setCell (setCell b x y v1) x y v2 = setCell b x y v2 := by
  by_cases ho : outOfBounds b x y = true
  · have h1 : ∀ v, setCell b x y v = b := by intro v; unfold setCell; rw [if_pos ho]
    rw [h1 v1, h1 v2]
  · have ho' : outOfBounds b x y = false := by simpa using ho
    have h2 : outOfBounds (setCell b x y v1) x y = false := by rw [outOfBounds_setCell]; exact ho'
    have hr := rowAt_setCell b x y v1 y
    rw [if_pos ⟨rfl, ho'⟩] at hr
    rw [setCell_of_inBounds _ _ _ _ h2, hr, setCell_of_inBounds _ _ _ _ ho',
      setCell_of_inBounds _ _ _ _ ho']
    simp only [List.set_set]

theorem setCell_self (b : Board) (x y : Int) (h : outOfBounds b x y = false) :
    setCell b x y (cellAt b x y) = b := by
  obtain ⟨hy0, hyl, hx0, hxl⟩ := (outOfBounds_eq_false_iff b x y).1 h
  unfold setCell cellAt
  simp only [h, Bool.false_eq_true, if_false, not_lt.mpr hx0]
  rw [set_getD_self _ _ _ (by omega)]
  rw [rowAt_of_nonneg _ _ hy0]
  exact set_getD_self _ _ _ (by omega)

theorem setCell_undo (b : Board) (x y : Int) (v : Option Bool)
    (h : outOfBounds b x y = false) (hc : cellAt b x y = none) :
    setCell (setCell b x y v) x y none = b := by
  rw [setCell_setCell, ← hc]
  exact setCell_self b x y h

theorem updateCtr_undo (p : Int × Int) (c : Bool) : updateCtr (updateCtr p c 1) c (-1) = p := by
  cases c <;> simp [updateCtr]

theorem takeStone_putStone (g : Game) (x y : Int) (c : Bool)
    (h : outOfBounds g.gameState.Board x y = false) (hc : cellAt g.gameState.Board x y = none) :
    takeStone (putStone g x y c) x y c = g := by
  have h1 := setCell_undo g.gameState.Board x y (some c) h hc
  have h2 := updateCtr_undo (g.gameState.WhiteStones, g.gameState.BlackStones) c
  unfold takeStone putStone
  simp only [h1, h2]

theorem applyCapture_nil (s : GameState) (c : Bool) : applyCapture s c [] = s := by
  cases c <;> simp [applyCapture, updateCtr, removeAll]

/-- The ko test of `caputreOpponent`: the placement would take exactly one stone and
that stone stands on the locked point. -/
theorem caputreOpponent_ko (g : Game) (x y : Int) (c : Bool)
    (h : (toRemove g.gameState.Board x y c).length = 1 ∧
      (toRemove g.gameState.Board x y c).head? = some g.locked) :
    caputreOpponent g x y c = (false, g) := by
  unfold caputreOpponent
  simp only [h, and_self, if_true]

theorem caputreOpponent_nil (g : Game) (x y : Int) (c : Bool)
    (h : toRemove g.gameState.Board x y c = []) :
    caputreOpponent g x y c = (false, g) := by
  unfold caputreOpponent
  simp [h, applyCapture_nil]

theorem caputreOpponent_take (g : Game) (x y : Int) (c : Bool)
    (hne : toRemove g.gameState.Board x y c ≠ [])
    (hko : ¬ ((toRemove g.gameState.Board x y c).length = 1 ∧
      (toRemove g.gameState.Board x y c).head? = some g.locked)) :
    caputreOpponent g x y c =
      (true, { (if (toRemove g.gameState.Board x y c).length = 1
                then { g with delay_lock := true, locked := ⟨x, y⟩ } else g) with
               gameState := applyCapture g.gameState c (toRemove g.gameState.Board x y c) }) := by
  unfold caputreOpponent
  simp only [if_neg hko]
  have : decide ((toRemove g.gameState.Board x y c).length ≠ 0) = true := by
    simpa using hne
  rw [this]
  by_cases h1 : (toRemove g.gameState.Board x y c).length = 1
  · simp only [h1, if_true]
  · simp only [h1, if_false]

theorem putStone_board (g : Game) (x y : Int) (c : Bool) :
    (putStone g x y c).gameState.Board = setCell g.gameState.Board x y (some c) := rfl

theorem putStone_locked (g : Game) (x y : Int) (c : Bool) :
    (putStone g x y c).locked = g.locked := rfl

theorem placePiece_invalid (g : Game) (x y : Int) (c : Bool)
    (h : outOfBounds g.gameState.Board x y = true ∨ cellAt g.gameState.Board x y ≠ none) :
    placePiece g x y c = (false, g) := by
  unfold placePiece
  have : (outOfBounds g.gameState.Board x y || (cellAt g.gameState.Board x y).isSome) = true := by
    rcases h with h | h
    · simp [h]
    · rw [Bool.or_eq_true]; right
      exact Option.isSome_iff_ne_none.2 h
  rw [if_pos this]

theorem placePiece_valid (g : Game) (x y : Int) (c : Bool)
    (h : outOfBounds g.gameState.Board x y = false) (hc : cellAt g.gameState.Board x y = none) :
    placePiece g x y c =
      if (caputreOpponent (putStone g x y c) x y c).1 then
        (true, (caputreOpponent (putStone g x y c) x y c).2)
      else if (hasRoom (caputreOpponent (putStone g x y c) x y c).2.gameState.Board
          x y c [] none).1 then
        (true, (caputreOpponent (putStone g x y c) x y c).2)
      else (false, takeStone (caputreOpponent (putStone g x y c) x y c).2 x y c) := by
  unfold placePiece
  simp only [h, hc, Option.isSome_none, Bool.or_self, Bool.false_eq_true, if_false]

theorem stoneAt_setCell_self (b : Board) (x y : Int) (c : Bool)
    (h : outOfBounds b x y = false) : stoneAt (setCell b x y (some c)) c ⟨x, y⟩ := by
  refine ⟨by rw [outOfBounds_setCell]; exact h, ?_⟩
  rw [cellAt_setCell, if_pos ⟨rfl, rfl, h⟩]

theorem toRemove_eq_nil (b : Board) (x y : Int) (c : Bool)
    (h : ∀ n, n ∈ neighbours ⟨x, y⟩ → ¬ capturable b (!c) n) : toRemove b x y c = [] := by
  apply List.eq_nil_iff_forall_not_mem.2
  intro q hq
  obtain ⟨n, hn, hc, -⟩ := (mem_toRemove b x y c q).1 hq
  exact h n hn hc

theorem toRemove_stoneAt (b : Board) (x y : Int) (c : Bool) (q : Cordinate)
    (h : q ∈ toRemove b x y c) : stoneAt b (!c) q := by
  obtain ⟨n, -, hc, hl⟩ := (mem_toRemove b x y c q).1 h
  exact hl.stoneAt hc.1

theorem not_mem_toRemove_of_cell (b : Board) (x y : Int) (c : Bool) (q : Cordinate)
    (h : cellAt b q.X q.Y = some c) : q ∉ toRemove b x y c := by
  intro hq
  have := (toRemove_stoneAt b x y c q hq).2
  rw [h] at this
  cases c <;> simp at this

/-- C2. A placement outside the board or on an occupied point is refused: `placePiece`
returns `false` and the whole game state (board, stone counters, captured
counters, ko lock) is what it was. -/
theorem placePiece_rejects_invalid (g : Game) (x y : Int) (white : Bool)
    (h : outOfBounds g.gameState.Board x y = true ∨ cellAt g.gameState.Board x y ≠ none) :
    placePiece g x y white = (false, g) :=
  placePiece_invalid g x y white h

/-- C3. Suicide is refused: when the new stone of colour `white` on the empty board
point `(x, y)` leaves no adjacent opponent stone in a group without liberty and its
own group has no liberty, `placePiece` returns `false` and the whole game state
is what it was before the call. -/
theorem placePiece_rejects_suicide (g : Game) (x y : Int) (white : Bool)
    (hin : outOfBounds g.gameState.Board x y = false)
    (hempty : cellAt g.gameState.Board x y = none)
    (hcap : ∀ n, n ∈ neighbours ⟨x, y⟩ →
      ¬ capturable (setCell g.gameState.Board x y (some white)) (!white) n)
    (hdead : ¬ hasLiberty (setCell g.gameState.Board x y (some white)) white ⟨x, y⟩) :
    placePiece g x y white = (false, g) := by
  have hnil : toRemove (putStone g x y white).gameState.Board x y white = [] :=
    toRemove_eq_nil _ x y white hcap
  have hcapt := caputreOpponent_nil (putStone g x y white) x y white hnil
  have hroom : (hasRoom (setCell g.gameState.Board x y (some white)) x y white [] none).1
      = false := by
    have := hasLiberty_iff_hasRoom _ white x y (stoneAt_setCell_self g.gameState.Board x y white hin)
    cases hr : (hasRoom (setCell g.gameState.Board x y (some white)) x y white [] none).1
    · rfl
    · exact absurd (this.2 hr) hdead
  rw [placePiece_valid g x y white hin hempty, hcapt]
  simp only [Bool.false_eq_true, if_false, putStone_board, hroom]
  rw [takeStone_putStone g x y white hin hempty]

/-- C4. Captures come before the suicide test: when the new stone of colour `white` on
the empty board point `(x, y)` leaves some adjacent opponent stone in a group
without liberty and the ko test does not fire, `placePiece` returns `true`
(whether or not `(x, y)` had an empty neighbour); afterwards the new stone stands
at `(x, y)`, every stone of every such group is gone, no stone of colour `white`
has been removed and every other point is untouched. -/
theorem placePiece_capture_first (g : Game) (x y : Int) (white : Bool)
    (hin : outOfBounds g.gameState.Board x y = false)
    (hempty : cellAt g.gameState.Board x y = none)
    (hcap : ∃ n, n ∈ neighbours ⟨x, y⟩ ∧
      capturable (setCell g.gameState.Board x y (some white)) (!white) n)
    (hko : ¬ koApplies (setCell g.gameState.Board x y (some white)) g.locked x y white) :
    (placePiece g x y white).1 = true ∧
      cellAt (placePiece g x y white).2.gameState.Board x y = some white ∧
      (∀ n, n ∈ neighbours ⟨x, y⟩ →
        capturable (setCell g.gameState.Board x y (some white)) (!white) n →
        ∀ q, Linked (setCell g.gameState.Board x y (some white)) (!white) n q →
          cellAt (placePiece g x y white).2.gameState.Board q.X q.Y = none) ∧
      (∀ q : Cordinate, cellAt g.gameState.Board q.X q.Y = some white →
        cellAt (placePiece g x y white).2.gameState.Board q.X q.Y = some white) ∧
      (∀ q : Cordinate, q ≠ ⟨x, y⟩ →
        q ∉ toRemove (setCell g.gameState.Board x y (some white)) x y white →
        cellAt (placePiece g x y white).2.gameState.Board q.X q.Y =
          cellAt g.gameState.Board q.X q.Y) := by
  obtain ⟨n, hn, hc⟩ := hcap
  have hmem : n ∈ toRemove (putStone g x y white).gameState.Board x y white :=
    (mem_toRemove _ x y white n).2 ⟨n, hn, hc, Relation.ReflTransGen.refl⟩
  have hne : toRemove (putStone g x y white).gameState.Board x y white ≠ [] :=
    List.ne_nil_of_mem hmem
  have htake := caputreOpponent_take (putStone g x y white) x y white hne hko
  have hpp := placePiece_valid g x y white hin hempty
  rw [htake] at hpp
  simp only [if_true] at hpp
  have hboard : (placePiece g x y white).2.gameState.Board =
      removeAll (setCell g.gameState.Board x y (some white))
        (toRemove (setCell g.gameState.Board x y (some white)) x y white) := by
    rw [hpp]; rfl
  have hself := stoneAt_setCell_self g.gameState.Board x y white hin
  refine ⟨by rw [hpp], ?_, ?_, ?_, ?_⟩
  · rw [hboard, cellAt_removeAll, if_neg, hself.2]
    intro h
    exact not_mem_toRemove_of_cell _ x y white ⟨x, y⟩ hself.2 h.1
  · intro m hm hcm q hl
    have hq : q ∈ toRemove (setCell g.gameState.Board x y (some white)) x y white :=
      (mem_toRemove _ x y white q).2 ⟨m, hm, hcm, hl⟩
    have hqs := toRemove_stoneAt _ x y white q hq
    rw [hboard, cellAt_removeAll, if_pos ⟨hq, hqs.1⟩]
  · intro q hq
    have hqne : ¬ (q.X = x ∧ q.Y = y ∧ outOfBounds g.gameState.Board x y = false) := by
      rintro ⟨h1, h2, -⟩
      rw [h1, h2, hempty] at hq
      exact Option.noConfusion hq
    have hq' : cellAt (setCell g.gameState.Board x y (some white)) q.X q.Y = some white := by
      rw [cellAt_setCell, if_neg hqne]; exact hq
    rw [hboard, cellAt_removeAll, if_neg, hq']
    intro h
    exact not_mem_toRemove_of_cell _ x y white q hq' h.1
  · intro q hq hnot
    have hqne : ¬ (q.X = x ∧ q.Y = y ∧ outOfBounds g.gameState.Board x y = false) := by
      rintro ⟨h1, h2, -⟩
      apply hq
      cases q
      simp only [Cordinate.mk.injEq]
      exact ⟨h1, h2⟩
    rw [hboard, cellAt_removeAll, if_neg (fun h => hnot h.1), cellAt_setCell, if_neg hqne]

/-- C2, instance: on a one-point board the point `(5, 5)` is off the board; the placement
is refused and nothing changes. -/
theorem placePiece_rejects_invalid_witness :
    placePiece (gameOn [[none]] 0 0 0 0 ⟨-1, -1⟩ true) 5 5 true =
      (false, gameOn [[none]] 0 0 0 0 ⟨-1, -1⟩ true) :=
  placePiece_rejects_invalid (gameOn [[none]] 0 0 0 0 ⟨-1, -1⟩ true) 5 5 true
    (Or.inl (by decide))

/-- C3, instance: Black plays the corner `(0, 0)` whose two neighbours are white stones
that keep liberties elsewhere; the move is refused and nothing changes. -/
theorem placePiece_rejects_suicide_witness :
    placePiece (gameOn [[none, some true, none], [some true, none, none], [none, none, none]]
        2 0 0 0 ⟨-1, -1⟩ false) 0 0 false =
      (false, gameOn [[none, some true, none], [some true, none, none], [none, none, none]]
        2 0 0 0 ⟨-1, -1⟩ false) :=
  placePiece_rejects_suicide
    (gameOn [[none, some true, none], [some true, none, none], [none, none, none]]
      2 0 0 0 ⟨-1, -1⟩ false) 0 0 false (by decide) (by decide)
    (by
      intro n hn
      rw [← findGroup_isSome_iff]
      revert n
      decide)
    (by
      rw [hasLiberty_iff_hasRoom _ _ _ _ ⟨by decide, by decide⟩]
      decide)

/-- C4, instance: White plays the corner `(0, 0)`, both of whose neighbours are black
stones; each of them loses its last liberty, so the move is accepted although the
corner had no empty neighbour. -/
theorem placePiece_capture_first_witness :
    (placePiece (gameOn [[none, some false, some true], [some false, some true, none],
        [some true, none, none]] 3 2 0 0 ⟨-1, -1⟩ true) 0 0 true).1 = true ∧
      (placePiece (gameOn [[none, some false, some true], [some false, some true, none],
        [some true, none, none]] 3 2 0 0 ⟨-1, -1⟩ true) 0 0 true).2.gameState.Board =
        [[some true, none, some true], [none, some true, none], [some true, none, none]] :=
  ⟨(placePiece_capture_first
      (gameOn [[none, some false, some true], [some false, some true, none],
        [some true, none, none]] 3 2 0 0 ⟨-1, -1⟩ true) 0 0 true (by decide) (by decide)
      ⟨⟨1, 0⟩, by decide, (findGroup_isSome_iff _ _ _ _).1 (by decide)⟩ (by decide)).1,
    by decide⟩

/-- C1, failing position. Black has three stones, one group `(1,0) (1,1) (0,1)` that
touches the corner `(0, 0)` on two sides and whose last liberty is that corner. White
plays `(0, 0)`: the three stones leave the board, but `toRemove` lists each of them
twice, so `BlackStones` goes from `3` to `-3` and `BlackStonesCaptured` from `0` to
`6`. -/
theorem capture_two_sides_counts_twice :
    toRemove [[some true, some false, some true], [some false, some false, some true],
        [some true, some true, none]] 0 0 true =
      [⟨1, 0⟩, ⟨1, 1⟩, ⟨0, 1⟩, ⟨0, 1⟩, ⟨1, 1⟩, ⟨1, 0⟩] ∧
    placePiece (gameOn [[none, some false, some true], [some false, some false, some true],
        [some true, some true, none]] 4 3 0 0 ⟨-1, -1⟩ true) 0 0 true =
      (true, gameOn [[some true, none, some true], [none, none, some true],
        [some true, some true, none]] 5 (-3) 0 6 ⟨-1, -1⟩ true) := by
  decide

/-- A `Game` value that no play produces: the ko lock is on `(1, 0)`, where a black stone
stands whose last liberty is `(2, 0)`, and `(2, 0)` has the empty neighbour `(2, 1)`.
On it the ko test fires and `placePiece` still returns `true`, because the `false` of
`caputreOpponent` leads on to the liberty test of the new stone. In the states
reached by `Update` the lock is always in a ko shape (`lockOK`), where the new stone
has no liberty. -/
theorem ko_refusal_keeps_stone :
    koApplies [[some true, some false, some true], [none, some true, none], [none, none, none]]
        ⟨1, 0⟩ 2 0 true ∧
    placePiece (gameOn [[some true, some false, none], [none, some true, none],
        [none, none, none]] 2 1 0 0 ⟨1, 0⟩ true) 2 0 true =
      (true, gameOn [[some true, some false, some true], [none, some true, none],
        [none, none, none]] 3 1 0 0 ⟨1, 0⟩ true) := by
  decide

theorem scoreCell_rel (b : Board) (init sw : Sweep) (cr : Credit) (x y : Int)
    (h : SweepRel init sw cr) : SweepRel init (scoreCell b sw x y) (creditCell b cr x y) := by
  obtain ⟨h1, h2, h3, h4⟩ := h
  unfold scoreCell creditCell
  rw [h1]
  by_cases hc : ((cellAt b x y).isSome || decide ((⟨x, y⟩ : Cordinate) ∈ cr.checked)) = true
  · rw [if_pos hc, if_pos hc]; exact ⟨h1, h2, h3, h4⟩
  · rw [if_neg hc, if_neg hc]
    simp only []
    rcases hr : (asignTeritory b x y cr.checked) with ⟨⟨u, o, n⟩, V⟩
    cases u with
    | false => exact ⟨rfl, h2, h3, h4⟩
    | true =>
      cases o with
      | none => exact ⟨rfl, h2, h3, h4⟩
      | some col =>
        cases col with
        | true =>
          refine ⟨rfl, ?_, h3, ?_⟩
          · simp only [h2]; push_cast; ring
          · simp only [h4]; push_cast; ring
        | false =>
          refine ⟨rfl, h2, ?_, ?_⟩
          · simp only [h3]; push_cast; ring
          · simp only [h4]; push_cast; ring

theorem scoreRow_rel (b : Board) (init sw : Sweep) (cr : Credit) (y : Nat)
    (h : SweepRel init sw cr) : SweepRel init (scoreRow b sw y) (creditRow b cr y) := by
  unfold scoreRow creditRow
  generalize List.range (rowAt b y).length = xs
  induction xs generalizing sw cr with
  | nil => exact h
  | cons a t ih => exact ih _ _ (scoreCell_rel b init sw cr _ _ h)

theorem scoreBoard_rel (b : Board) (init sw : Sweep) (cr : Credit)
    (h : SweepRel init sw cr) : SweepRel init (scoreBoard b sw) (creditBoard b cr) := by
  unfold scoreBoard creditBoard
  generalize List.range b.length = ys
  induction ys generalizing sw cr with
  | nil => exact h
  | cons a t ih => exact ih _ _ (scoreRow_rel b init sw cr _ h)

/-- `FullScore` in closed form: the three values in terms of the counters and of the
territory credited by the sweep. -/
theorem FullScore_eq (g : Game) :
    FullScore g =
      (1 / 2 + (g.gameState.WhiteStones : ℚ) - (g.gameState.WhiteStonesCaptured : ℚ)
          - (g.gameState.BlackStones : ℚ) + (g.gameState.BlackStonesCaptured : ℚ)
          + ((territory g.gameState.Board).1 : ℚ) - ((territory g.gameState.Board).2 : ℚ),
        (g.gameState.BlackStonesCaptured : ℚ) + ((territory g.gameState.Board).1 : ℚ),
        (g.gameState.WhiteStonesCaptured : ℚ) + ((territory g.gameState.Board).2 : ℚ)) := by
  have h := scoreBoard_rel g.gameState.Board
    { score := 1 / 2 + (g.gameState.WhiteStones : ℚ) - (g.gameState.WhiteStonesCaptured : ℚ)
        - (g.gameState.BlackStones : ℚ) + (g.gameState.BlackStonesCaptured : ℚ),
      white := (g.gameState.BlackStonesCaptured : ℚ),
      black := (g.gameState.WhiteStonesCaptured : ℚ),
      checked := [] }
    { score := 1 / 2 + (g.gameState.WhiteStones : ℚ) - (g.gameState.WhiteStonesCaptured : ℚ)
        - (g.gameState.BlackStones : ℚ) + (g.gameState.BlackStonesCaptured : ℚ),
      white := (g.gameState.BlackStonesCaptured : ℚ),
      black := (g.gameState.WhiteStonesCaptured : ℚ),
      checked := [] }
    ⟨0, 0, []⟩ ⟨rfl, by simp, by simp, by simp⟩
  obtain ⟨-, h2, h3, h4⟩ := h
  unfold FullScore territory
  simp only [h2, h3, h4]

theorem asignTeritoryAux_mono (b : Board) : ∀ (fuel : Nat) (x y : Int) (V : List Cordinate)
    (q : Cordinate), q ∈ V → q ∈ (asignTeritoryAux fuel b x y V).2 := by
  intro fuel
  induction fuel with
  | zero => intro x y V q h; exact h
  | succ fuel ih =>
    intro x y V q hq
    unfold asignTeritoryAux
    by_cases hV : (⟨x, y⟩ : Cordinate) ∈ V
    · simp only [hV, if_true]; exact hq
    · simp only [hV, if_false]
      have hq0 : q ∈ (⟨x, y⟩ : Cordinate) :: V := List.mem_cons_of_mem _ hq
      by_cases ho : outOfBounds b x y = true
      · simp only [ho, if_true]; exact hq0
      · have ho' : outOfBounds b x y = false := by simpa using ho
        simp only [ho', Bool.false_eq_true, if_false]
        cases hcell : cellAt b x y with
        | some col => exact hq0
        | none =>
          simp only []
          have h0 := ih x (y - 1) _ q hq0
          have h1 := ih x (y + 1) _ q h0
          have h2 := ih (x - 1) y _ q h1
          have h3 := ih (x + 1) y _ q h2
          split
          · exact h1
          · split
            · exact h2
            · split
              · exact h3
              · exact h3

/-- Any depth budget above the number of unchecked board points gives the same result:
the budget of `asignTeritory` never runs out. -/
theorem asignTeritoryAux_fuel (b : Board) : ∀ (fuel fuel' : Nat) (x y : Int)
    (V : List Cordinate), unchecked b V < fuel → fuel ≤ fuel' →
    asignTeritoryAux fuel' b x y V = asignTeritoryAux fuel b x y V := by
  intro fuel
  induction fuel with
  | zero => intro fuel' x y V h; exact absurd h (Nat.not_lt_zero _)
  | succ fuel ih =>
    intro fuel' x y V hfuel hle
    obtain ⟨k, rfl⟩ : ∃ k, fuel' = k + 1 := ⟨fuel' - 1, by omega⟩
    have hk : fuel ≤ k := by omega
    unfold asignTeritoryAux
    by_cases hV : (⟨x, y⟩ : Cordinate) ∈ V
    · simp only [hV, if_true]
    · simp only [hV, if_false]
      by_cases ho : outOfBounds b x y = true
      · simp only [ho, if_true]
      · have ho' : outOfBounds b x y = false := by simpa using ho
        simp only [ho', Bool.false_eq_true, if_false]
        cases hcell : cellAt b x y with
        | some col => rfl
        | none =>
          simp only []
          have hlt : unchecked b (⟨x, y⟩ :: V) < fuel := by
            have := unchecked_cons_lt b V ⟨x, y⟩ ho' hV
            omega
          have step : ∀ (x' y' : Int) (V' : List Cordinate), unchecked b V' < fuel →
              asignTeritoryAux k b x' y' V' = asignTeritoryAux fuel b x' y' V' ∧
                unchecked b (asignTeritoryAux fuel b x' y' V').2 < fuel := by
            intro x' y' V' h
            exact ⟨ih k x' y' V' h hk,
              lt_of_le_of_lt (unchecked_mono b _ _ (asignTeritoryAux_mono b fuel x' y' V')) h⟩
          obtain ⟨e0, h0⟩ := step x (y - 1) _ hlt
          rw [e0]
          generalize asignTeritoryAux fuel b x (y - 1) (⟨x, y⟩ :: V) = r0 at h0 ⊢
          obtain ⟨e1, h1⟩ := step x (y + 1) _ h0
          rw [e1]
          generalize asignTeritoryAux fuel b x (y + 1) r0.2 = r1 at h1 ⊢
          obtain ⟨e2, h2⟩ := step (x - 1) y _ h1
          rw [e2]
          generalize asignTeritoryAux fuel b (x - 1) y r1.2 = r2 at h2 ⊢
          obtain ⟨e3, -⟩ := step (x + 1) y _ h2
          rw [e3]

/-- The depth budget of `hasRoom` is enough: every larger budget gives the same result. -/
theorem hasRoom_budget (b : Board) (w : Bool) (x y : Int) (V : List Cordinate)
    (grp : Option (List Cordinate)) (fuel : Nat) (h : cellCount b + 1 ≤ fuel) :
    hasRoomAux fuel b x y w V grp = hasRoom b x y w V grp :=
  hasRoomAux_fuel b w (cellCount b + 1) fuel x y V grp
    (Nat.lt_succ_of_le (unchecked_le b V)) h

/-- The depth budget of `asignTeritory` is enough: every larger budget gives the same
result. -/
theorem asignTeritory_budget (b : Board) (x y : Int) (V : List Cordinate) (fuel : Nat)
    (h : cellCount b + 1 ≤ fuel) :
    asignTeritoryAux fuel b x y V = asignTeritory b x y V :=
  asignTeritoryAux_fuel b (cellCount b + 1) fuel x y V
    (Nat.lt_succ_of_le (unchecked_le b V)) h

/-- C7, failing position. Black stone at `(0,0)`, white stones at `(0,1)` and `(1,1)`; the
six empty points form one region, which touches the black stone (at `(1,0)`) and the
white stones. The sweep gives up at `(1,0)` on the colour mismatch, leaving the
other five points unvisited; they are swept again from `(2,0)`, where the stones
are already checked except the white `(0,1)`, and `FullScore` credits five points to
White: score `13/2`, white `5`, black `0`. -/
theorem contested_region_credited :
    emptyAt [[some false, none, none], [some true, some true, none], [none, none, none]] ⟨1, 0⟩ ∧
    stoneAt [[some false, none, none], [some true, some true, none], [none, none, none]]
      false ⟨0, 0⟩ ∧
    stoneAt [[some false, none, none], [some true, some true, none], [none, none, none]]
      true ⟨1, 1⟩ ∧
    FullScore (gameOn [[some false, none, none], [some true, some true, none], [none, none, none]]
      2 1 0 0 ⟨-1, -1⟩ false) = (13 / 2, 5, 0) := by
  refine ⟨⟨by decide, by decide⟩, ⟨by decide, by decide⟩, ⟨by decide, by decide⟩, ?_⟩
  have ht : territory [[some false, none, none], [some true, some true, none],
      [none, none, none]] = (5, 0) := by decide
  rw [FullScore_eq]
  simp only [gameOn, ht]
  norm_num

/-- C8, failing position. A white wall on the middle column splits the board into two
empty columns of three points, each bordered by white stones only. The sweep
credits the left column (the stones get checked on the way) and finds no owner
for the right one: white territory `3` instead of `6`. -/
theorem second_region_not_credited :
    FullScore (gameOn [[none, some true, none], [none, some true, none], [none, some true, none]]
      3 0 0 0 ⟨-1, -1⟩ false) = (13 / 2, 3, 0) ∧
    (asignTeritory [[none, some true, none], [none, some true, none], [none, some true, none]]
      0 0 []).1 = (true, some true, 3) ∧
    (asignTeritory [[none, some true, none], [none, some true, none], [none, some true, none]]
      2 0 (asignTeritory [[none, some true, none], [none, some true, none],
        [none, some true, none]] 0 0 []).2).1 = (true, none, 3) := by
  refine ⟨?_, by decide, by decide⟩
  have ht : territory [[none, some true, none], [none, some true, none],
      [none, some true, none]] = (3, 0) := by decide
  rw [FullScore_eq]
  simp only [gameOn, ht]
  norm_num

/-- C9, counterexample. White has captured one black stone in the corner; the sweep
credits one point to White, and the score is `9/2`, not
`1/2 + (WhiteStones - BlackStones) + (white territory - black territory) = 7/2`:
the captured counters enter the score as well. -/
theorem score_formula_counterexample :
    ¬ ((FullScore cornerCaptured).1 =
      1 / 2 + ((cornerCaptured.gameState.WhiteStones : ℚ)
          - (cornerCaptured.gameState.BlackStones : ℚ))
        + (((territory cornerCaptured.gameState.Board).1 : ℚ)
          - ((territory cornerCaptured.gameState.Board).2 : ℚ))) := by
  rw [FullScore_eq]
  simp only [cornerCaptured, gameOn]
  intro h
  linarith

/-- C9, amended. The first value of `FullScore` is
`1/2 + (WhiteStones - BlackStones) + (BlackStonesCaptured - WhiteStonesCaptured)
+ (white territory - black territory)`, the territories being what the sweep
credits; it is never `0`. -/
theorem FullScore_formula (g : Game) :
    (FullScore g).1 =
        1 / 2 + ((g.gameState.WhiteStones : ℚ) - (g.gameState.BlackStones : ℚ))
          + ((g.gameState.BlackStonesCaptured : ℚ) - (g.gameState.WhiteStonesCaptured : ℚ))
          + (((territory g.gameState.Board).1 : ℚ) - ((territory g.gameState.Board).2 : ℚ)) ∧
      (FullScore g).1 ≠ 0 := by
  rw [FullScore_eq]
  constructor
  · simp only; ring
  · simp only
    intro h
    have h2 : ((1 + 2 * (g.gameState.WhiteStones - g.gameState.WhiteStonesCaptured
        - g.gameState.BlackStones + g.gameState.BlackStonesCaptured
        + (territory g.gameState.Board).1 - (territory g.gameState.Board).2) : Int) : ℚ) = 0 := by
      push_cast
      linarith
    have h3 : (1 + 2 * (g.gameState.WhiteStones - g.gameState.WhiteStonesCaptured
        - g.gameState.BlackStones + g.gameState.BlackStonesCaptured
        + (territory g.gameState.Board).1 - (territory g.gameState.Board).2) : Int) = 0 := by
      exact_mod_cast h2
    omega

/-- The three outcomes of `placePiece` on an empty board point: capture, plain
placement, refusal. -/
theorem placePiece_result (g : Game) (x y : Int) (c : Bool)
    (hin : outOfBounds g.gameState.Board x y = false)
    (hempty : cellAt g.gameState.Board x y = none) :
    placePiece g x y c =
      if toRemove (setCell g.gameState.Board x y (some c)) x y c ≠ [] ∧
          ¬ koApplies (setCell g.gameState.Board x y (some c)) g.locked x y c then
        (true, { (if (toRemove (setCell g.gameState.Board x y (some c)) x y c).length = 1
                  then { putStone g x y c with delay_lock := true, locked := ⟨x, y⟩ }
                  else putStone g x y c) with
                 gameState := applyCapture (putStone g x y c).gameState c
                   (toRemove (setCell g.gameState.Board x y (some c)) x y c) })
      else if (hasRoom (setCell g.gameState.Board x y (some c)) x y c [] none).1 then
        (true, putStone g x y c)
      else (false, g) := by
  rw [placePiece_valid g x y c hin hempty]
  by_cases h : toRemove (setCell g.gameState.Board x y (some c)) x y c ≠ [] ∧
      ¬ koApplies (setCell g.gameState.Board x y (some c)) g.locked x y c
  · rw [if_pos h, caputreOpponent_take (putStone g x y c) x y c h.1 h.2]
    simp only [if_true]
    rfl
  · rw [if_neg h]
    have hcap : caputreOpponent (putStone g x y c) x y c = (false, putStone g x y c) := by
      by_cases hnil : toRemove (setCell g.gameState.Board x y (some c)) x y c = []
      · exact caputreOpponent_nil _ x y c hnil
      · have hko : koApplies (setCell g.gameState.Board x y (some c)) g.locked x y c := by
          by_contra hk; exact h ⟨hnil, hk⟩
        exact caputreOpponent_ko _ x y c hko
    rw [hcap]
    simp only [Bool.false_eq_true, if_false, putStone_board]
    by_cases hr : (hasRoom (setCell g.gameState.Board x y (some c)) x y c [] none).1 = true
    · rw [if_pos hr, if_pos hr]
    · rw [if_neg hr, if_neg hr, takeStone_putStone g x y c hin hempty]

/-- Fields that `placePiece` never writes. -/
theorem placePiece_frame (g : Game) (x y : Int) (c : Bool) :
    (placePiece g x y c).2.active = g.active ∧
      (placePiece g x y c).2.whiteToMove = g.whiteToMove ∧
      (placePiece g x y c).2.isReplay = g.isReplay ∧
      (placePiece g x y c).2.replayMoves = g.replayMoves ∧
      (placePiece g x y c).2.replayMoveIdx = g.replayMoveIdx ∧
      (placePiece g x y c).2.Dymension = g.Dymension ∧
      (placePiece g x y c).2.gameState.Moves = g.gameState.Moves ∧
      (placePiece g x y c).2.gameState.MovesCount = g.gameState.MovesCount ∧
      (placePiece g x y c).2.gameState.WhiteMoves = g.gameState.WhiteMoves ∧
      (placePiece g x y c).2.gameState.BlackMoves = g.gameState.BlackMoves ∧
      (placePiece g x y c).2.gameState.OpponentSkipped = g.gameState.OpponentSkipped := by
  by_cases hv : outOfBounds g.gameState.Board x y = false ∧ cellAt g.gameState.Board x y = none
  · rw [placePiece_result g x y c hv.1 hv.2]
    split
    · split <;> simp [putStone, applyCapture]
    · split <;> simp [putStone]
  · have : outOfBounds g.gameState.Board x y = true ∨ cellAt g.gameState.Board x y ≠ none := by
      by_cases ho : outOfBounds g.gameState.Board x y = true
      · exact Or.inl ho
      · right
        intro hc
        exact hv ⟨by simpa using ho, hc⟩
    rw [placePiece_invalid g x y c this]
    simp

theorem Update_finished (g : Game) (d : Decision) (h : g.active = false) :
    Update g d = (some "game finished", g) := by
  unfold Update
  simp [h]

theorem Update_live (g : Game) (d : Decision) (ha : g.active = true) (hr : g.isReplay = false) :
    Update g d = (none, playTurn g d.skip d.x d.y) := by
  unfold Update
  simp [ha, hr]

/-- `playTurn` unfolded along `accepts`. -/
theorem playTurn_eq (g : Game) (d : Decision) :
    playTurn g d.skip d.x d.y =
      if accepts g d then
        (if d.skip then commitMove g d.skip d.x d.y
         else commitMove (placePiece g (d.x.getD 0) (d.y.getD 0) g.whiteToMove).2 d.skip d.x d.y)
      else
        (match d.x, d.y with
         | some x, some y => (placePiece g x y g.whiteToMove).2
         | _, _ => g) := by
  unfold playTurn accepts
  cases hs : d.skip with
  | true => simp
  | false =>
    cases hx : d.x with
    | none => simp
    | some x =>
      cases hy : d.y with
      | none => simp
      | some y =>
        simp only [Bool.false_or, Bool.false_eq_true, if_false, Option.getD_some]

theorem isReplay_commitMove (g : Game) (s : Bool) (x y : Option Int) :
    (commitMove g s x y).isReplay = g.isReplay := rfl

theorem isReplay_playTurn (g : Game) (d : Decision) :
    (playTurn g d.skip d.x d.y).isReplay = g.isReplay := by
  rw [playTurn_eq]
  split
  · split
    · rfl
    · rw [isReplay_commitMove]; exact (placePiece_frame g _ _ _).2.2.1
  · split
    · exact (placePiece_frame g _ _ _).2.2.1
    · rfl

theorem isReplay_Update (g : Game) (d : Decision) (hr : g.isReplay = false) :
    (Update g d).2.isReplay = false := by
  by_cases ha : g.active = true
  · rw [Update_live g d ha hr, isReplay_playTurn]; exact hr
  · rw [Update_finished g d (by simpa using ha)]; exact hr

theorem active_playTurn (g : Game) (d : Decision) (ha : g.active = true) :
    (playTurn g d.skip d.x d.y).active = false ↔
      (d.skip = true ∧ g.gameState.OpponentSkipped = true) := by
  rw [playTurn_eq]
  cases hs : d.skip with
  | true =>
    have hacc : accepts g d = true := by simp [accepts, hs]
    simp only [hacc, if_true, true_and]
    unfold commitMove
    cases ho : g.gameState.OpponentSkipped <;> simp [ho, ha]
  | false =>
    simp only [Bool.false_eq_true, if_false, false_and, iff_false, Bool.not_eq_false]
    split
    · unfold commitMove
      simp only [Bool.false_and, Bool.false_eq_true, if_false]
      rw [(placePiece_frame g _ _ _).1]; exact ha
    · split
      · rw [(placePiece_frame g _ _ _).1]; exact ha
      · exact ha

theorem skipped_playTurn (g : Game) (d : Decision) :
    (playTurn g d.skip d.x d.y).gameState.OpponentSkipped =
      if accepts g d then d.skip else g.gameState.OpponentSkipped := by
  rw [playTurn_eq]
  split
  · cases hs : d.skip with
    | true =>
      simp only [if_true]
      unfold commitMove
      simp only [if_true]
      split <;> rfl
    | false =>
      simp only [Bool.false_eq_true, if_false]
      unfold commitMove
      simp only [Bool.false_eq_true, if_false]
  · split
    · exact (placePiece_frame g _ _ _).2.2.2.2.2.2.2.2.2.2
    · rfl

theorem run_cons (g : Game) (d : Decision) (ds : List Decision) :
    run g (d :: ds) = run (Update g d).2 ds := rfl

theorem run_skipped (ds : List Decision) : ∀ (g : Game) (p : Bool), g.isReplay = false →
    (g.active = true → g.gameState.OpponentSkipped = p) →
    (run g ds).isReplay = false ∧
      ((run g ds).active = true →
        (run g ds).gameState.OpponentSkipped = lastWasPass g p ds) := by
  induction ds with
  | nil => intro g p hr hp; exact ⟨hr, hp⟩
  | cons d ds ih =>
    intro g p hr hp
    rw [run_cons]
    unfold lastWasPass
    apply ih _ _ (isReplay_Update g d hr)
    intro ha'
    by_cases ha : g.active = true
    · rw [Update_live g d ha hr] at ha' ⊢
      simp only [skipped_playTurn, ha, Bool.true_and]
      split
      · rfl
      · exact hp ha
    · have hf : g.active = false := by simpa using ha
      rw [Update_finished g d hf] at ha'
      exact absurd ha' ha

/-- C10. On a game that is not a replay, started by `NewGame` and driven by any list of
agent answers: while the game is in progress, the next `Update` finishes it exactly
when the answer is a pass and the most recent accepted turn was a pass too; once
finished, every `Update` returns the error and leaves the state as it is. -/
theorem double_pass_terminates (g0 : Game) (hrep : g0.isReplay = false) (ds : List Decision)
    (d : Decision) :
    ((run (NewGame g0) ds).active = true →
      ((Update (run (NewGame g0) ds) d).1 = none ∧
        ((Update (run (NewGame g0) ds) d).2.active = false ↔
          (d.skip = true ∧ lastWasPass (NewGame g0) false ds = true)))) ∧
    ((run (NewGame g0) ds).active = false →
      Update (run (NewGame g0) ds) d = (some "game finished", run (NewGame g0) ds)) := by
  obtain ⟨hr, hs⟩ := run_skipped ds (NewGame g0) false hrep (fun _ => rfl)
  constructor
  · intro ha
    rw [Update_live _ d ha hr]
    refine ⟨rfl, ?_⟩
    rw [active_playTurn _ d ha, hs ha]
  · intro hf
    exact Update_finished _ d hf

/-- C10, instance: on a 5x5 board Black plays `(1,1)`, White plays `(3,3)`, Black passes
(the game goes on) and White passes: the game is finished. -/
theorem double_pass_terminates_witness :
    (run (NewGame (blankGame 5)) [⟨false, some 1, some 1⟩, ⟨false, some 3, some 3⟩,
        ⟨true, none, none⟩]).active = true ∧
      (Update (run (NewGame (blankGame 5)) [⟨false, some 1, some 1⟩, ⟨false, some 3, some 3⟩,
        ⟨true, none, none⟩]) ⟨true, none, none⟩).2.active = false :=
  ⟨by decide,
    ((double_pass_terminates (blankGame 5) rfl [⟨false, some 1, some 1⟩,
      ⟨false, some 3, some 3⟩, ⟨true, none, none⟩] ⟨true, none, none⟩).1 (by decide)).2.2
      ⟨rfl, by decide⟩⟩

theorem toRemove_singleton (b : Board) (x y : Int) (c : Bool) (q : Cordinate)
    (h : toRemove b x y c = [q]) : q ∈ neighbours ⟨x, y⟩ ∧ capturable b (!c) q := by
  have hq : q ∈ toRemove b x y c := by rw [h]; exact List.mem_singleton_self q
  obtain ⟨n, hn, hc, -⟩ := (mem_toRemove b x y c q).1 hq
  have hn' : n ∈ toRemove b x y c :=
    (mem_toRemove b x y c n).2 ⟨n, hn, hc, Relation.ReflTransGen.refl⟩
  rw [h] at hn'
  rw [List.mem_singleton.1 hn'] at hn hc
  exact ⟨hn, hc⟩

theorem removeAll_singleton (b : Board) (q : Cordinate) :
    removeAll b [q] = setCell b q.X q.Y none := rfl

theorem setCell_restore (b : Board) (x y : Int) (v : Option Bool)
    (ho : outOfBounds b x y = false) (hc : cellAt b x y = v) :
    setCell (setCell b x y none) x y v = b := by
  rw [setCell_setCell, ← hc]
  exact setCell_self b x y ho

theorem inBounds_nonneg (b : Board) (p : Cordinate) (h : outOfBounds b p.X p.Y = false) :
    p ≠ ⟨-1, -1⟩ := by
  intro hp
  have h0 := ((outOfBounds_eq_false_iff b p.X p.Y).1 h).1
  rw [hp] at h0
  simp at h0

/-- No stone next to an empty point can be taken: a placement elsewhere leaves the
stone of the other colour at `p` on the board when `p` has the empty neighbour `q`. -/
theorem not_mem_toRemove_of_liberty (b : Board) (x y : Int) (c : Bool) (p q : Cordinate)
    (hq : q ∈ neighbours p) (he : emptyAt b q) : p ∉ toRemove b x y c := by
  intro hp
  obtain ⟨n, -, hc, hl⟩ := (mem_toRemove b x y c p).1 hp
  exact hc.2 ⟨p, q, hl, hq, he⟩

theorem next_live (g : Game) (d : Decision) (ha : g.active = true) (hr : g.isReplay = false) :
    next g d = playTurn g d.skip d.x d.y := by
  unfold next
  rw [Update_live g d ha hr]

theorem accepts_place (g : Game) (p : Cordinate) :
    accepts g (place p) = (placePiece g p.X p.Y g.whiteToMove).1 := by
  simp [accepts, place]

theorem accepts_cases (g : Game) (d : Decision) (h : accepts g d = true) :
    d.skip = true ∨ (d.skip = false ∧ ∃ x y, d.x = some x ∧ d.y = some y ∧
      (placePiece g x y g.whiteToMove).1 = true) := by
  unfold accepts at h
  cases hs : d.skip with
  | true => exact Or.inl rfl
  | false =>
    right
    refine ⟨rfl, ?_⟩
    rw [hs] at h
    cases hx : d.x with
    | none => rw [hx] at h; simp at h
    | some x =>
      cases hy : d.y with
      | none => rw [hx, hy] at h; simp at h
      | some y =>
        rw [hx, hy] at h
        exact ⟨x, y, rfl, rfl, by simpa using h⟩

theorem placePiece_true_valid (g : Game) (x y : Int) (c : Bool)
    (h : (placePiece g x y c).1 = true) :
    outOfBounds g.gameState.Board x y = false ∧ cellAt g.gameState.Board x y = none := by
  by_contra hv
  have : outOfBounds g.gameState.Board x y = true ∨ cellAt g.gameState.Board x y ≠ none := by
    by_cases ho : outOfBounds g.gameState.Board x y = true
    · exact Or.inl ho
    · right
      intro hc
      exact hv ⟨by simpa using ho, hc⟩
  rw [placePiece_invalid g x y c this] at h
  exact absurd h Bool.false_ne_true

/-- After an accepted turn that started without a pending delay, the delay flag is down
and the lock is either released or sits on the point just played, which was empty. -/
theorem lock_after_turn (s : Game) (d : Decision) (hd : s.delay_lock = false)
    (hacc : accepts s d = true) :
    (playTurn s d.skip d.x d.y).delay_lock = false ∧
      (playTurn s d.skip d.x d.y).active =
        (if d.skip && s.gameState.OpponentSkipped then false else s.active) ∧
      (playTurn s d.skip d.x d.y).whiteToMove = (!s.whiteToMove) ∧
      ((playTurn s d.skip d.x d.y).locked = ⟨-1, -1⟩ ∨
        ∃ x y, d.x = some x ∧ d.y = some y ∧ d.skip = false ∧
          (playTurn s d.skip d.x d.y).locked = ⟨x, y⟩ ∧
          outOfBounds s.gameState.Board x y = false ∧ cellAt s.gameState.Board x y = none) := by
  rw [playTurn_eq, if_pos hacc]
  rcases accepts_cases s d hacc with hs | ⟨hs, x, y, hx, hy, hp⟩
  · simp only [hs, if_true]
    unfold commitMove
    simp [hd]
  · obtain ⟨hin, hem⟩ := placePiece_true_valid s x y _ hp
    simp only [hs, Bool.false_eq_true, if_false, hx, hy, Option.getD_some]
    have hres := placePiece_result s x y s.whiteToMove hin hem
    by_cases h1 : toRemove (setCell s.gameState.Board x y (some s.whiteToMove)) x y s.whiteToMove
        ≠ [] ∧ ¬ koApplies (setCell s.gameState.Board x y (some s.whiteToMove)) s.locked x y
          s.whiteToMove
    · rw [if_pos h1] at hres
      rw [hres]
      by_cases h2 : (toRemove (setCell s.gameState.Board x y (some s.whiteToMove)) x y
          s.whiteToMove).length = 1
      · simp only [h2, if_true]
        refine ⟨rfl, ?_, rfl, Or.inr ⟨x, y, ?_, ?_, ?_, ?_, hin, hem⟩⟩
        · simp [commitMove, putStone]
        · trivial
        · trivial
        · trivial
        · simp [commitMove]
      · simp only [h2, if_false]
        refine ⟨rfl, ?_, rfl, Or.inl ?_⟩
        · simp [commitMove, putStone]
        · simp [commitMove, putStone, hd]
    · rw [if_neg h1] at hres
      have hr : (hasRoom (setCell s.gameState.Board x y (some s.whiteToMove)) x y
          s.whiteToMove [] none).1 = true := by
        by_contra hr
        rw [if_neg hr] at hres
        rw [hres] at hp
        exact absurd hp Bool.false_ne_true
      rw [if_pos hr] at hres
      rw [hres]
      refine ⟨rfl, ?_, rfl, Or.inl ?_⟩
      · simp [commitMove, putStone]
      · simp [commitMove, putStone, hd]

/-- The board after an accepted turn: unchanged by a pass, otherwise the new stone is
placed and the points of `toRemove` may have been cleared. -/
theorem board_after_turn (s : Game) (d : Decision) (hacc : accepts s d = true) :
    (d.skip = true ∧ (playTurn s d.skip d.x d.y).gameState.Board = s.gameState.Board) ∨
      ∃ x y, d.skip = false ∧ d.x = some x ∧ d.y = some y ∧
        outOfBounds s.gameState.Board x y = false ∧ cellAt s.gameState.Board x y = none ∧
        ((playTurn s d.skip d.x d.y).gameState.Board =
            setCell s.gameState.Board x y (some s.whiteToMove) ∨
          (playTurn s d.skip d.x d.y).gameState.Board =
            removeAll (setCell s.gameState.Board x y (some s.whiteToMove))
              (toRemove (setCell s.gameState.Board x y (some s.whiteToMove)) x y
                s.whiteToMove)) := by
  rw [playTurn_eq, if_pos hacc]
  rcases accepts_cases s d hacc with hs | ⟨hs, x, y, hx, hy, hp⟩
  · left
    refine ⟨hs, ?_⟩
    simp only [hs, if_true]
    unfold commitMove
    simp only [if_true]
    split <;> rfl
  · right
    obtain ⟨hin, hem⟩ := placePiece_true_valid s x y _ hp
    refine ⟨x, y, hs, hx, hy, hin, hem, ?_⟩
    simp only [hs, Bool.false_eq_true, if_false, hx, hy, Option.getD_some]
    have hres := placePiece_result s x y s.whiteToMove hin hem
    by_cases h1 : toRemove (setCell s.gameState.Board x y (some s.whiteToMove)) x y s.whiteToMove
        ≠ [] ∧ ¬ koApplies (setCell s.gameState.Board x y (some s.whiteToMove)) s.locked x y
          s.whiteToMove
    · rw [if_pos h1] at hres
      rw [hres]
      right
      simp [commitMove, applyCapture, putStone]
    · rw [if_neg h1] at hres
      have hr : (hasRoom (setCell s.gameState.Board x y (some s.whiteToMove)) x y
          s.whiteToMove [] none).1 = true := by
        by_contra hr
        rw [if_neg hr] at hres
        rw [hres] at hp
        exact absurd hp Bool.false_ne_true
      rw [if_pos hr] at hres
      rw [hres]
      left
      simp [commitMove, putStone]

theorem playTurn_place (g : Game) (p : Cordinate) :
    playTurn g (place p).skip (place p).x (place p).y =
      if (placePiece g p.X p.Y g.whiteToMove).1 then
        commitMove (placePiece g p.X p.Y g.whiteToMove).2 false (some p.X) (some p.Y)
      else (placePiece g p.X p.Y g.whiteToMove).2 := by
  unfold playTurn place
  simp

/-- The turn that takes exactly one stone: what `Update` leaves behind. -/
theorem capture_one_step (g : Game) (P Q : Cordinate)
    (hact : g.active = true) (hrep : g.isReplay = false)
    (hin : outOfBounds g.gameState.Board P.X P.Y = false)
    (hem : cellAt g.gameState.Board P.X P.Y = none)
    (hcap : toRemove (setCell g.gameState.Board P.X P.Y (some g.whiteToMove)) P.X P.Y
      g.whiteToMove = [Q])
    (hlk : g.locked ≠ Q) :
    accepts g (place P) = true ∧ (next g (place P)).active = true ∧
      (next g (place P)).isReplay = false ∧ (next g (place P)).delay_lock = false ∧
      (next g (place P)).locked = P ∧ (next g (place P)).whiteToMove = (!g.whiteToMove) ∧
      (next g (place P)).gameState.Board =
        setCell (setCell g.gameState.Board P.X P.Y (some g.whiteToMove)) Q.X Q.Y none ∧
      (next g (place P)).gameState.Moves = g.gameState.Moves ++ [(some P.X, some P.Y)] ∧
      (next g (place P)).gameState.OpponentSkipped = false := by
  have h1 : toRemove (setCell g.gameState.Board P.X P.Y (some g.whiteToMove)) P.X P.Y
      g.whiteToMove ≠ [] ∧
      ¬ koApplies (setCell g.gameState.Board P.X P.Y (some g.whiteToMove)) g.locked P.X P.Y
        g.whiteToMove := by
    constructor
    · rw [hcap]; exact List.cons_ne_nil _ _
    · rintro ⟨-, hh⟩
      rw [hcap] at hh
      simp only [List.head?_cons, Option.some.injEq] at hh
      exact hlk hh.symm
  have hres := placePiece_result g P.X P.Y g.whiteToMove hin hem
  rw [if_pos h1, hcap] at hres
  simp only [List.length_singleton, if_true] at hres
  have hacc : accepts g (place P) = true := by rw [accepts_place, hres]
  refine ⟨hacc, ?_⟩
  rw [next_live g _ hact hrep, playTurn_place, hres]
  simp only [if_true]
  refine ⟨?_, ?_, rfl, ?_, rfl, ?_, ?_, ?_⟩
  · simp [commitMove, putStone, hact]
  · simp [commitMove, putStone, hrep]
  · simp [commitMove]
  · simp [commitMove, applyCapture, putStone, removeAll_singleton]
  · simp [commitMove, applyCapture, putStone]
  · simp [commitMove, applyCapture, putStone]

theorem outOfBounds_after_turn (s : Game) (d : Decision) (hacc : accepts s d = true)
    (x y : Int) :
    outOfBounds (playTurn s d.skip d.x d.y).gameState.Board x y =
      outOfBounds s.gameState.Board x y := by
  rcases board_after_turn s d hacc with ⟨-, hb⟩ | ⟨x', y', -, -, -, -, -, hb | hb⟩
  · rw [hb]
  · rw [hb, outOfBounds_setCell]
  · rw [hb, outOfBounds_removeAll, outOfBounds_setCell]

/-- A stone with an empty neighbour is still there after the other side's accepted turn
played elsewhere, and so is the empty neighbour. -/
theorem stone_survives_turn (s : Game) (d : Decision) (hacc : accepts s d = true)
    (p q : Cordinate) (c : Bool) (hq : q ∈ neighbours p)
    (hp : cellAt s.gameState.Board p.X p.Y = some c)
    (he : emptyAt s.gameState.Board q)
    (hd : d.skip = true ∨ d.x ≠ some q.X ∨ d.y ≠ some q.Y) :
    cellAt (playTurn s d.skip d.x d.y).gameState.Board p.X p.Y = some c := by
  rcases board_after_turn s d hacc with ⟨-, hb⟩ | ⟨x, y, hs, hx, hy, hin, hem, hb⟩
  · rw [hb]; exact hp
  · have hnq : ¬ (q.X = x ∧ q.Y = y ∧ outOfBounds s.gameState.Board x y = false) := by
      rintro ⟨h1, h2, -⟩
      rcases hd with h | h | h
      · rw [hs] at h; exact absurd h Bool.false_ne_true
      · exact h (by rw [hx, h1])
      · exact h (by rw [hy, h2])
    have hnp : ¬ (p.X = x ∧ p.Y = y ∧ outOfBounds s.gameState.Board x y = false) := by
      rintro ⟨h1, h2, -⟩
      rw [h1, h2, hem] at hp
      exact Option.noConfusion hp
    have hp' : cellAt (setCell s.gameState.Board x y (some s.whiteToMove)) p.X p.Y = some c := by
      rw [cellAt_setCell, if_neg hnp]; exact hp
    rcases hb with hb | hb
    · rw [hb]; exact hp'
    · have he' : emptyAt (setCell s.gameState.Board x y (some s.whiteToMove)) q := by
        refine ⟨by rw [outOfBounds_setCell]; exact he.1, ?_⟩
        rw [cellAt_setCell, if_neg hnq]; exact he.2
      have hnot := not_mem_toRemove_of_liberty _ x y s.whiteToMove p q hq he'
      rw [hb, cellAt_removeAll, if_neg (fun h => hnot h.1)]
      exact hp'

theorem lock_ne_of_occupied (s : Game) (d : Decision) (hd : s.delay_lock = false)
    (hacc : accepts s d = true) (p : Cordinate) (c : Bool)
    (hin : outOfBounds s.gameState.Board p.X p.Y = false)
    (hp : cellAt s.gameState.Board p.X p.Y = some c) :
    (playTurn s d.skip d.x d.y).locked ≠ p := by
  rcases (lock_after_turn s d hd hacc).2.2.2 with h | ⟨x, y, -, -, -, h, -, hem⟩
  · rw [h]; exact (inBounds_nonneg _ p hin).symm
  · rw [h]
    intro hxy
    rw [← hxy] at hp
    simp only [hem] at hp
    exact Option.noConfusion hp

/-- Ko through the driver, without the value of the lock after the opponent's turn. In a
game in progress (not a replay) let the side to move place at the empty point `P` and
take exactly the one stone at `Q` (the lock not being on `Q`). Then, with `g1` the state after that `Update`:
the turn is accepted, logged, the stone at `Q` is gone and the lock is on `P`;
the opponent's immediate attempt at `Q`, when it would take exactly the stone at `P`,
is refused and `Update` changes nothing;
after any accepted opponent turn `d2` other than a placement at `Q` (a move elsewhere or
a pass) the lock is no longer on `P` and the stone at `P` still stands; and after the
first side's next accepted turn `d3` (the game still in progress) the lock is not on
`P` either, so that the opponent's placement at `Q` taking exactly the stone at `P` is
accepted, logged, and takes it. -/
theorem ko_lock_one_turn (g : Game) (P Q : Cordinate)
    (hact : g.active = true) (hrep : g.isReplay = false)
    (hin : outOfBounds g.gameState.Board P.X P.Y = false)
    (hem : cellAt g.gameState.Board P.X P.Y = none)
    (hcap : toRemove (setCell g.gameState.Board P.X P.Y (some g.whiteToMove)) P.X P.Y
      g.whiteToMove = [Q])
    (hlk : g.locked ≠ Q) :
    ∀ g1, g1 = next g (place P) →
      (accepts g (place P) = true ∧
        g1.gameState.Moves = g.gameState.Moves ++ [(some P.X, some P.Y)] ∧
        g1.whiteToMove = (!g.whiteToMove) ∧
        cellAt g1.gameState.Board P.X P.Y = some g.whiteToMove ∧
        cellAt g1.gameState.Board Q.X Q.Y = none ∧
        g1.locked = P) ∧
      (toRemove (setCell g1.gameState.Board Q.X Q.Y (some g1.whiteToMove)) Q.X Q.Y
          g1.whiteToMove = [P] →
        accepts g1 (place Q) = false ∧ Update g1 (place Q) = (none, g1)) ∧
      (∀ d2 g2, g2 = next g1 d2 → accepts g1 d2 = true →
        (d2.skip = true ∨ d2.x ≠ some Q.X ∨ d2.y ≠ some Q.Y) →
        g2.locked ≠ P ∧ cellAt g2.gameState.Board P.X P.Y = some g.whiteToMove ∧
        ∀ d3 g3, g3 = next g2 d3 → accepts g2 d3 = true → g3.active = true →
          g3.locked ≠ P ∧ g3.whiteToMove = g1.whiteToMove ∧
          (cellAt g3.gameState.Board Q.X Q.Y = none →
            toRemove (setCell g3.gameState.Board Q.X Q.Y (some g3.whiteToMove)) Q.X Q.Y
              g3.whiteToMove = [P] →
            accepts g3 (place Q) = true ∧
              (next g3 (place Q)).gameState.Moves =
                g3.gameState.Moves ++ [(some Q.X, some Q.Y)] ∧
              cellAt (next g3 (place Q)).gameState.Board Q.X Q.Y = some g3.whiteToMove ∧
              cellAt (next g3 (place Q)).gameState.Board P.X P.Y = none)) := by
  intro g1 hg1
  obtain ⟨hacc, ha1, hr1, hd1, hl1, hw1, hb1, hm1, hs1⟩ :=
    capture_one_step g P Q hact hrep hin hem hcap hlk
  rw [← hg1] at ha1 hr1 hd1 hl1 hw1 hb1 hm1 hs1
  obtain ⟨hQn, hQs, hQl⟩ := toRemove_singleton _ _ _ _ _ hcap
  have hPs := stoneAt_setCell_self g.gameState.Board P.X P.Y g.whiteToMove hin
  -- the two points differ
  have hPQ : ¬ (P.X = Q.X ∧ P.Y = Q.Y ∧
      outOfBounds (setCell g.gameState.Board P.X P.Y (some g.whiteToMove)) Q.X Q.Y = false) := by
    rintro ⟨h1, h2, -⟩
    have h3 := hQs.2
    rw [← h1, ← h2, hPs.2] at h3
    cases hc : g.whiteToMove <;> rw [hc] at h3 <;> simp at h3
  have hP1 : cellAt g1.gameState.Board P.X P.Y = some g.whiteToMove := by
    rw [hb1, cellAt_setCell, if_neg hPQ]; exact hPs.2
  have hQ1 : cellAt g1.gameState.Board Q.X Q.Y = none := by
    rw [hb1, cellAt_setCell, if_pos ⟨rfl, rfl, hQs.1⟩]
  have hQo1 : outOfBounds g1.gameState.Board Q.X Q.Y = false := by
    rw [hb1, outOfBounds_setCell]; exact hQs.1
  have hPo1 : outOfBounds g1.gameState.Board P.X P.Y = false := by
    rw [hb1, outOfBounds_setCell]; exact hPs.1
  refine ⟨⟨hacc, hm1, hw1, hP1, hQ1, hl1⟩, ?_, ?_⟩
  · -- immediate recapture
    intro h4
    have hback : setCell g1.gameState.Board Q.X Q.Y (some g1.whiteToMove) =
        setCell g.gameState.Board P.X P.Y (some g.whiteToMove) := by
      rw [hb1, hw1]
      exact setCell_restore _ Q.X Q.Y _ hQs.1 hQs.2
    have hko : koApplies (setCell g1.gameState.Board Q.X Q.Y (some g1.whiteToMove)) g1.locked
        Q.X Q.Y g1.whiteToMove := by
      unfold koApplies
      rw [h4, hl1]
      exact ⟨rfl, rfl⟩
    have hroom : (hasRoom (setCell g1.gameState.Board Q.X Q.Y (some g1.whiteToMove)) Q.X Q.Y
        g1.whiteToMove [] none).1 = false := by
      rw [hback, hw1]
      cases hr : (hasRoom (setCell g.gameState.Board P.X P.Y (some g.whiteToMove)) Q.X Q.Y
          (!g.whiteToMove) [] none).1
      · rfl
      · exact absurd ((hasLiberty_iff_hasRoom _ _ Q.X Q.Y hQs).2 hr) hQl
    have hres := placePiece_result g1 Q.X Q.Y g1.whiteToMove hQo1 hQ1
    rw [if_neg (fun h => h.2 hko), hroom] at hres
    simp only [Bool.false_eq_true, if_false] at hres
    have hnacc : accepts g1 (place Q) = false := by rw [accepts_place, hres]
    refine ⟨hnacc, ?_⟩
    rw [Update_live g1 _ ha1 hr1, playTurn_place, hres]
    simp
  · -- after an accepted turn elsewhere
    intro d2 g2 hg2 hacc2 hd2
    rw [next_live g1 d2 ha1 hr1] at hg2
    have hlock2 := lock_after_turn g1 d2 hd1 hacc2
    rw [← hg2] at hlock2
    have hl2 : g2.locked ≠ P := by
      rw [hg2]; exact lock_ne_of_occupied g1 d2 hd1 hacc2 P _ hPo1 hP1
    have hP2 : cellAt g2.gameState.Board P.X P.Y = some g.whiteToMove := by
      rw [hg2]
      exact stone_survives_turn g1 d2 hacc2 P Q _ hQn hP1 ⟨hQo1, hQ1⟩ hd2
    have hPo2 : outOfBounds g2.gameState.Board P.X P.Y = false := by
      rw [hg2, outOfBounds_after_turn g1 d2 hacc2]; exact hPo1
    have ha2 : g2.active = true := by
      rw [hlock2.2.1, hs1, ha1]; simp
    have hr2 : g2.isReplay = false := by
      rw [hg2, isReplay_playTurn]; exact hr1
    refine ⟨hl2, hP2, ?_⟩
    intro d3 g3 hg3 hacc3 ha3
    rw [next_live g2 d3 ha2 hr2] at hg3
    have hlock3 := lock_after_turn g2 d3 hlock2.1 hacc3
    rw [← hg3] at hlock3
    have hl3 : g3.locked ≠ P := by
      rw [hg3]; exact lock_ne_of_occupied g2 d3 hlock2.1 hacc3 P _ hPo2 hP2
    have hw3 : g3.whiteToMove = g1.whiteToMove := by
      rw [hlock3.2.2.1, hlock2.2.2.1]; simp
    have hr3 : g3.isReplay = false := by
      rw [hg3, isReplay_playTurn]; exact hr2
    have hQo3 : outOfBounds g3.gameState.Board Q.X Q.Y = false := by
      rw [hg3, outOfBounds_after_turn g2 d3 hacc3, hg2, outOfBounds_after_turn g1 d2 hacc2]
      exact hQo1
    refine ⟨hl3, hw3, ?_⟩
    intro hQ3 hcap3
    obtain ⟨hacc4, -, -, -, -, -, hb4, hm4, -⟩ :=
      capture_one_step g3 Q P ha3 hr3 hQo3 hQ3 hcap3 hl3
    obtain ⟨-, hPs3, -⟩ := toRemove_singleton _ _ _ _ _ hcap3
    have hQs3 := stoneAt_setCell_self g3.gameState.Board Q.X Q.Y g3.whiteToMove hQo3
    have hQP : ¬ (Q.X = P.X ∧ Q.Y = P.Y ∧
        outOfBounds (setCell g3.gameState.Board Q.X Q.Y (some g3.whiteToMove)) P.X P.Y
          = false) := by
      rintro ⟨h1, h2, -⟩
      have h3 := hPs3.2
      rw [← h1, ← h2, hQs3.2] at h3
      cases hc : g3.whiteToMove <;> rw [hc] at h3 <;> simp at h3
    refine ⟨hacc4, hm4, ?_, ?_⟩
    · rw [hb4, cellAt_setCell, if_neg hQP]; exact hQs3.2
    · rw [hb4, cellAt_setCell, if_pos ⟨rfl, rfl, hPs3.1⟩]

/-- Instance on the 4x4 shape `koPosition`: Black takes `(1,1)` by playing `(2,1)`; White's immediate
recapture at `(1,1)` changes nothing; after White plays `(0,3)` and Black `(3,3)`,
White's placement at `(1,1)` is accepted. -/
theorem ko_lock_one_turn_witness :
    Update (next koPosition (place ⟨2, 1⟩)) (place ⟨1, 1⟩) =
        (none, next koPosition (place ⟨2, 1⟩)) ∧
      accepts (next (next (next koPosition (place ⟨2, 1⟩)) (place ⟨0, 3⟩)) (place ⟨3, 3⟩))
        (place ⟨1, 1⟩) = true :=
  ⟨((ko_lock_one_turn koPosition ⟨2, 1⟩ ⟨1, 1⟩ rfl rfl (by decide) (by decide) (by decide)
      (by decide) _ rfl).2.1 (by decide)).2,
    ((((ko_lock_one_turn koPosition ⟨2, 1⟩ ⟨1, 1⟩ rfl rfl (by decide) (by decide) (by decide)
      (by decide) _ rfl).2.2 (place ⟨0, 3⟩) _ rfl (by decide) (Or.inr (Or.inl (by decide)))).2.2
        (place ⟨3, 3⟩) _ rfl (by decide) (by decide)).2.2 (by decide) (by decide)).1⟩

/-- C20. `updateCtr` on two distinct counters: with `iswhite` the white counter grows by
`cnt` and the black one keeps its value, without `iswhite` the black counter grows
by `cnt` and the white one keeps its value; no other cell changes, and the pair
form `updateCtr` used by the rules engine computes the same two values. -/
theorem updateCtr_conditional (mem : Nat → Int) (whitePtr blackPtr : Nat)
    (hne : whitePtr ≠ blackPtr) (iswhite : Bool) (cnt : Int) :
    updateCtrAt mem whitePtr blackPtr iswhite cnt whitePtr =
        (if iswhite then mem whitePtr + cnt else mem whitePtr) ∧
      updateCtrAt mem whitePtr blackPtr iswhite cnt blackPtr =
        (if iswhite then mem blackPtr else mem blackPtr + cnt) ∧
      (∀ a, a ≠ whitePtr → a ≠ blackPtr →
        updateCtrAt mem whitePtr blackPtr iswhite cnt a = mem a) ∧
      updateCtr (mem whitePtr, mem blackPtr) iswhite cnt =
        (updateCtrAt mem whitePtr blackPtr iswhite cnt whitePtr,
          updateCtrAt mem whitePtr blackPtr iswhite cnt blackPtr) := by
  cases iswhite
  · simp [updateCtrAt, updateCtr, hne]
    intro a h1 h2 h3
    exact absurd h3 h2
  · simp [updateCtrAt, updateCtr, hne.symm]
    intro a h1 h2 h3
    exact absurd h3 h1

/-- C20, instance: counters `10` (white, cell 0) and `20` (black, cell 1); adding `3` for
White gives `13` and `20`. -/
theorem updateCtr_conditional_witness :
    updateCtrAt (fun a => if a = 0 then 10 else 20) 0 1 true 3 0 = 13 ∧
      updateCtrAt (fun a => if a = 0 then 10 else 20) 0 1 true 3 1 = 20 :=
  ⟨(updateCtr_conditional (fun a => if a = 0 then 10 else 20) 0 1 (by decide) true 3).1,
    (updateCtr_conditional (fun a => if a = 0 then 10 else 20) 0 1 (by decide) true 3).2.1⟩

theorem placePiece_false_state (g : Game) (x y : Int) (c : Bool)
    (h : (placePiece g x y c).1 = false) : (placePiece g x y c).2 = g := by
  by_cases hv : outOfBounds g.gameState.Board x y = false ∧ cellAt g.gameState.Board x y = none
  · have hres := placePiece_result g x y c hv.1 hv.2
    rw [hres] at h ⊢
    split at h
    · exact absurd h (by simp)
    · split at h
      · exact absurd h (by simp)
      · rename_i h1 h2
        rw [if_neg h1, if_neg h2]
  · have : outOfBounds g.gameState.Board x y = true ∨ cellAt g.gameState.Board x y ≠ none := by
      by_cases ho : outOfBounds g.gameState.Board x y = true
      · exact Or.inl ho
      · right
        intro hc
        exact hv ⟨by simpa using ho, hc⟩
    rw [placePiece_invalid g x y c this]

/-- C19. Rejected attempts leave no trace: in a game in progress that is not a replay, an
answer that is not a pass and either lacks a coordinate or names a placement that
`placePiece` refuses makes `Update` return no error and the very same state (board,
counters, move log, `MovesCount`, `OpponentSkipped`, ko lock, side to move). -/
theorem rejected_attempt_invisible (g : Game) (d : Decision) (hact : g.active = true)
    (hrep : g.isReplay = false) (hskip : d.skip = false)
    (hrej : (∃ x y, d.x = some x ∧ d.y = some y ∧
        (placePiece g x y g.whiteToMove).1 = false) ∨ d.x = none ∨ d.y = none) :
    Update g d = (none, g) := by
  rw [Update_live g d hact hrep]
  congr 1
  unfold playTurn
  rw [hskip]
  simp only [Bool.false_eq_true, if_false]
  rcases hrej with ⟨x, y, hx, hy, hp⟩ | hx | hy
  · rw [hx, hy]
    simp only [hp, Bool.false_eq_true, if_false]
    exact placePiece_false_state g x y _ hp
  · rw [hx]
  · rw [hy]
    cases d.x <;> rfl

/-- C19, instance: on the ko shape Black answers with the occupied point `(1,0)`; nothing
changes and Black is still to move. -/
theorem rejected_attempt_invisible_witness :
    Update koPosition (place ⟨1, 0⟩) = (none, koPosition) :=
  rejected_attempt_invisible koPosition (place ⟨1, 0⟩) rfl rfl rfl
    (Or.inl ⟨1, 0, rfl, rfl, by decide⟩)

/-- C18. Ko lock update in `caputreOpponent`, called for the stone just placed at `(x, y)`.
When `toRemove` holds exactly one stone and it is not on the locked point, the call
returns `true` and leaves `locked = (x, y)` (the placing point) and
`delay_lock = true`. When `toRemove` is empty or holds two or more entries, the call
keeps `locked` and `delay_lock` and does not look at them: started with any other
lock `l` and flag `d` it gives the same answer and the same state, with `l` and `d`
in place. -/
theorem ko_lock_update (g : Game) (x y : Int) (white : Bool) :
    ((toRemove g.gameState.Board x y white).length = 1 →
        (toRemove g.gameState.Board x y white).head? ≠ some g.locked →
        (caputreOpponent g x y white).1 = true ∧
          (caputreOpponent g x y white).2.locked = ⟨x, y⟩ ∧
          (caputreOpponent g x y white).2.delay_lock = true ∧
          (caputreOpponent g x y white).2.gameState.Board =
            removeAll g.gameState.Board (toRemove g.gameState.Board x y white)) ∧
      ((toRemove g.gameState.Board x y white).length ≠ 1 →
        (caputreOpponent g x y white).2.locked = g.locked ∧
          (caputreOpponent g x y white).2.delay_lock = g.delay_lock ∧
          ∀ (l : Cordinate) (d : Bool),
            caputreOpponent { g with locked := l, delay_lock := d } x y white =
              ((caputreOpponent g x y white).1,
                { (caputreOpponent g x y white).2 with locked := l, delay_lock := d })) := by
  constructor
  · intro h1 hne
    have hnil : toRemove g.gameState.Board x y white ≠ [] := by
      intro h; rw [h] at h1; simp at h1
    rw [caputreOpponent_take g x y white hnil (fun h => hne h.2)]
    simp only [h1, if_true]
    simp [applyCapture]
  · intro h1
    unfold caputreOpponent
    simp only [h1, false_and, if_false]
    simp

/-- C18, instance: in the ko shape the black stone placed at `(2,1)` takes exactly the
white stone at `(1,1)`; the lock goes to `(2,1)`, not to `(1,1)`, and the delay flag
is up. -/
theorem ko_lock_update_witness :
    (caputreOpponent (putStone koPosition 2 1 false) 2 1 false).2.locked = ⟨2, 1⟩ ∧
      (caputreOpponent (putStone koPosition 2 1 false) 2 1 false).2.delay_lock = true :=
  ⟨((ko_lock_update (putStone koPosition 2 1 false) 2 1 false).1 (by decide) (by decide)).2.1,
    ((ko_lock_update (putStone koPosition 2 1 false) 2 1 false).1 (by decide)
      (by decide)).2.2.1⟩

/-- C17. Liberty flood fill: started on a stone of colour `c` with an empty `checked` map,
`hasRoom` answers `true` exactly when some empty board point is next to a stone of
the group of `(x, y)`, whether a group slice is recorded (`grp = some _`) or not
(`grp = none`); and it terminates within its depth budget: every larger budget
computes the same triple. -/
theorem hasRoom_liberty (b : Board) (x y : Int) (c : Bool) (grp : Option (List Cordinate))
    (hs : stoneAt b c ⟨x, y⟩) :
    ((hasRoom b x y c [] grp).1 = true ↔
        ∃ q n, Linked b c ⟨x, y⟩ q ∧ n ∈ neighbours q ∧ emptyAt b n) ∧
      (∀ fuel, cellCount b + 1 ≤ fuel →
        hasRoomAux fuel b x y c [] grp = hasRoom b x y c [] grp) := by
  obtain ⟨_, _, _, _, h⟩ := hasRoom_spec b c x y grp hs
  exact ⟨h, fun fuel hf => hasRoom_budget b c x y [] grp fuel hf⟩

/-- C17, instance: a ring of eight black stones around the empty centre of a 3x3 board;
started at the corner, the fill goes round the ring and finds the centre, and a
ring around a white stone has no liberty. -/
theorem hasRoom_liberty_witness :
    (∃ q n, Linked [[some false, some false, some false], [some false, none, some false],
        [some false, some false, some false]] false ⟨0, 0⟩ q ∧ n ∈ neighbours q ∧
        emptyAt [[some false, some false, some false], [some false, none, some false],
          [some false, some false, some false]] n) ∧
      ¬ (∃ q n, Linked [[some false, some false, some false],
        [some false, some true, some false], [some false, some false, some false]]
        false ⟨0, 0⟩ q ∧ n ∈ neighbours q ∧
        emptyAt [[some false, some false, some false], [some false, some true, some false],
          [some false, some false, some false]] n) :=
  ⟨(hasRoom_liberty [[some false, some false, some false], [some false, none, some false],
      [some false, some false, some false]] 0 0 false none ⟨by decide, by decide⟩).1.1
      (by decide),
    fun h => absurd ((hasRoom_liberty [[some false, some false, some false],
      [some false, some true, some false], [some false, some false, some false]] 0 0 false
      (some []) ⟨by decide, by decide⟩).1.2 h) (by decide)⟩

theorem not_stoneAt_iff (b : Board) (c : Bool) (x y : Int) :
    ¬ stoneAt b c ⟨x, y⟩ ↔
      (outOfBounds b x y = true ∨ cellAt b x y = none ∨ cellAt b x y = some (!c)) := by
  unfold stoneAt
  constructor
  · intro h
    by_cases ho : outOfBounds b x y = true
    · exact Or.inl ho
    · right
      have ho' : outOfBounds b x y = false := by simpa using ho
      cases hc : cellAt b x y with
      | none => exact Or.inl rfl
      | some col =>
        right
        have : col ≠ c := fun e => h ⟨ho', by rw [hc, e]⟩
        cases col <;> cases c <;> simp at this ⊢
  · rintro (h | h | h) ⟨h1, h2⟩
    · rw [h] at h1; exact absurd h1 (by simp)
    · rw [h] at h2; exact absurd h2 (by simp)
    · rw [h] at h2; cases c <;> simp at h2

/-- C14. `findGroup` returns a group exactly when `(x, y)` is on the board, holds a stone
of colour `c` and no empty point is next to a stone of its group; the list returned
has no repetition and its members are exactly the stones of that group. It returns
nothing exactly when the point is off the board, empty, of the other colour, or the
group has a liberty. -/
theorem findGroup_correct (b : Board) (x y : Int) (c : Bool) :
    ((findGroup b x y c).isSome = true ↔
        (stoneAt b c ⟨x, y⟩ ∧
          ¬ ∃ q n, Linked b c ⟨x, y⟩ q ∧ n ∈ neighbours q ∧ emptyAt b n)) ∧
      (∀ l, findGroup b x y c = some l →
        l.Nodup ∧ ∀ q, q ∈ l ↔ Linked b c ⟨x, y⟩ q) ∧
      (findGroup b x y c = none ↔
        (outOfBounds b x y = true ∨ cellAt b x y = none ∨ cellAt b x y = some (!c) ∨
          ∃ q n, Linked b c ⟨x, y⟩ q ∧ n ∈ neighbours q ∧ emptyAt b n)) := by
  have h1 := findGroup_isSome_iff b c x y
  refine ⟨h1, fun l hl => (findGroup_eq_some b c x y l hl).2, ?_⟩
  rw [← Option.not_isSome_iff_eq_none, h1]
  unfold capturable hasLiberty
  rw [not_and_or, not_not, not_stoneAt_iff]
  tauto

/-- C13, failing run. On a new 5x5 game Black places at `(1,1)` and White at `(3,3)`: two
turns are logged (`MovesCount = 2`, two entries in the log), yet `BlackMoves` and
`WhiteMoves` are still `0`; they only move on a pass, as the third and fourth turns
show. -/
theorem move_counters_skip_placements :
    (run (NewGame (blankGame 5)) [place ⟨1, 1⟩, place ⟨3, 3⟩]).gameState.MovesCount = 2 ∧
    (run (NewGame (blankGame 5)) [place ⟨1, 1⟩, place ⟨3, 3⟩]).gameState.Moves.length = 2 ∧
    (run (NewGame (blankGame 5)) [place ⟨1, 1⟩, place ⟨3, 3⟩]).gameState.BlackMoves = 0 ∧
    (run (NewGame (blankGame 5)) [place ⟨1, 1⟩, place ⟨3, 3⟩]).gameState.WhiteMoves = 0 ∧
    (run (NewGame (blankGame 5)) [place ⟨1, 1⟩, place ⟨3, 3⟩, ⟨true, none, none⟩,
      ⟨true, none, none⟩]).gameState.MovesCount = 4 ∧
    (run (NewGame (blankGame 5)) [place ⟨1, 1⟩, place ⟨3, 3⟩, ⟨true, none, none⟩,
      ⟨true, none, none⟩]).gameState.BlackMoves = 1 ∧
    (run (NewGame (blankGame 5)) [place ⟨1, 1⟩, place ⟨3, 3⟩, ⟨true, none, none⟩,
      ⟨true, none, none⟩]).gameState.WhiteMoves = 1 := by
  decide

/-- C11. The 5x5 scenario: Black places `(1,1)`, White places `(3,3)`, Black passes, White
passes. The game is in progress after the third `Update` and finished after the
fourth; the log holds the four turns in order; one white and one black stone are on
the board and nothing was captured; `FullScore` is `(1/2, 0, 0)`. -/
theorem scenario_five_by_five :
    (run (NewGame (blankGame 5)) [place ⟨1, 1⟩, place ⟨3, 3⟩,
      ⟨true, none, none⟩]).active = true ∧
    (run (NewGame (blankGame 5)) [place ⟨1, 1⟩, place ⟨3, 3⟩, ⟨true, none, none⟩,
      ⟨true, none, none⟩]).active = false ∧
    (run (NewGame (blankGame 5)) [place ⟨1, 1⟩, place ⟨3, 3⟩, ⟨true, none, none⟩,
      ⟨true, none, none⟩]).gameState.Moves =
      [(some 1, some 1), (some 3, some 3), (none, none), (none, none)] ∧
    (run (NewGame (blankGame 5)) [place ⟨1, 1⟩, place ⟨3, 3⟩, ⟨true, none, none⟩,
      ⟨true, none, none⟩]).gameState.Board =
      [[none, none, none, none, none], [none, some false, none, none, none],
        [none, none, none, none, none], [none, none, none, some true, none],
        [none, none, none, none, none]] ∧
    (run (NewGame (blankGame 5)) [place ⟨1, 1⟩, place ⟨3, 3⟩, ⟨true, none, none⟩,
      ⟨true, none, none⟩]).gameState.WhiteStones = 1 ∧
    (run (NewGame (blankGame 5)) [place ⟨1, 1⟩, place ⟨3, 3⟩, ⟨true, none, none⟩,
      ⟨true, none, none⟩]).gameState.BlackStones = 1 ∧
    (run (NewGame (blankGame 5)) [place ⟨1, 1⟩, place ⟨3, 3⟩, ⟨true, none, none⟩,
      ⟨true, none, none⟩]).gameState.WhiteStonesCaptured = 0 ∧
    (run (NewGame (blankGame 5)) [place ⟨1, 1⟩, place ⟨3, 3⟩, ⟨true, none, none⟩,
      ⟨true, none, none⟩]).gameState.BlackStonesCaptured = 0 ∧
    FullScore (run (NewGame (blankGame 5)) [place ⟨1, 1⟩, place ⟨3, 3⟩, ⟨true, none, none⟩,
      ⟨true, none, none⟩]) = (1 / 2, 0, 0) := by
  have hb : (run (NewGame (blankGame 5)) [place ⟨1, 1⟩, place ⟨3, 3⟩, ⟨true, none, none⟩,
      ⟨true, none, none⟩]).gameState =
      { Board := [[none, none, none, none, none], [none, some false, none, none, none],
          [none, none, none, none, none], [none, none, none, some true, none],
          [none, none, none, none, none]],
        Moves := [(some 1, some 1), (some 3, some 3), (none, none), (none, none)],
        WhiteStones := 1, BlackStones := 1, WhiteStonesCaptured := 0,
        BlackStonesCaptured := 0, MovesCount := 4, WhiteMoves := 1, BlackMoves := 1,
        OpponentSkipped := true } := by decide
  have ht : territory [[none, none, none, none, none], [none, some false, none, none, none],
      [none, none, none, none, none], [none, none, none, some true, none],
      [none, none, none, none, none]] = (0, 0) := by decide
  refine ⟨by decide, by decide, ?_, ?_, ?_, ?_, ?_, ?_, ?_⟩
  · rw [hb]
  · rw [hb]
  · rw [hb]
  · rw [hb]
  · rw [hb]
  · rw [hb]
  · rw [FullScore_eq, hb]
    simp only [ht]
    norm_num

theorem swapAt_perm {α : Type} (l : List α) (i j : Nat) : (swapAt l i j).Perm l := by
  classical
  unfold swapAt
  cases hi : l[i]? with
  | none => exact List.Perm.refl _
  | some a =>
    cases hj : l[j]? with
    | none => exact List.Perm.refl _
    | some b =>
      simp only []
      obtain ⟨hil, hia⟩ := List.getElem?_eq_some_iff.1 hi
      obtain ⟨hjl, hjb⟩ := List.getElem?_eq_some_iff.1 hj
      rw [List.perm_iff_count]
      intro c
      have hjl' : j < (l.set i b).length := by simpa using hjl
      rw [List.count_set a c (l.set i b) j hjl', List.count_set b c l i hil]
      have hsj : (l.set i b)[j] = b := by
        rw [List.getElem_set]
        split
        · rfl
        · exact hjb
      rw [hsj, hia]
      have hpos : (a == c) = true → 1 ≤ List.count c l := by
        intro h
        have hac : a = c := by simpa using h
        apply List.count_pos_iff.2
        rw [← hac, ← hia]
        exact List.getElem_mem _
      have hpos' : (a == c) = true → 1 ≤ List.count c l := hpos
      cases h1 : (a == c) <;> cases h2 : (b == c) <;>
        simp only [h1, Bool.false_eq_true, if_true, if_false, true_implies, false_implies]
          at hpos' ⊢ <;>
        omega

theorem shuffle_perm {α : Type} (rnd : Nat → Nat) (l : List α) : (shuffle rnd l).Perm l := by
  unfold shuffle
  generalize List.range l.length = is
  suffices h : ∀ acc : List α, acc.Perm l →
      (is.foldl (fun acc i => swapAt acc i (rnd i % (i + 1))) acc).Perm l from
    h l (List.Perm.refl _)
  induction is with
  | nil => intro acc h; exact h
  | cons i t ih =>
    intro acc h
    exact ih _ ((swapAt_perm acc i _).trans h)

theorem sliceOf_run {α : Type} (l : List α) (i k : Nat) (h : (i + 1) * k ≤ l.length) :
    sliceOf l ((i : Int) * (k : Int)) (((i : Int) + 1) * (k : Int)) =
      some ((l.drop (i * k)).take k) := by
  unfold sliceOf
  have h1 : (0 : Int) ≤ (i : Int) * (k : Int) := by positivity
  have h2 : (i : Int) * (k : Int) ≤ ((i : Int) + 1) * (k : Int) := by nlinarith
  have h3 : ((i : Int) + 1) * (k : Int) ≤ (l.length : Int) := by exact_mod_cast h
  rw [if_pos ⟨h1, h2, h3⟩]
  have e1 : ((i : Int) * (k : Int)).toNat = i * k := by
    rw [← Nat.cast_mul]; exact Int.toNat_natCast _
  have e2 : (((i : Int) + 1) * (k : Int) - (i : Int) * (k : Int)).toNat = k := by
    have : ((i : Int) + 1) * (k : Int) - (i : Int) * (k : Int) = (k : Int) := by ring
    rw [this]; exact Int.toNat_natCast _
  rw [e1, e2]

theorem groupsLoop_eq {α : Type} (l : List α) (k : Nat) : ∀ (n i : Nat),
    (i + n) * k ≤ l.length →
    groupsLoop l (k : Int) n i =
      some ((List.range n).map (fun t => (l.drop ((i + t) * k)).take k)) := by
  intro n
  induction n with
  | zero => intro i _; rfl
  | succ n ih =>
    intro i h
    have h1 : (i + 1) * k ≤ l.length := by
      have : (i + 1) * k ≤ (i + (n + 1)) * k := Nat.mul_le_mul_right k (by omega)
      omega
    have h2 : (i + 1 + n) * k ≤ l.length := by
      have : i + 1 + n = i + (n + 1) := by omega
      rw [this]; exact h
    unfold groupsLoop
    rw [sliceOf_run l i k h1, ih (i + 1) h2]
    simp only [List.range_succ_eq_map, List.map_cons, List.map_map, Nat.add_zero]
    congr 2
    apply List.map_congr_left
    intro t _
    simp only [Function.comp_apply]
    have : i + 1 + t = i + (t + 1) := by omega
    rw [this]

theorem flatten_runs {α : Type} (l : List α) (k : Nat) : ∀ (n i : Nat),
    ((List.range n).map (fun t => (l.drop ((i + t) * k)).take k)).flatten =
      (l.drop (i * k)).take (n * k) := by
  intro n
  induction n with
  | zero => intro i; simp
  | succ n ih =>
    intro i
    simp only [List.range_succ_eq_map, List.map_cons, List.map_map, Nat.add_zero,
      List.flatten_cons]
    have hm : ((List.range n).map ((fun t => (l.drop ((i + t) * k)).take k) ∘ Nat.succ)) =
        (List.range n).map (fun t => (l.drop ((i + 1 + t) * k)).take k) := by
      apply List.map_congr_left
      intro t _
      simp only [Function.comp_apply]
      have : i + t.succ = i + 1 + t := by omega
      rw [this]
    rw [hm, ih (i + 1)]
    have e : (n + 1) * k = k + n * k := by ring
    rw [e, List.take_add, List.drop_drop]
    have e2 : i * k + k = (i + 1) * k := by ring
    rw [e2]

/-- C16. Group partition: with `Size` equal to the number of entities and `G >= 1`, for
every random source `CreateGroups` returns without stopping; the entities are a
permutation of the previous ones, exactly `G` groups come back, the `i`-th being the
run of `Size / G` entities that starts at position `i * (Size / G)` of the shuffled
list; the shuffled list is the groups one after the other followed by `Size % G`
entities in no group, so the groups are pairwise disjoint (as sets when the
entities are distinct). -/
theorem CreateGroups_partition {α : Type} (rnd : Nat → Nat) (p : Population α) (G : Int)
    (hsize : p.Size = (p.Enteties.length : Int)) (hG : 1 ≤ G) :
    ∃ (p' : Population α) (gs : List (List α)) (rest : List α),
      CreateGroups rnd p G = some (p', gs) ∧
      p'.Enteties.Perm p.Enteties ∧ p'.Size = p.Size ∧
      gs.length = G.toNat ∧
      (∀ i, i < G.toNat →
        gs[i]? = some ((p'.Enteties.drop (i * (p.Size / G).toNat)).take (p.Size / G).toNat) ∧
        ((p'.Enteties.drop (i * (p.Size / G).toNat)).take (p.Size / G).toNat).length =
          (p.Size / G).toNat) ∧
      p'.Enteties = gs.flatten ++ rest ∧ rest.length = (p.Size % G).toNat ∧
      (p.Enteties.Nodup → gs.Pairwise List.Disjoint ∧ ∀ g, g ∈ gs → List.Disjoint g rest) := by
  obtain ⟨g, rfl⟩ := Int.eq_ofNat_of_zero_le (show (0 : Int) ≤ G by omega)
  have hg : 1 ≤ g := by exact_mod_cast hG
  have hperm := shuffle_perm rnd p.Enteties
  have hlen : (shuffle rnd p.Enteties).length = p.Enteties.length := hperm.length_eq
  -- the group size
  have hk : p.Size.tdiv (g : Int) = ((p.Enteties.length / g : Nat) : Int) := by
    rw [hsize, Int.ofNat_tdiv]
  have hk' : (p.Size / (g : Int)).toNat = p.Enteties.length / g := by
    rw [hsize, ← Int.natCast_div]; exact Int.toNat_natCast _
  have hr' : (p.Size % (g : Int)).toNat = p.Enteties.length % g := by
    rw [hsize, ← Int.natCast_mod]; exact Int.toNat_natCast _
  have hbound : g * (p.Enteties.length / g) ≤ (shuffle rnd p.Enteties).length := by
    rw [hlen, Nat.mul_comm]; exact Nat.div_mul_le_self _ _
  have hloop := groupsLoop_eq (shuffle rnd p.Enteties) (p.Enteties.length / g) g 0
    (by rw [Nat.zero_add]; exact hbound)
  have hflat := flatten_runs (shuffle rnd p.Enteties) (p.Enteties.length / g) g 0
  simp only [Nat.zero_add, Nat.zero_mul, List.drop_zero] at hloop hflat
  refine ⟨{ p with Enteties := shuffle rnd p.Enteties },
    (List.range g).map (fun t =>
      ((shuffle rnd p.Enteties).drop (t * (p.Enteties.length / g))).take
        (p.Enteties.length / g)),
    (shuffle rnd p.Enteties).drop (g * (p.Enteties.length / g)), ?_, hperm, rfl, ?_, ?_, ?_,
    ?_, ?_⟩
  · unfold CreateGroups
    have hne : ¬ ((g : Int) = 0) := by omega
    simp only [hne, if_false, hk, Int.toNat_natCast, hloop]
  · simp [Int.toNat_natCast]
  · intro i hi
    have hi' : i < g := by simpa using hi
    rw [hk']
    constructor
    · rw [List.getElem?_map, List.getElem?_range hi']
      rfl
    · rw [List.length_take, List.length_drop, hlen]
      have h1 : (i + 1) * (p.Enteties.length / g) ≤ g * (p.Enteties.length / g) :=
        Nat.mul_le_mul_right _ hi'
      have h2 : g * (p.Enteties.length / g) ≤ p.Enteties.length := by
        rw [Nat.mul_comm]; exact Nat.div_mul_le_self _ _
      have h3 : (i + 1) * (p.Enteties.length / g) =
          i * (p.Enteties.length / g) + p.Enteties.length / g := by ring
      omega
  · rw [hflat]
    exact (List.take_append_drop _ _).symm
  · rw [hr', List.length_drop, hlen]
    have := Nat.div_add_mod p.Enteties.length g
    omega
  · intro hnd
    have hnd' : (shuffle rnd p.Enteties).Nodup := hperm.nodup_iff.2 hnd
    have hsplit : (shuffle rnd p.Enteties) =
        ((List.range g).map (fun t =>
          ((shuffle rnd p.Enteties).drop (t * (p.Enteties.length / g))).take
            (p.Enteties.length / g))).flatten ++
        (shuffle rnd p.Enteties).drop (g * (p.Enteties.length / g)) := by
      rw [hflat]; exact (List.take_append_drop _ _).symm
    rw [hsplit] at hnd'
    obtain ⟨h1, -, h3⟩ := List.nodup_append.1 hnd'
    refine ⟨(List.nodup_flatten.1 h1).2, ?_⟩
    intro grp hgrp x hx hxr
    exact h3 (List.mem_flatten.2 ⟨grp, hgrp, hx⟩) hxr

/-- C16, instance: five entities, two groups: groups of two, one entity left over. -/
theorem CreateGroups_partition_witness :
    ∃ (p' : Population Nat) (gs : List (List Nat)) (rest : List Nat),
      CreateGroups (fun i => 3 * i + 1) ⟨5, [10, 11, 12, 13, 14], 0, 5⟩ 2 = some (p', gs) ∧
      p'.Enteties.Perm [10, 11, 12, 13, 14] ∧ gs.length = 2 ∧
      p'.Enteties = gs.flatten ++ rest ∧ rest.length = 1 :=
  match CreateGroups_partition (fun i => 3 * i + 1) ⟨5, [10, 11, 12, 13, 14], 0, 5⟩ 2
      (by decide) (by decide) with
  | ⟨p', gs, rest, h1, h2, _, h4, _, h6, h7, _⟩ => ⟨p', gs, rest, h1, h2, h4, h6, h7⟩

/-- C15, failing input. Four entities `1 2 3 4` (`Size = 4`), two ranked groups `[1, 2]`
and `[3, 4]`, one kept per group. The carry-over loop appends `1` and `3` without
counting them, so the breeding loop still adds four offspring: `Enteties` ends with
six entries while `Size` is `4`; `Age` goes from `7` to `8`. -/
theorem newPopulation_grows :
    newPopulation (fun a b => 100 * a + b) (fun d => d) ⟨5, [1, 2, 3, 4], 7, 4⟩
        [[1, 2], [3, 4]] 2 1 =
      some ⟨5, [1, 3, 102, 302, 202, 402], 8, 4⟩ := by
  decide

/-- The carry-over loop of `newPopulation` never changes `Size`. -/
theorem keepRow_size {α : Type} (prevSize i : Int) (groups : List (List α)) :
    ∀ (p p1 : Population α), keepRow prevSize i p groups = some p1 → p1.Size = p.Size := by
  induction groups with
  | nil => intro p p1 h; simp only [keepRow, Option.some.injEq] at h; rw [← h]
  | cons grp rest ih =>
    intro p p1 h
    unfold keepRow at h
    split at h
    · split at h
      · exact Option.noConfusion h
      · have h2 := ih _ _ h
        exact h2
    · exact ih _ _ h

theorem placePiece_withReplay (g : Game) (m : Option (List (Option Int × Option Int)))
    (i : Int) (r : Bool) (x y : Int) (c : Bool) :
    placePiece (withReplay g m i r) x y c =
      ((placePiece g x y c).1, withReplay (placePiece g x y c).2 m i r) := by
  by_cases hv : outOfBounds g.gameState.Board x y = false ∧ cellAt g.gameState.Board x y = none
  · have h1 := placePiece_result g x y c hv.1 hv.2
    have h2 := placePiece_result (withReplay g m i r) x y c hv.1 hv.2
    simp only [show (withReplay g m i r).gameState = g.gameState from rfl,
      show (withReplay g m i r).locked = g.locked from rfl] at h2
    rw [h1, h2]
    by_cases hc : toRemove (setCell g.gameState.Board x y (some c)) x y c ≠ [] ∧
        ¬ koApplies (setCell g.gameState.Board x y (some c)) g.locked x y c
    · rw [if_pos hc, if_pos hc]
      by_cases hl : (toRemove (setCell g.gameState.Board x y (some c)) x y c).length = 1
      · simp only [hl, if_true]; rfl
      · simp only [hl, if_false]; rfl
    · rw [if_neg hc, if_neg hc]
      by_cases hr : (hasRoom (setCell g.gameState.Board x y (some c)) x y c [] none).1 = true
      · rw [if_pos hr, if_pos hr]; rfl
      · rw [if_neg hr, if_neg hr]
  · have hinv : outOfBounds g.gameState.Board x y = true ∨
        cellAt g.gameState.Board x y ≠ none := by
      by_cases ho : outOfBounds g.gameState.Board x y = true
      · exact Or.inl ho
      · right
        intro hc
        exact hv ⟨by simpa using ho, hc⟩
    rw [placePiece_invalid g x y c hinv, placePiece_invalid (withReplay g m i r) x y c hinv]

theorem commitMove_withReplay (g : Game) (m : Option (List (Option Int × Option Int)))
    (i : Int) (r : Bool) (s : Bool) (x y : Option Int) :
    commitMove (withReplay g m i r) s x y = withReplay (commitMove g s x y) m i r := by
  unfold commitMove
  cases s <;> cases hw : g.whiteToMove <;> simp [withReplay, hw]

theorem playTurn_withReplay (g : Game) (m : Option (List (Option Int × Option Int)))
    (i : Int) (r : Bool) (s : Bool) (x y : Option Int) :
    playTurn (withReplay g m i r) s x y = withReplay (playTurn g s x y) m i r := by
  unfold playTurn
  cases s with
  | true => simp only [if_true]; exact commitMove_withReplay g m i r true x y
  | false =>
    simp only [Bool.false_eq_true, if_false]
    cases x with
    | none => rfl
    | some xv =>
      cases y with
      | none => rfl
      | some yv =>
        simp only [placePiece_withReplay]
        have hw : (withReplay g m i r).whiteToMove = g.whiteToMove := rfl
        rw [hw]
        split
        · exact commitMove_withReplay _ m i r false _ _
        · rfl

theorem playTurn_rejected (g : Game) (d : Decision) (h : accepts g d = false) :
    playTurn g d.skip d.x d.y = g := by
  rw [playTurn_eq, h]
  simp only [Bool.false_eq_true, if_false]
  unfold accepts at h
  cases hx : d.x with
  | none => rfl
  | some x =>
    cases hy : d.y with
    | none => rfl
    | some y =>
      rw [hx, hy] at h
      simp only [Bool.or_eq_false_iff] at h
      exact placePiece_false_state g x y _ h.2

theorem moves_after_turn (g : Game) (d : Decision) (h : accepts g d = true) :
    (playTurn g d.skip d.x d.y).gameState.Moves = g.gameState.Moves ++ [(d.x, d.y)] := by
  rw [playTurn_eq, if_pos h]
  rcases accepts_cases g d h with hs | ⟨hs, x, y, hx, hy, hp⟩
  · simp only [hs, if_true]
    unfold commitMove
    simp only [if_true]
    split <;> rfl
  · simp only [hs, Bool.false_eq_true, if_false]
    unfold commitMove
    simp only [Bool.false_eq_true, if_false]
    rw [(placePiece_frame g _ _ _).2.2.2.2.2.2.1]

theorem next_cases (g : Game) (d : Decision) (hr : g.isReplay = false) :
    ((Update g d).2 = g) ∨
      (g.active = true ∧ accepts g d = true ∧ (Update g d).2 = playTurn g d.skip d.x d.y) := by
  by_cases ha : g.active = true
  · rw [Update_live g d ha hr]
    cases hacc : accepts g d with
    | false => left; exact playTurn_rejected g d hacc
    | true => right; exact ⟨ha, rfl, rfl⟩
  · left
    rw [Update_finished g d (by simpa using ha)]

theorem run_moves_extends (ds : List Decision) : ∀ (g : Game), g.isReplay = false →
    ∃ t, (run g ds).gameState.Moves = g.gameState.Moves ++ t := by
  induction ds with
  | nil => intro g _; exact ⟨[], by simp [run]⟩
  | cons d ds ih =>
    intro g hr
    rw [run_cons]
    rcases next_cases g d hr with h | ⟨-, hacc, h⟩
    · rw [h]; exact ih g hr
    · obtain ⟨t, ht⟩ := ih _ (isReplay_Update g d hr)
      rw [ht, h, moves_after_turn g d hacc]
      exact ⟨(d.x, d.y) :: t, by simp⟩

theorem run_append (g : Game) (ds1 ds2 : List Decision) :
    run g (ds1 ++ ds2) = run (run g ds1) ds2 := by
  unfold run
  rw [List.foldl_append]

theorem isReplay_run (ds : List Decision) : ∀ (g : Game), g.isReplay = false →
    (run g ds).isReplay = false := by
  induction ds with
  | nil => intro g h; exact h
  | cons d ds ih => intro g h; rw [run_cons]; exact ih _ (isReplay_Update g d h)

/-- One `Update` of a replay that still has the entry `(x, y)` at its index. -/
theorem Update_replay_step (g : Game) (L : List (Option Int × Option Int)) (k : Nat)
    (x y : Option Int) (d0 : Decision) (ha : g.active = true) (hk : L[k]? = some (x, y)) :
    (Update (withReplay g (some L) (k : Int) true) d0).2 =
      withReplay (playTurn g (x.isNone && y.isNone) x y) (some L) ((k + 1 : Nat) : Int) true := by
  obtain ⟨hkl, hkv⟩ := List.getElem?_eq_some_iff.1 hk
  unfold Update
  have h1 : (withReplay g (some L) (k : Int) true).active = true := ha
  have h2 : ¬ ((L.length : Int) ≤ (k : Int)) := by omega
  have h3 : L.getD (k : Int).toNat (none, none) = (x, y) := by
    rw [Int.toNat_natCast, List.getD_eq_getElem?_getD, hk]; rfl
  simp only [h1, withReplay, Bool.not_true, Bool.false_eq_true, if_false, h2, h3]
  have := playTurn_withReplay g (some L) ((k : Int) + 1) true (x.isNone && y.isNone) x y
  simp only [withReplay] at this
  rw [this]
  simp [ha]

theorem replayRun_succ (g : Game) (n : Nat) :
    replayRun g (n + 1) = replayRun (Update g ⟨false, none, none⟩).2 n := rfl

/-- The replay of a log keeps pace with the run that wrote it: started level with the
state `g`, after as many calls as the run `ds` logs turns it is level with
`run g ds`. -/
theorem replay_follows (ds : List Decision) : ∀ (g : Game) (L : List (Option Int × Option Int)),
    g.isReplay = false →
    (∃ t, L = (run g ds).gameState.Moves ++ t) →
    (∀ d, d ∈ ds → d.skip = true → d.x = none ∧ d.y = none) →
    replayRun (withReplay g (some L) (g.gameState.Moves.length : Int) true)
        ((run g ds).gameState.Moves.length - g.gameState.Moves.length) =
      withReplay (run g ds) (some L) ((run g ds).gameState.Moves.length : Int) true := by
  induction ds with
  | nil =>
    intro g L _ _ _
    simp [run, replayRun]
  | cons d ds ih =>
    intro g L hr hL hpass
    have hpass' : ∀ d', d' ∈ ds → d'.skip = true → d'.x = none ∧ d'.y = none :=
      fun d' hd' => hpass d' (List.mem_cons_of_mem _ hd')
    rw [run_cons] at hL ⊢
    rcases next_cases g d hr with h | ⟨ha, hacc, h⟩
    · rw [h] at hL ⊢
      exact ih g L hr hL hpass'
    · have hr1 := isReplay_Update g d hr
      rw [h] at hL hr1 ⊢
      have hm := moves_after_turn g d hacc
      obtain ⟨t1, ht1⟩ := run_moves_extends ds _ hr1
      obtain ⟨t, ht⟩ := hL
      -- the entry the replay reads next
      have hentry : L[g.gameState.Moves.length]? = some (d.x, d.y) := by
        rw [ht, ht1, hm, List.append_assoc, List.append_assoc,
          List.getElem?_append_right (le_refl _)]
        simp
      -- its pass flag
      have hflag : (d.x.isNone && d.y.isNone) = d.skip := by
        rcases accepts_cases g d hacc with hs | ⟨hs, x, y, hx, hy, -⟩
        · obtain ⟨hx, hy⟩ := hpass d (List.mem_cons_self _ _) hs
          rw [hx, hy, hs]; rfl
        · rw [hx, hy, hs]; rfl
      have hlen : (playTurn g d.skip d.x d.y).gameState.Moves.length =
          g.gameState.Moves.length + 1 := by
        rw [hm]; simp
      have hcount : (run (playTurn g d.skip d.x d.y) ds).gameState.Moves.length -
          g.gameState.Moves.length =
          ((run (playTurn g d.skip d.x d.y) ds).gameState.Moves.length -
            (playTurn g d.skip d.x d.y).gameState.Moves.length) + 1 := by
        have : (run (playTurn g d.skip d.x d.y) ds).gameState.Moves.length =
            (playTurn g d.skip d.x d.y).gameState.Moves.length + t1.length := by
          rw [ht1]; simp
        omega
      rw [hcount, replayRun_succ,
        Update_replay_step g L _ d.x d.y _ ha hentry, hflag, ← hlen]
      exact ih _ L hr1 ⟨t, ht⟩ hpass'

/-- C12, counterexample. On a new 3x3 game Black passes while naming the point `(1,1)`:
the turn is logged as `(1,1)` and the board stays empty. The replay of that log reads
the entry as a placement and puts a black stone on `(1,1)`. -/
theorem replay_pass_with_point :
    (replayRun (ReplayFromFile (NewGame (blankGame 3))
        (run (NewGame (blankGame 3)) [⟨true, some 1, some 1⟩]).gameState.Moves) 1).gameState.Board
      ≠ (run (NewGame (blankGame 3)) [⟨true, some 1, some 1⟩]).gameState.Board := by
  decide

/-- C12, amended. Replay round trip when every pass comes without coordinates: for a game
that is not a replay, started by `NewGame` and driven by the answers `ds1 ++ ds2`,
replay the final move log on a new game of the same dimension; after as many
`Update` calls as `ds1` logged turns, the replay agrees with the original after `ds1`
on the whole board state (board, stone and captured counters, move log and
counters), the progress flag, the side to move and the ko lock, hence on
`FullScore`. With `ds2 = []` this is the final state. -/
theorem replay_round_trip (g0 : Game) (hrep : g0.isReplay = false) (ds1 ds2 : List Decision)
    (hpass : ∀ d, d ∈ ds1 ++ ds2 → d.skip = true → d.x = none ∧ d.y = none) :
    sameGame (run (NewGame g0) ds1)
        (replayRun (ReplayFromFile (NewGame g0)
          (run (NewGame g0) (ds1 ++ ds2)).gameState.Moves)
          (run (NewGame g0) ds1).gameState.Moves.length) ∧
      FullScore (replayRun (ReplayFromFile (NewGame g0)
          (run (NewGame g0) (ds1 ++ ds2)).gameState.Moves)
          (run (NewGame g0) ds1).gameState.Moves.length) =
        FullScore (run (NewGame g0) ds1) := by
  have hr : (NewGame g0).isReplay = false := hrep
  have hL : ∃ t, (run (NewGame g0) (ds1 ++ ds2)).gameState.Moves =
      (run (NewGame g0) ds1).gameState.Moves ++ t := by
    rw [run_append]
    exact run_moves_extends ds2 _ (isReplay_run ds1 _ hr)
  have h := replay_follows ds1 (NewGame g0) (run (NewGame g0) (ds1 ++ ds2)).gameState.Moves hr hL
    (fun d hd => hpass d (List.mem_append_left _ hd))
  have hstart : ReplayFromFile (NewGame g0) (run (NewGame g0) (ds1 ++ ds2)).gameState.Moves =
      withReplay (NewGame g0) (some (run (NewGame g0) (ds1 ++ ds2)).gameState.Moves)
        ((NewGame g0).gameState.Moves.length : Int) true := rfl
  have hzero : (NewGame g0).gameState.Moves.length = 0 := rfl
  rw [hzero, Nat.sub_zero] at h
  rw [hstart, hzero, h]
  exact ⟨⟨rfl, rfl, rfl, rfl, rfl, rfl⟩, rfl⟩

/-- C12, instance: the 5x5 scenario (two placements, two passes) replayed from its log:
after three replayed entries the replay agrees with the original after three
turns. -/
theorem replay_round_trip_witness :
    sameGame (run (NewGame (blankGame 5)) [place ⟨1, 1⟩, place ⟨3, 3⟩, ⟨true, none, none⟩])
      (replayRun (ReplayFromFile (NewGame (blankGame 5))
        (run (NewGame (blankGame 5)) ([place ⟨1, 1⟩, place ⟨3, 3⟩, ⟨true, none, none⟩] ++
          [⟨true, none, none⟩])).gameState.Moves)
        (run (NewGame (blankGame 5))
          [place ⟨1, 1⟩, place ⟨3, 3⟩, ⟨true, none, none⟩]).gameState.Moves.length) :=
  (replay_round_trip (blankGame 5) rfl [place ⟨1, 1⟩, place ⟨3, 3⟩, ⟨true, none, none⟩]
    [⟨true, none, none⟩] (by decide)).1

/-- In replay mode the agents are not consulted: `Update` gives the same result whatever
answer it is handed. -/
theorem Update_replay_ignores (g : Game) (d d' : Decision) (h : g.isReplay = true) :
    Update g d = Update g d' := by
  unfold Update
  simp only [h, Bool.not_true, Bool.false_eq_true, if_false]

/-- The breeding loop of `newPopulation` stops by itself within its budget: when the
budget covers `prevSize - Size`, a larger budget changes nothing. -/
theorem breedLoop_budget {α : Type} (cross : α → α → α) (rnd : Nat → Nat)
    (groups : List (List α)) (groupsSize prevSize : Int) :
    ∀ (fuel extra d : Nat) (gi ii : Int) (p : Population α),
      (prevSize - p.Size).toNat ≤ fuel →
      breedLoop cross rnd groups groupsSize prevSize (fuel + extra) d gi ii p =
        breedLoop cross rnd groups groupsSize prevSize fuel d gi ii p := by
  intro fuel
  induction fuel with
  | zero =>
    intro extra d gi ii p h
    have hs : ¬ p.Size < prevSize := by omega
    cases extra with
    | zero => rfl
    | succ e =>
      rw [Nat.zero_add]
      unfold breedLoop
      rw [if_neg hs]
  | succ fuel ih =>
    intro extra d gi ii p h
    have e : fuel + 1 + extra = (fuel + extra) + 1 := by omega
    rw [e]
    unfold breedLoop
    by_cases hs : p.Size < prevSize
    · simp only [hs, if_true]
      have hstep : ∀ e : α, (prevSize - (AddEntety p e).Size).toNat ≤ fuel := by
        intro e
        have : (AddEntety p e).Size = p.Size + 1 := rfl
        rw [this]; omega
      split
      · rfl
      · split
        · rfl
        · split
          · rfl
          · split
            · exact ih extra _ _ _ _ (hstep _)
            · exact ih extra _ _ _ _ (hstep _)
    · simp only [hs, if_false]


theorem Update_error (g : Game) (d : Decision) (e : String) (g1 : Game)
    (h : Update g d = (some e, g1)) : g.active = false ∧ g1 = g := by
  unfold Update at h
  cases ha : g.active with
  | false =>
    simp only [ha, Bool.not_false, if_true, Prod.mk.injEq] at h
    exact ⟨rfl, h.2.symm⟩
  | true =>
    simp only [ha, Bool.not_true, Bool.false_eq_true, if_false] at h
    split at h
    · simp at h
    · split at h
      · simp at h
      · split at h <;> simp at h

theorem matchLoop_finished (ds : List Decision) : ∀ (g g' : Game),
    matchLoop g ds = some g' → g'.active = false := by
  induction ds with
  | nil =>
    intro g g' h
    unfold matchLoop at h
    cases ha : g.active with
    | false => rw [ha] at h; simp only [Bool.false_eq_true, if_false, Option.some.injEq] at h
               rw [← h]; exact ha
    | true => rw [ha] at h; simp at h
  | cons d ds ih =>
    intro g g' h
    unfold matchLoop at h
    rcases hu : Update g d with ⟨e, g1⟩
    rw [hu] at h
    cases e with
    | none => exact ih g1 g' h
    | some e =>
      simp only [Option.some.injEq] at h
      obtain ⟨ha, hg⟩ := Update_error g d e g1 hu
      rw [← h, hg]; exact ha

/-- The match used as example below: on a 3x3 board Black passes, White places `(1,1)`,
Black passes, White passes; the loop of `match` ends with this game. -/
theorem sample_matchLoop :
    matchLoop (NewGame (blankGame 3)) [⟨true, none, none⟩, place ⟨1, 1⟩,
      ⟨true, none, none⟩, ⟨true, none, none⟩] =
      some { Dymension := 3, active := false, whiteToMove := false, delay_lock := false,
             locked := ⟨-1, -1⟩, replayMoves := none, replayMoveIdx := 0, isReplay := false,
             gameState :=
               { Board := [[none, none, none], [none, some true, none], [none, none, none]],
                 Moves := [(none, none), (some 1, some 1), (none, none), (none, none)],
                 WhiteStones := 1, BlackStones := 0, WhiteStonesCaptured := 0,
                 BlackStonesCaptured := 0, MovesCount := 4, WhiteMoves := 1, BlackMoves := 2,
                 OpponentSkipped := true } } := by
  decide

theorem neighbours_symm {n q : Cordinate} (h : n ∈ neighbours q) : q ∈ neighbours n := by
  unfold neighbours at h ⊢
  simp only [List.mem_cons, List.mem_singleton, List.not_mem_nil, or_false] at h ⊢
  cases q with
  | mk qx qy =>
    rcases h with h | h | h | h <;> subst h <;> simp

theorem neighbours_ne {n q : Cordinate} (h : n ∈ neighbours q) : n ≠ q := by
  unfold neighbours at h
  simp only [List.mem_cons, List.mem_singleton, List.not_mem_nil, or_false] at h
  cases q with
  | mk qx qy =>
    rcases h with h | h | h | h <;> subst h <;> simp

theorem linked_trans {b : Board} {w : Bool} {p q r : Cordinate} (h1 : Linked b w p q)
    (h2 : Linked b w q r) : Linked b w p r :=
  Relation.ReflTransGen.trans h1 h2

theorem linked_symm {b : Board} {w : Bool} {p q : Cordinate} (hp : stoneAt b w p)
    (h : Linked b w p q) : Linked b w q p := by
  induction h with
  | refl => exact Relation.ReflTransGen.refl
  | tail hpc hstep ih =>
    have hc : stoneAt b w _ := Linked.stoneAt hpc hp
    exact Relation.ReflTransGen.head ⟨neighbours_symm hstep.1, hc⟩ ih

theorem hasLiberty_of_linked {b : Board} {w : Bool} {p q : Cordinate} (h : Linked b w p q)
    (hq : hasLiberty b w q) : hasLiberty b w p := by
  obtain ⟨q1, n, hl, hn, he⟩ := hq
  exact ⟨q1, n, linked_trans h hl, hn, he⟩

/-- Stones after `Board[y][x] = &white` on an empty board point. -/
theorem stoneAt_put (b : Board) (x y : Int) (w c : Bool) (p : Cordinate)
    (hin : outOfBounds b x y = false) (hem : cellAt b x y = none) :
    stoneAt (setCell b x y (some w)) c p ↔ (p = ⟨x, y⟩ ∧ c = w) ∨ stoneAt b c p := by
  unfold stoneAt
  rw [outOfBounds_setCell, cellAt_setCell]
  by_cases hp : p.X = x ∧ p.Y = y ∧ outOfBounds b x y = false
  · rw [if_pos hp]
    have e : p = ⟨x, y⟩ := by cases p; simp only [Cordinate.mk.injEq]; exact ⟨hp.1, hp.2.1⟩
    constructor
    · rintro ⟨-, h⟩
      left
      exact ⟨e, (Option.some.inj h).symm⟩
    · rintro (⟨-, h⟩ | ⟨-, h⟩)
      · rw [e]; exact ⟨hin, by rw [h]⟩
      · rw [hp.1, hp.2.1, hem] at h; exact Option.noConfusion h
  · rw [if_neg hp]
    constructor
    · intro h; exact Or.inr h
    · rintro (⟨h, -⟩ | h)
      · exfalso; apply hp; rw [h]; exact ⟨rfl, rfl, hin⟩
      · exact h

theorem emptyAt_put (b : Board) (x y : Int) (w : Bool) (n : Cordinate)
    (hin : outOfBounds b x y = false) :
    emptyAt (setCell b x y (some w)) n ↔ n ≠ ⟨x, y⟩ ∧ emptyAt b n := by
  unfold emptyAt
  rw [outOfBounds_setCell, cellAt_setCell]
  by_cases hp : n.X = x ∧ n.Y = y ∧ outOfBounds b x y = false
  · rw [if_pos hp]
    have e : n = ⟨x, y⟩ := by cases n; simp only [Cordinate.mk.injEq]; exact ⟨hp.1, hp.2.1⟩
    constructor
    · rintro ⟨-, h⟩; exact Option.noConfusion h
    · rintro ⟨h, -⟩; exact absurd e h
  · rw [if_neg hp]
    constructor
    · rintro h
      refine ⟨?_, h⟩
      intro e
      apply hp
      rw [e]; exact ⟨rfl, rfl, hin⟩
    · rintro ⟨-, h⟩; exact h

theorem linked_mono {b b' : Board} {w : Bool} {p q : Cordinate}
    (hs : ∀ c, stoneAt b w c → stoneAt b' w c) (h : Linked b w p q) : Linked b' w p q := by
  induction h with
  | refl => exact Relation.ReflTransGen.refl
  | tail _ hstep ih => exact Relation.ReflTransGen.tail ih ⟨hstep.1, hs _ hstep.2⟩

/-- Stones after the removal loop of `caputreOpponent`. -/
theorem stoneAt_removeAll (b : Board) (cs : List Cordinate) (c : Bool) (p : Cordinate) :
    stoneAt (removeAll b cs) c p ↔ stoneAt b c p ∧ p ∉ cs := by
  unfold stoneAt
  rw [outOfBounds_removeAll, cellAt_removeAll]
  constructor
  · rintro ⟨h1, h2⟩
    by_cases hm : p ∈ cs
    · rw [if_pos ⟨hm, h1⟩] at h2; exact Option.noConfusion h2
    · rw [if_neg (fun h => hm h.1)] at h2; exact ⟨⟨h1, h2⟩, hm⟩
  · rintro ⟨⟨h1, h2⟩, hm⟩
    rw [if_neg (fun h => hm h.1)]; exact ⟨h1, h2⟩

theorem emptyAt_removeAll (b : Board) (cs : List Cordinate) (n : Cordinate) :
    emptyAt (removeAll b cs) n ↔
      emptyAt b n ∨ (n ∈ cs ∧ outOfBounds b n.X n.Y = false) := by
  unfold emptyAt
  rw [outOfBounds_removeAll, cellAt_removeAll]
  constructor
  · rintro ⟨h1, h2⟩
    by_cases hm : n ∈ cs
    · exact Or.inr ⟨hm, h1⟩
    · rw [if_neg (fun h => hm h.1)] at h2; exact Or.inl ⟨h1, h2⟩
  · rintro (⟨h1, h2⟩ | ⟨hm, h1⟩)
    · refine ⟨h1, ?_⟩
      split
      · rfl
      · exact h2
    · exact ⟨h1, by rw [if_pos ⟨hm, h1⟩]⟩

theorem stoneAt_unique {b : Board} {w c : Bool} {p : Cordinate} (h1 : stoneAt b w p)
    (h2 : stoneAt b c p) : w = c := by
  have := h1.2.symm.trans h2.2
  exact Option.some.inj this

theorem not_stone_of_empty {b : Board} {w : Bool} {p : Cordinate} (h1 : emptyAt b p)
    (h2 : stoneAt b w p) : False := by
  have := h1.2.symm.trans h2.2
  exact Option.noConfusion this

/-- Removing stones keeps every path whose stones all stay. -/
theorem linked_removeAll {b : Board} {w : Bool} {p q : Cordinate} (rm : List Cordinate)
    (hk : ∀ c, Linked b w p c → c ∉ rm) (h : Linked b w p q) :
    Linked (removeAll b rm) w p q := by
  induction h with
  | refl => exact Relation.ReflTransGen.refl
  | tail hpc hstep ih =>
    have hl : Linked b w p _ := Relation.ReflTransGen.tail hpc hstep
    exact Relation.ReflTransGen.tail ih
      ⟨hstep.1, (stoneAt_removeAll b rm w _).2 ⟨hstep.2, hk _ hl⟩⟩

/-- A liberty of a group survives a removal that takes none of its stones. -/
theorem hasLiberty_removeAll {b : Board} {w : Bool} {p : Cordinate} (rm : List Cordinate)
    (hk : ∀ c, Linked b w p c → c ∉ rm) (h : hasLiberty b w p) :
    hasLiberty (removeAll b rm) w p := by
  obtain ⟨q, n, hl, hn, he⟩ := h
  exact ⟨q, n, linked_removeAll rm hk hl, hn, (emptyAt_removeAll b rm n).2 (Or.inl he)⟩

/-- No stone of a group with a liberty is in the `toRemove` slice. -/
theorem not_mem_toRemove_of_hasLiberty (b : Board) (x y : Int) (c : Bool) (p : Cordinate)
    (h : hasLiberty b (!c) p) : p ∉ toRemove b x y c := by
  intro hp
  obtain ⟨n, -, hc, hl⟩ := (mem_toRemove b x y c p).1 hp
  exact hc.2 (hasLiberty_of_linked hl h)

/-- The board after a placement at the empty point `(x, y)` followed by the removal of
the `toRemove` slice has no dead stone, provided the board before had none and the
new stone ends with a liberty. -/
theorem alive_after_placement (b : Board) (x y : Int) (c : Bool)
    (hin : outOfBounds b x y = false) (hem : cellAt b x y = none) (ha : alive b)
    (hR : hasLiberty (removeAll (setCell b x y (some c)) (toRemove (setCell b x y (some c)) x y c))
      c ⟨x, y⟩) :
    alive (removeAll (setCell b x y (some c)) (toRemove (setCell b x y (some c)) x y c)) := by
  intro p w hp
  have hp' := (stoneAt_removeAll _ _ w p).1 hp
  have hmono : ∀ (v : Bool) (a d : Cordinate), Linked b v a d →
      Linked (setCell b x y (some c)) v a d := fun v a d h =>
    linked_mono (fun e he => (stoneAt_put b x y c v e hin hem).2 (Or.inr he)) h
  by_cases hw : w = c
  · subst hw
    -- stones of the mover: none is removed
    have hkeep : ∀ e, stoneAt (setCell b x y (some w)) w e →
        stoneAt (removeAll (setCell b x y (some w)) (toRemove (setCell b x y (some w)) x y w))
          w e := fun e he =>
      (stoneAt_removeAll _ _ w e).2 ⟨he, fun hm => by
        have := stoneAt_unique he (toRemove_stoneAt _ x y w e hm)
        cases w <;> simp at this⟩
    rcases (stoneAt_put b x y w w p hin hem).1 hp'.1 with ⟨rfl, -⟩ | hb
    · exact hR
    · obtain ⟨q, n, hl, hn, he⟩ := ha p w hb
      have hl2 := linked_mono hkeep (hmono w p q hl)
      by_cases hnR : n = ⟨x, y⟩
      · subst hnR
        have hstep : Linked (removeAll (setCell b x y (some w))
            (toRemove (setCell b x y (some w)) x y w)) w q ⟨x, y⟩ :=
          Relation.ReflTransGen.single
            ⟨hn, hkeep _ (stoneAt_setCell_self b x y w hin)⟩
        exact hasLiberty_of_linked (linked_trans hl2 hstep) hR
      · exact ⟨q, n, hl2, hn, (emptyAt_removeAll _ _ n).2
          (Or.inl ((emptyAt_put b x y w n hin).2 ⟨hnR, he⟩))⟩
  · -- stones of the other side
    have hwc : w = !c := by cases w <;> cases c <;> simp at hw ⊢
    subst hwc
    have hb : stoneAt b (!c) p := by
      rcases (stoneAt_put b x y c (!c) p hin hem).1 hp'.1 with ⟨-, h⟩ | h
      · cases c <;> simp at h
      · exact h
    have hlib : hasLiberty (setCell b x y (some c)) (!c) p := by
      obtain ⟨q, n, hl, hn, he⟩ := ha p (!c) hb
      by_cases hnR : n = ⟨x, y⟩
      · subst hnR
        have hq : stoneAt (setCell b x y (some c)) (!c) q :=
          Linked.stoneAt (hmono _ p q hl) hp'.1
        by_contra hno
        have hcap : capturable (setCell b x y (some c)) (!c) q :=
          ⟨hq, fun hq2 => hno (hasLiberty_of_linked (hmono _ p q hl) hq2)⟩
        exact hp'.2 ((mem_toRemove _ x y c p).2
          ⟨q, neighbours_symm hn, hcap, linked_symm hp'.1 (hmono _ p q hl)⟩)
      · exact ⟨q, n, hmono _ p q hl, hn, (emptyAt_put b x y c n hin).2 ⟨hnR, he⟩⟩
    refine hasLiberty_removeAll _ (fun e hle => ?_) hlib
    exact not_mem_toRemove_of_hasLiberty _ x y c e
      (hasLiberty_of_linked (linked_symm hp'.1 hle) hlib)

/-- After a capture the new stone has a liberty: a point just emptied next to it. -/
theorem hasLiberty_after_capture (b : Board) (x y : Int) (c : Bool)
    (hne : toRemove (setCell b x y (some c)) x y c ≠ []) :
    hasLiberty (removeAll (setCell b x y (some c)) (toRemove (setCell b x y (some c)) x y c))
      c ⟨x, y⟩ := by
  obtain ⟨q, hq⟩ := List.exists_mem_of_ne_nil _ hne
  obtain ⟨n, hn, hc, -⟩ := (mem_toRemove _ x y c q).1 hq
  have hnm : n ∈ toRemove (setCell b x y (some c)) x y c :=
    (mem_toRemove _ x y c n).2 ⟨n, hn, hc, Relation.ReflTransGen.refl⟩
  exact ⟨⟨x, y⟩, n, Relation.ReflTransGen.refl, hn,
    (emptyAt_removeAll _ _ n).2 (Or.inr ⟨hnm, hc.1.1⟩)⟩

theorem commitMove_board (g : Game) (s : Bool) (x y : Option Int) :
    (commitMove g s x y).gameState.Board = g.gameState.Board := by
  unfold commitMove
  cases s <;> cases g.whiteToMove <;> rfl

theorem commitMove_lock (g : Game) (s : Bool) (x y : Option Int) :
    (commitMove g s x y).locked = (if g.delay_lock then g.locked else ⟨-1, -1⟩) ∧
      (commitMove g s x y).delay_lock = false ∧
      (commitMove g s x y).whiteToMove = !g.whiteToMove := by
  unfold commitMove
  cases g.delay_lock <;> simp

theorem eq_singleton_of_ko {l : List Cordinate} {lk : Cordinate}
    (h : l.length = 1 ∧ l.head? = some lk) : l = [lk] := by
  match l, h with
  | [a], h =>
    have := h.2
    simp only [List.head?_cons, Option.some.injEq] at this
    rw [this]

/-- In a ko shape the stone that would retake has no liberty of its own: the ko test
of `caputreOpponent` is always followed by the refusal of `placePiece`. -/
theorem no_liberty_of_ko (b : Board) (lk : Cordinate) (x y : Int) (c : Bool)
    (hin : outOfBounds b x y = false) (hem : cellAt b x y = none)
    (hlock : ∃ Q, Q ∈ neighbours lk ∧ emptyAt b Q ∧
      ∀ n, n ∈ neighbours Q → outOfBounds b n.X n.Y = true ∨ stoneAt b (!c) n)
    (hko : koApplies (setCell b x y (some c)) lk x y c) :
    ¬ hasLiberty (setCell b x y (some c)) c ⟨x, y⟩ := by
  obtain ⟨Q, hQ, hQe, hQn⟩ := hlock
  obtain ⟨-, hcap⟩ := toRemove_singleton _ x y c lk (eq_singleton_of_ko hko)
  have hQR : Q = ⟨x, y⟩ := by
    by_contra hne
    exact hcap.2 ⟨lk, Q, Relation.ReflTransGen.refl, hQ,
      (emptyAt_put b x y c Q hin).2 ⟨hne, hQe⟩⟩
  subst hQR
  have hnb : ∀ n, n ∈ neighbours (⟨x, y⟩ : Cordinate) →
      ¬ stoneAt (setCell b x y (some c)) c n ∧ ¬ emptyAt (setCell b x y (some c)) n := by
    intro n hn
    rcases hQn n hn with ho | hs
    · constructor
      · intro h
        have := h.1
        rw [outOfBounds_setCell, ho] at this
        exact absurd this (by simp)
      · intro h
        have := h.1
        rw [outOfBounds_setCell, ho] at this
        exact absurd this (by simp)
    · have hs' : stoneAt (setCell b x y (some c)) (!c) n :=
        (stoneAt_put b x y c (!c) n hin hem).2 (Or.inr hs)
      constructor
      · intro h
        have := stoneAt_unique h hs'
        cases c <;> simp at this
      · intro h
        exact not_stone_of_empty h hs'
  have hstay : ∀ q, Linked (setCell b x y (some c)) c ⟨x, y⟩ q → q = ⟨x, y⟩ := by
    intro q hl
    induction hl with
    | refl => rfl
    | tail _ hstep ih =>
      have hm := hstep.1
      rw [ih] at hm
      exact absurd hstep.2 (hnb _ hm).1
  rintro ⟨q, n, hl, hn, he⟩
  rw [hstay q hl] at hn
  exact (hnb n hn).2 he

/-- The shape left by the capture of a single stone `Q`: `Q` is next to the stone just
played, now empty, and surrounded by the edge and stones of the capturing side. -/
theorem ko_shape_after_capture (b : Board) (x y : Int) (c : Bool) (Q : Cordinate)
    (h : toRemove b x y c = [Q]) :
    Q ∈ neighbours ⟨x, y⟩ ∧ emptyAt (removeAll b [Q]) Q ∧
      ∀ n, n ∈ neighbours Q →
        outOfBounds (removeAll b [Q]) n.X n.Y = true ∨ stoneAt (removeAll b [Q]) c n := by
  obtain ⟨hQ, hcap⟩ := toRemove_singleton b x y c Q h
  refine ⟨hQ, (emptyAt_removeAll b [Q] Q).2 (Or.inr ⟨List.mem_singleton_self Q, hcap.1.1⟩), ?_⟩
  intro n hn
  rw [outOfBounds_removeAll]
  by_cases ho : outOfBounds b n.X n.Y = true
  · exact Or.inl ho
  · right
    have ho' : outOfBounds b n.X n.Y = false := by simpa using ho
    have hnQ : n ∉ [Q] := fun hm => neighbours_ne hn (List.mem_singleton.1 hm)
    cases hv : cellAt b n.X n.Y with
    | none =>
      exact absurd ⟨Q, n, Relation.ReflTransGen.refl, hn, ho', hv⟩ hcap.2
    | some v =>
      by_cases hvc : v = c
      · subst hvc
        exact (stoneAt_removeAll b [Q] v n).2 ⟨⟨ho', hv⟩, hnQ⟩
      · exfalso
        have hvc' : v = !c := by cases v <;> cases c <;> simp at hvc ⊢
        subst hvc'
        have hs : stoneAt b (!c) n := ⟨ho', hv⟩
        have : n ∈ toRemove b x y c :=
          (mem_toRemove b x y c n).2 ⟨Q, hQ, hcap, Relation.ReflTransGen.single ⟨hn, hs⟩⟩
        rw [h] at this
        exact hnQ this

/-- The bookkeeping of an accepted turn establishes the invariant when the board has no
dead stone and a lock raised during the turn is in a ko shape. -/
theorem GameInv_commitMove (h : Game) (s : Bool) (x y : Option Int)
    (ha : alive h.gameState.Board)
    (hl : h.delay_lock = true → h.locked = ⟨-1, -1⟩ ∨
      ∃ Q, Q ∈ neighbours h.locked ∧ emptyAt h.gameState.Board Q ∧
        ∀ n, n ∈ neighbours Q →
          outOfBounds h.gameState.Board n.X n.Y = true ∨
            stoneAt h.gameState.Board h.whiteToMove n) :
    GameInv (commitMove h s x y) := by
  obtain ⟨h1, h2, h3⟩ := commitMove_lock h s x y
  refine ⟨by rw [commitMove_board]; exact ha, ?_, fun hd => by rw [h2] at hd; cases hd⟩
  unfold lockOK
  rw [commitMove_board, h1, h3, Bool.not_not]
  cases hd : h.delay_lock with
  | false => exact Or.inl rfl
  | true => exact hl hd

/-- A turn keeps the invariant, whether it is accepted or not. -/
theorem GameInv_playTurn (g : Game) (s : Bool) (x y : Option Int) (hg : GameInv g) :
    GameInv (playTurn g s x y) := by
  obtain ⟨ha, hlk, hdl⟩ := hg
  have hkeep : g.delay_lock = true → g.locked = ⟨-1, -1⟩ ∨
      ∃ Q, Q ∈ neighbours g.locked ∧ emptyAt g.gameState.Board Q ∧
        ∀ n, n ∈ neighbours Q →
          outOfBounds g.gameState.Board n.X n.Y = true ∨
            stoneAt g.gameState.Board g.whiteToMove n := fun hd => Or.inl (hdl hd)
  unfold playTurn
  cases s with
  | true => exact GameInv_commitMove g true x y ha hkeep
  | false =>
    simp only [Bool.false_eq_true, if_false]
    cases x with
    | none => exact ⟨ha, hlk, hdl⟩
    | some xv =>
      cases y with
      | none => exact ⟨ha, hlk, hdl⟩
      | some yv =>
        simp only
        by_cases hacc : (placePiece g xv yv g.whiteToMove).1 = true
        · rw [if_pos hacc]
          obtain ⟨hin, hem⟩ := placePiece_true_valid g xv yv g.whiteToMove hacc
          have hres := placePiece_result g xv yv g.whiteToMove hin hem
          by_cases hcap : toRemove (setCell g.gameState.Board xv yv (some g.whiteToMove)) xv yv
              g.whiteToMove ≠ [] ∧
              ¬ koApplies (setCell g.gameState.Board xv yv (some g.whiteToMove)) g.locked xv yv
                g.whiteToMove
          · rw [if_pos hcap] at hres
            rw [hres]
            have hal := alive_after_placement g.gameState.Board xv yv g.whiteToMove hin hem ha
              (hasLiberty_after_capture g.gameState.Board xv yv g.whiteToMove hcap.1)
            apply GameInv_commitMove
            · exact hal
            · intro hd
              by_cases h1 : (toRemove (setCell g.gameState.Board xv yv (some g.whiteToMove))
                  xv yv g.whiteToMove).length = 1
              · right
                obtain ⟨Q, hQ⟩ := List.length_eq_one.1 h1
                have hshape := ko_shape_after_capture _ xv yv g.whiteToMove Q hQ
                simp only [h1, if_true]
                simp only [applyCapture, putStone, hQ]
                exact ⟨Q, hshape⟩
              · left
                simp only [h1, if_false] at hd ⊢
                exact hdl hd
          · rw [if_neg hcap] at hres
            by_cases hr : (hasRoom (setCell g.gameState.Board xv yv (some g.whiteToMove)) xv yv
                g.whiteToMove [] none).1 = true
            · rw [if_pos hr] at hres
              rw [hres]
              have hlib : hasLiberty (setCell g.gameState.Board xv yv (some g.whiteToMove))
                  g.whiteToMove ⟨xv, yv⟩ :=
                (hasLiberty_iff_hasRoom _ _ xv yv
                  (stoneAt_setCell_self g.gameState.Board xv yv g.whiteToMove hin)).2 hr
              have hnil : toRemove (setCell g.gameState.Board xv yv (some g.whiteToMove)) xv yv
                  g.whiteToMove = [] := by
                by_contra hne
                have hko : koApplies (setCell g.gameState.Board xv yv (some g.whiteToMove))
                    g.locked xv yv g.whiteToMove := by
                  by_contra hk; exact hcap ⟨hne, hk⟩
                have hlk2 : g.locked ≠ ⟨-1, -1⟩ := by
                  have hc := (toRemove_singleton _ xv yv g.whiteToMove g.locked
                    (eq_singleton_of_ko hko)).2
                  have hb := hc.1.1
                  rw [outOfBounds_setCell] at hb
                  exact inBounds_nonneg _ _ hb
                rcases hlk with hl0 | hshape
                · exact hlk2 hl0
                · exact no_liberty_of_ko g.gameState.Board g.locked xv yv g.whiteToMove hin hem
                    hshape hko hlib
              have hal := alive_after_placement g.gameState.Board xv yv g.whiteToMove hin hem ha
              rw [hnil] at hal
              exact GameInv_commitMove _ false _ _ (hal hlib) (fun hd => Or.inl (hdl hd))
            · rw [if_neg hr] at hres
              rw [hres] at hacc
              exact absurd hacc (by simp)
        · rw [if_neg hacc]
          rw [placePiece_false_state g xv yv g.whiteToMove (by simpa using hacc)]
          exact ⟨ha, hlk, hdl⟩


theorem cellAt_blank (n m : Nat) (x y : Int) :
    cellAt (List.replicate n (List.replicate m none)) x y = none := by
  unfold cellAt rowAt
  split
  · rfl
  · split
    · simp
    · rw [List.getD_eq_getElem?_getD, List.getD_eq_getElem?_getD]
      by_cases hy : y.toNat < n
      · rw [List.getElem?_replicate, if_pos hy]
        simp only [Option.getD_some]
        by_cases hx : x.toNat < m
        · rw [List.getElem?_replicate, if_pos hx]; rfl
        · rw [List.getElem?_replicate, if_neg hx]; rfl
      · rw [List.getElem?_replicate, if_neg hy]
        simp

/-- The board of `NewGame` has no stone, the lock is released: the invariant holds. -/
theorem GameInv_NewGame (g : Game) : GameInv (NewGame g) := by
  refine ⟨?_, Or.inl rfl, fun _ => rfl⟩
  intro p w hp
  have h := hp.2
  have hb : (NewGame g).gameState.Board =
      List.replicate g.Dymension.toNat (List.replicate g.Dymension.toNat none) := rfl
  rw [hb, cellAt_blank] at h
  exact Option.noConfusion h

/-- One `Update` keeps the invariant, in play and in replay. -/
theorem GameInv_Update (g : Game) (d : Decision) (hg : GameInv g) :
    GameInv (Update g d).2 := by
  unfold Update
  split
  · exact hg
  · split
    · exact GameInv_playTurn g _ _ _ hg
    · split
      · exact hg
      · split
        · exact hg
        · exact GameInv_playTurn _ _ _ _ hg

theorem GameInv_run (ds : List Decision) : ∀ g : Game, GameInv g → GameInv (run g ds) := by
  induction ds with
  | nil => intro g hg; exact hg
  | cons d ds ih =>
    intro g hg
    rw [run_cons]
    exact ih _ (GameInv_Update g d hg)

/-- C22. In every state reached from `NewGame` by any sequence of `Update` calls, whatever
the agents answer, every stone on the board belongs to a group with a liberty: from
the stone at `p` a chain of same-coloured stones leads to a stone `q` with an empty
neighbour `n`. -/
theorem no_dead_stone_after_update (g0 : Game) (ds : List Decision) (p : Cordinate) (w : Bool)
    (hp : stoneAt (run (NewGame g0) ds).gameState.Board w p) :
    ∃ q n, Linked (run (NewGame g0) ds).gameState.Board w p q ∧ n ∈ neighbours q ∧
      emptyAt (run (NewGame g0) ds).gameState.Board n :=
  (GameInv_run ds (NewGame g0) (GameInv_NewGame g0)).1 p w hp

/-- C22, instance. On a 3x3 board Black plays the corner `(0,0)`, White plays `(1,0)`, Black
tries the occupied point `(1,0)` and is refused, Black passes, White captures the
corner stone with `(0,1)`: the white stone at `(1,0)` is on the board and its group
has a liberty. -/
theorem no_dead_stone_after_update_witness :
    stoneAt (run (NewGame (blankGame 3)) [place ⟨0, 0⟩, place ⟨1, 0⟩, place ⟨1, 0⟩,
        ⟨true, none, none⟩, place ⟨0, 1⟩]).gameState.Board true ⟨1, 0⟩ ∧
      (run (NewGame (blankGame 3)) [place ⟨0, 0⟩, place ⟨1, 0⟩, place ⟨1, 0⟩,
        ⟨true, none, none⟩, place ⟨0, 1⟩]).gameState.Board =
        [[none, some true, none], [some true, none, none], [none, none, none]] ∧
      ∃ q n, Linked (run (NewGame (blankGame 3)) [place ⟨0, 0⟩, place ⟨1, 0⟩, place ⟨1, 0⟩,
          ⟨true, none, none⟩, place ⟨0, 1⟩]).gameState.Board true ⟨1, 0⟩ q ∧
        n ∈ neighbours q ∧
        emptyAt (run (NewGame (blankGame 3)) [place ⟨0, 0⟩, place ⟨1, 0⟩, place ⟨1, 0⟩,
          ⟨true, none, none⟩, place ⟨0, 1⟩]).gameState.Board n :=
  ⟨⟨by decide, by decide⟩, by decide,
    no_dead_stone_after_update (blankGame 3) [place ⟨0, 0⟩, place ⟨1, 0⟩, place ⟨1, 0⟩,
      ⟨true, none, none⟩, place ⟨0, 1⟩] ⟨1, 0⟩ true ⟨by decide, by decide⟩⟩


/-- An accepted pass that started without a pending delay releases the lock. -/
theorem lock_after_pass (s : Game) (x y : Option Int) (hd : s.delay_lock = false) :
    (playTurn s true x y).locked = ⟨-1, -1⟩ := by
  unfold playTurn commitMove
  simp [hd]

/-- The lock after an accepted placement that started without a pending delay and did not
meet the ko test: on the point just played when exactly one stone was taken, released
otherwise. -/
theorem lock_after_placement (s : Game) (x y : Int) (hd : s.delay_lock = false)
    (hacc : (placePiece s x y s.whiteToMove).1 = true)
    (hko : ¬ koApplies (setCell s.gameState.Board x y (some s.whiteToMove)) s.locked x y
      s.whiteToMove) :
    (playTurn s false (some x) (some y)).locked =
      if (toRemove (setCell s.gameState.Board x y (some s.whiteToMove)) x y
          s.whiteToMove).length = 1 then ⟨x, y⟩ else ⟨-1, -1⟩ := by
  obtain ⟨hin, hem⟩ := placePiece_true_valid s x y _ hacc
  unfold playTurn
  simp only [Bool.false_eq_true, if_false, if_pos hacc]
  have hres := placePiece_result s x y s.whiteToMove hin hem
  by_cases hne : toRemove (setCell s.gameState.Board x y (some s.whiteToMove)) x y
      s.whiteToMove = []
  · have h1 : ¬ (toRemove (setCell s.gameState.Board x y (some s.whiteToMove)) x y
        s.whiteToMove ≠ [] ∧ ¬ koApplies (setCell s.gameState.Board x y (some s.whiteToMove))
        s.locked x y s.whiteToMove) := fun h => h.1 hne
    rw [if_neg h1] at hres
    have hr : (hasRoom (setCell s.gameState.Board x y (some s.whiteToMove)) x y
        s.whiteToMove [] none).1 = true := by
      by_contra hr
      rw [if_neg hr] at hres
      rw [hres] at hacc
      exact absurd hacc Bool.false_ne_true
    rw [if_pos hr] at hres
    rw [hres, hne]
    simp [commitMove, putStone, hd]
  · rw [if_pos ⟨hne, hko⟩] at hres
    rw [hres]
    by_cases h2 : (toRemove (setCell s.gameState.Board x y (some s.whiteToMove)) x y
        s.whiteToMove).length = 1
    · simp only [h2, if_true]
      simp [commitMove]
    · simp only [h2, if_false]
      simp [commitMove, putStone, hd]


/-- C6, counterexample. In the position `koByPlay`, reached by play, Black places `(2,1)`
and takes exactly the white stone at `(1,1)`: the lock is on `(2,1)`. White then
plays elsewhere, at `(0,3)`, an accepted move that takes exactly the black stone at
`(0,4)`. After it the ko lock is not cleared: it sits on `(0,3)`. -/
theorem ko_lock_moves_to_new_capture :
    koByPlay.gameState.Board =
        [[none, some false, some true, none, none],
         [some false, some true, none, some true, none],
         [none, some false, some true, none, none],
         [none, none, none, none, none],
         [some false, some true, none, none, none]] ∧
      toRemove (setCell koByPlay.gameState.Board 2 1 (some false)) 2 1 false = [⟨1, 1⟩] ∧
      accepts koByPlay (place ⟨2, 1⟩) = true ∧
      (next koByPlay (place ⟨2, 1⟩)).locked = ⟨2, 1⟩ ∧
      accepts (next koByPlay (place ⟨2, 1⟩)) (place ⟨0, 3⟩) = true ∧
      (next (next koByPlay (place ⟨2, 1⟩)) (place ⟨0, 3⟩)).locked = ⟨0, 3⟩ ∧
      (next (next koByPlay (place ⟨2, 1⟩)) (place ⟨0, 3⟩)).locked ≠ ⟨-1, -1⟩ := by
  decide

/-- C6, amended. Ko through the driver. In a game in progress (not a replay) let the side
to move place at the empty point `P` and take exactly the one stone at `Q` (the lock
not being on `Q`). Then, with `g1` the state after that `Update`:
the turn is accepted, logged, the stone at `Q` is gone and the lock is on `P`;
the opponent's immediate attempt at `Q`, when it would take exactly the stone at `P`,
is refused and `Update` changes nothing;
after any accepted opponent turn `d2` other than a placement at `Q` the lock has left
`P` and the stone at `P` still stands: after a pass the lock is released, `(-1,-1)`,
and after a placement it is on the point just played when that placement took
exactly one stone and released otherwise;
and after the first side's next accepted turn `d3` (the game still in progress) the
lock is not on `P` either, so that the opponent's placement at `Q` taking exactly the
stone at `P` is accepted, logged, and takes it. -/
theorem ko_lock_survives_one_turn (g : Game) (P Q : Cordinate)
    (hact : g.active = true) (hrep : g.isReplay = false)
    (hin : outOfBounds g.gameState.Board P.X P.Y = false)
    (hem : cellAt g.gameState.Board P.X P.Y = none)
    (hcap : toRemove (setCell g.gameState.Board P.X P.Y (some g.whiteToMove)) P.X P.Y
      g.whiteToMove = [Q])
    (hlk : g.locked ≠ Q) :
    ∀ g1, g1 = next g (place P) →
      (accepts g (place P) = true ∧
        g1.gameState.Moves = g.gameState.Moves ++ [(some P.X, some P.Y)] ∧
        g1.whiteToMove = (!g.whiteToMove) ∧
        cellAt g1.gameState.Board P.X P.Y = some g.whiteToMove ∧
        cellAt g1.gameState.Board Q.X Q.Y = none ∧
        g1.locked = P) ∧
      (toRemove (setCell g1.gameState.Board Q.X Q.Y (some g1.whiteToMove)) Q.X Q.Y
          g1.whiteToMove = [P] →
        accepts g1 (place Q) = false ∧ Update g1 (place Q) = (none, g1)) ∧
      (∀ d2 g2, g2 = next g1 d2 → accepts g1 d2 = true →
        (d2.skip = true ∨ d2.x ≠ some Q.X ∨ d2.y ≠ some Q.Y) →
        g2.locked ≠ P ∧ cellAt g2.gameState.Board P.X P.Y = some g.whiteToMove ∧
        (d2.skip = true → g2.locked = ⟨-1, -1⟩) ∧
        (∀ x y, d2.skip = false → d2.x = some x → d2.y = some y →
          g2.locked =
            if (toRemove (setCell g1.gameState.Board x y (some g1.whiteToMove)) x y
                g1.whiteToMove).length = 1 then ⟨x, y⟩ else ⟨-1, -1⟩) ∧
        ∀ d3 g3, g3 = next g2 d3 → accepts g2 d3 = true → g3.active = true →
          g3.locked ≠ P ∧ g3.whiteToMove = g1.whiteToMove ∧
          (cellAt g3.gameState.Board Q.X Q.Y = none →
            toRemove (setCell g3.gameState.Board Q.X Q.Y (some g3.whiteToMove)) Q.X Q.Y
              g3.whiteToMove = [P] →
            accepts g3 (place Q) = true ∧
              (next g3 (place Q)).gameState.Moves =
                g3.gameState.Moves ++ [(some Q.X, some Q.Y)] ∧
              cellAt (next g3 (place Q)).gameState.Board Q.X Q.Y = some g3.whiteToMove ∧
              cellAt (next g3 (place Q)).gameState.Board P.X P.Y = none)) := by
  intro g1 hg1
  obtain ⟨h1, h2, h3⟩ := ko_lock_one_turn g P Q hact hrep hin hem hcap hlk g1 hg1
  obtain ⟨-, ha1, hr1, hd1, hl1, -, hb1, -, -⟩ :=
    capture_one_step g P Q hact hrep hin hem hcap hlk
  rw [← hg1] at ha1 hr1 hd1 hl1 hb1
  obtain ⟨hQn, hQs, -⟩ := toRemove_singleton _ _ _ _ _ hcap
  have hQe : emptyAt g1.gameState.Board Q :=
    ⟨by rw [hb1, outOfBounds_setCell]; exact hQs.1, h1.2.2.2.2.1⟩
  refine ⟨h1, h2, ?_⟩
  intro d2 g2 hg2 hacc2 hd2
  obtain ⟨hl2, hP2, hrest⟩ := h3 d2 g2 hg2 hacc2 hd2
  rw [next_live g1 d2 ha1 hr1] at hg2
  refine ⟨hl2, hP2, ?_, ?_, hrest⟩
  · intro hs
    rw [hg2, hs]
    exact lock_after_pass g1 _ _ hd1
  · intro x y hs hx hy
    have hp : (placePiece g1 x y g1.whiteToMove).1 = true := by
      unfold accepts at hacc2
      rw [hs, hx, hy] at hacc2
      simpa using hacc2
    obtain ⟨hxin, -⟩ := placePiece_true_valid g1 x y _ hp
    have hne : Q ≠ ⟨x, y⟩ := by
      intro hq
      rcases hd2 with h | h | h
      · rw [hs] at h; exact Bool.false_ne_true h
      · rw [hx, hq] at h; exact h rfl
      · rw [hy, hq] at h; exact h rfl
    have hko : ¬ koApplies (setCell g1.gameState.Board x y (some g1.whiteToMove)) g1.locked
        x y g1.whiteToMove := by
      intro hk
      have hc := (toRemove_singleton _ x y g1.whiteToMove g1.locked
        (eq_singleton_of_ko hk)).2
      rw [hl1] at hc
      exact hc.2 ⟨P, Q, Relation.ReflTransGen.refl, hQn,
        (emptyAt_put g1.gameState.Board x y g1.whiteToMove Q hxin).2 ⟨hne, hQe⟩⟩
    rw [hg2, hs, hx, hy]
    exact lock_after_placement g1 x y hd1 hp hko

/-- C6, instance. From `koByPlay` Black takes `(1,1)` by playing `(2,1)`. White's accepted
move elsewhere, `(0,3)`, takes exactly one stone, so the lock moves to `(0,3)`; after
Black's `(3,3)`, White's placement at `(1,1)` is accepted. -/
theorem ko_lock_survives_one_turn_witness :
    (next (next koByPlay (place ⟨2, 1⟩)) (place ⟨0, 3⟩)).locked = ⟨0, 3⟩ ∧
      accepts (next (next (next koByPlay (place ⟨2, 1⟩)) (place ⟨0, 3⟩)) (place ⟨3, 3⟩))
        (place ⟨1, 1⟩) = true :=
  ⟨(((ko_lock_survives_one_turn koByPlay ⟨2, 1⟩ ⟨1, 1⟩ (by decide) (by decide) (by decide)
      (by decide) (by decide) (by decide) _ rfl).2.2 (place ⟨0, 3⟩) _ rfl (by decide)
        (Or.inr (Or.inl (by decide)))).2.2.2.1 0 3 rfl rfl rfl).trans (if_pos (by decide)),
    ((((ko_lock_survives_one_turn koByPlay ⟨2, 1⟩ ⟨1, 1⟩ (by decide) (by decide) (by decide)
      (by decide) (by decide) (by decide) _ rfl).2.2 (place ⟨0, 3⟩) _ rfl (by decide)
        (Or.inr (Or.inl (by decide)))).2.2.2.2
        (place ⟨3, 3⟩) _ rfl (by decide) (by decide)).2.2 (by decide) (by decide)).1⟩


theorem log2_eq (r : ℚ) (k : Int) (h1 : (2 : ℚ) ^ k ≤ r) (h2 : r < 2 ^ (k + 1)) :
    Int.log 2 r = k := by
  have hr : 0 < r := lt_of_lt_of_le (zpow_pos (by norm_num) k) h1
  have a := (Int.zpow_le_iff_le_log (b := 2) (by norm_num) hr).1 (by exact_mod_cast h1)
  have b := (Int.lt_zpow_iff_log_lt (b := 2) (by norm_num) hr).1 (by exact_mod_cast h2)
  omega

theorem roundHalfEven_of_lt (q : ℚ) (z : Int) (h1 : (z : ℚ) ≤ q) (h2 : q - z < 1 / 2) :
    roundHalfEven q = z := by
  have hf : ⌊q⌋ = z := Int.floor_eq_iff.2 ⟨h1, by linarith⟩
  unfold roundHalfEven
  rw [hf, if_pos h2]

theorem roundHalfEven_of_gt (q : ℚ) (z : Int) (h1 : 1 / 2 < q - z) (h2 : q < z + 1) :
    roundHalfEven q = z + 1 := by
  have hf : ⌊q⌋ = z := Int.floor_eq_iff.2 ⟨by linarith, h2⟩
  unfold roundHalfEven
  rw [hf, if_neg (not_lt.2 (le_of_lt h1)), if_pos h1]

/-- The value of `roundF64` in the normal range: with `2 ^ k ≤ |q| < 2 ^ (k + 1)` it is the
multiple of `2 ^ (k - 52)` nearest to `q`. -/
theorem roundF64_eq (q : ℚ) (k m : Int) (h1 : (2 : ℚ) ^ k ≤ |q|) (h2 : |q| < 2 ^ (k + 1))
    (hk : -1022 ≤ k) (hm : roundHalfEven (q / 2 ^ (k - 52)) = m) :
    roundF64 q = (m : ℚ) * 2 ^ (k - 52) := by
  have hq : q ≠ 0 := by
    intro h0
    rw [h0, abs_zero] at h1
    exact absurd h1 (not_le.2 (zpow_pos (by norm_num) k))
  unfold roundF64
  rw [if_neg hq, log2_eq |q| k h1 h2, max_eq_left hk, hm]

theorem roundF64_zero : roundF64 0 = 0 := by
  unfold roundF64
  rw [if_pos rfl]

theorem roundF64_one : roundF64 1 = 1 := by
  rw [roundF64_eq 1 0 4503599627370496 (by norm_num) (by norm_num) (by norm_num)
    (roundHalfEven_of_lt _ _ (by norm_num) (by norm_num))]
  norm_num

theorem roundF64_eight : roundF64 8 = 8 := by
  rw [roundF64_eq 8 3 4503599627370496 (by norm_num) (by norm_num) (by norm_num)
    (roundHalfEven_of_lt _ _ (by norm_num) (by norm_num))]
  norm_num

/-- The float64 quotient `5 / 3` is `1.6666666666666667`, that is
`7505999378950827 / 2 ^ 52`, not the rational `5 / 3`. -/
theorem roundF64_five_thirds : roundF64 (5 / 3) = 7505999378950827 / 4503599627370496 := by
  rw [roundF64_eq (5 / 3) 0 (7505999378950826 + 1) (by norm_num [abs_of_pos])
    (by norm_num [abs_of_pos]) (by norm_num)
    (roundHalfEven_of_gt _ _ (by norm_num) (by norm_num))]
  norm_num


/-- A match with an inexact quotient, used as example below: on a 3x3 board Black passes,
White places `(0,1)`, Black passes, White places `(1,0)`, Black places `(1,1)`, and both
pass. -/
theorem sample_inexact_matchLoop :
    matchLoop (NewGame (blankGame 3)) [⟨true, none, none⟩, place ⟨0, 1⟩, ⟨true, none, none⟩,
      place ⟨1, 0⟩, place ⟨1, 1⟩, ⟨true, none, none⟩, ⟨true, none, none⟩] =
      some { Dymension := 3, active := false, whiteToMove := true, delay_lock := false,
             locked := ⟨-1, -1⟩, replayMoves := none, replayMoveIdx := 0, isReplay := false,
             gameState :=
               { Board := [[none, some true, none], [some true, some false, none],
                   [none, none, none]],
                 Moves := [(none, none), (some 0, some 1), (none, none), (some 1, some 0),
                   (some 1, some 1), (none, none), (none, none)],
                 WhiteStones := 2, BlackStones := 1, WhiteStonesCaptured := 0,
                 BlackStonesCaptured := 0, MovesCount := 7, WhiteMoves := 1, BlackMoves := 3,
                 OpponentSkipped := true } } := by
  decide

/-- C21, counterexample. On a 3x3 board Black passes, White places `(1,1)`, Black passes,
White passes. White has captured nothing and has played two turns, so the claimed
fitness is the float64 quotient `0 / 2 = 0`; yet `match` returns the fitness `8` for
White: the eight empty points are credited to White as territory and `WhiteMoves`
is `1`. -/
theorem match_fitness_counts_territory :
    ∃ r, playMatch 3 [⟨true, none, none⟩, place ⟨1, 1⟩, ⟨true, none, none⟩,
        ⟨true, none, none⟩] = some r ∧
      r.2.gameState.BlackStonesCaptured = 0 ∧
      r.2.gameState.Moves = [(none, none), (some 1, some 1), (none, none), (none, none)] ∧
      r.1.2.1 = 8 ∧
      r.1.2.1 ≠ roundF64 ((r.2.gameState.BlackStonesCaptured : ℚ) / 2) := by
  have ht : territory [[none, none, none], [none, some true, none], [none, none, none]] =
      (8, 0) := by decide
  have h8 : roundF64 ((((0 : Int) : ℚ) + ((8 : Int) : ℚ)) / max 1 ((1 : Int) : ℚ)) = 8 := by
    have : (((0 : Int) : ℚ) + ((8 : Int) : ℚ)) / max 1 ((1 : Int) : ℚ) = 8 := by norm_num
    rw [this, roundF64_eight]
  have h0 : roundF64 (((0 : Int) : ℚ) / 2) = 0 := by
    have : (((0 : Int) : ℚ)) / 2 = 0 := by norm_num
    rw [this, roundF64_zero]
  unfold playMatch
  rw [sample_matchLoop]
  refine ⟨_, rfl, rfl, rfl, ?_, ?_⟩
  · simp only [FullScore_eq, FullMoves, ht]
    exact h8
  · simp only [FullScore_eq, FullMoves, ht]
    rw [h8, h0]
    norm_num

/-- C21, amended. Whenever `match` returns, the game is finished, the first value is the
score of `FullScore`, and the fitness of White is the float64 quotient of White's
sub-score of `FullScore` (the counter `BlackStonesCaptured` plus the territory the
sweep credits to White) by `max(1, WhiteMoves)`; symmetrically for Black with
`WhiteStonesCaptured`, Black's territory and `BlackMoves`. -/
theorem match_fitness (dim : Int) (answers : List Decision) (r : (ℚ × ℚ × ℚ) × Game)
    (h : playMatch dim answers = some r) :
    r.2.active = false ∧
      r.1.1 = (FullScore r.2).1 ∧
      r.1.2.1 = roundF64 (((r.2.gameState.BlackStonesCaptured : ℚ) +
          ((territory r.2.gameState.Board).1 : ℚ)) / max 1 (r.2.gameState.WhiteMoves : ℚ)) ∧
      r.1.2.2 = roundF64 (((r.2.gameState.WhiteStonesCaptured : ℚ) +
          ((territory r.2.gameState.Board).2 : ℚ)) / max 1 (r.2.gameState.BlackMoves : ℚ)) := by
  unfold playMatch at h
  cases hm : matchLoop (NewGame (blankGame dim)) answers with
  | none => rw [hm] at h; exact Option.noConfusion h
  | some g =>
    rw [hm] at h
    simp only [Option.some.injEq] at h
    rw [← h]
    refine ⟨matchLoop_finished answers _ g hm, rfl, ?_, ?_⟩
    · simp only [FullScore_eq, FullMoves]
    · simp only [FullScore_eq, FullMoves]

/-- C21, instance. On a 3x3 board Black passes, White places `(0,1)`, Black passes, White
places `(1,0)`, Black places `(1,1)`, and both pass. The match returns; Black's
sub-score is `5`, `BlackMoves` is `3`, and Black's fitness is the float64 quotient
`1.6666666666666667`, that is `7505999378950827 / 2 ^ 52`. -/
theorem match_fitness_witness :
    ∃ r, playMatch 3 [⟨true, none, none⟩, place ⟨0, 1⟩, ⟨true, none, none⟩, place ⟨1, 0⟩,
        place ⟨1, 1⟩, ⟨true, none, none⟩, ⟨true, none, none⟩] = some r ∧
      r.1.2.2 = roundF64 (((r.2.gameState.WhiteStonesCaptured : ℚ) +
          ((territory r.2.gameState.Board).2 : ℚ)) / max 1 (r.2.gameState.BlackMoves : ℚ)) ∧
      r.1.2.2 = 7505999378950827 / 4503599627370496 := by
  have ht : territory [[none, some true, none], [some true, some false, none],
      [none, none, none]] = (1, 5) := by decide
  have h53 : (((0 : Int) : ℚ) + ((5 : Int) : ℚ)) / max 1 ((3 : Int) : ℚ) = 5 / 3 := by
    norm_num
  have hp : ∃ r, playMatch 3 [⟨true, none, none⟩, place ⟨0, 1⟩, ⟨true, none, none⟩,
      place ⟨1, 0⟩, place ⟨1, 1⟩, ⟨true, none, none⟩, ⟨true, none, none⟩] = some r ∧
      r.1.2.2 = 7505999378950827 / 4503599627370496 := by
    unfold playMatch
    rw [sample_inexact_matchLoop]
    refine ⟨_, rfl, ?_⟩
    simp only [FullScore_eq, FullMoves, ht]
    rw [h53, roundF64_five_thirds]
  obtain ⟨r, hr, hv⟩ := hp
  exact ⟨r, hr, (match_fitness 3 _ r hr).2.2.2, hv⟩

end Gogo
